import Mathlib

/-!
# Dataflow-analysis framework (Assignment2-Dataflow_Analysis)

A shallow embedding of `include/dfa/MeetOp.h`, `include/dfa/Framework.h`,
`lib/Expression.h`, `lib/AvailExpr.cpp`, `lib/Liveness.cpp` and
`lib/LCM/{1-AntiExpr,2-WBAvailExpr,3-EPlace}.h`, followed by one of
`LocalOpts/lib/2-StrengthReduction.cpp` of Assignment1 (namespace `LocalOpts`).

Conventions of the embedding
* an `assert` that fires, an exception thrown by `std::vector::at` or
  `std::unordered_map::at`, and an access that has undefined behaviour are
  results `Except.error _`;
* a pointer to an LLVM `Value` is a `Value` (pointer identity is equality);
* the `while` loop of `Framework::runOnFunction` is run with fuel; `none`
  means that the fuel ran out before `traverseCFG` returned `false`;
* of the diagnostic dump only the lookups and assertions are modelled, not
  the text written to `errs()` and `outs()`.
-/

namespace dfa

/-! ## The host IR (llvm/IR), as far as the analyses consume it -/

/-- The binary opcodes of `llvm/IR/Instruction.def`
(`FIRST_BINARY_INST .. LAST_BINARY_INST`): exactly the opcodes whose
instructions are `BinaryOperator`s. -/
inductive BinaryOps where
  | Add | FAdd | Sub | FSub | Mul | FMul | UDiv | SDiv | URem | SRem | FRem
  | Shl | LShr | AShr | And | Or | Xor
  deriving DecidableEq

/-- A `const Value *`: an instruction (by identity), a function argument, or
any other value (constant, global, basic block, ...). -/
inductive Value where
  | inst (id : Nat)
  | arg (id : Nat)
  | other (id : Nat)
  deriving DecidableEq

/-- An `llvm::Instruction`. `id` is its identity (its address); a
`BinaryOperator` has a binary opcode and exactly two operands, every other
instruction has some opcode that is not binary and an operand list. -/
inductive Instruction where
  | binary (id : Nat) (Opcode : BinaryOps) (Op0 Op1 : Value)
  | nonBinary (id : Nat) (Opcode : Nat) (Ops : List Value)
  deriving DecidableEq

/-- The identity `&Inst` of an instruction. -/
def Instruction.id : Instruction → Nat
  | .binary id _ _ _ => id
  | .nonBinary id _ _ => id

/-- The instruction seen as a `Value` (`dyn_cast<Value>(&Inst)`). -/
def Instruction.asValue (Inst : Instruction) : Value := Value.inst Inst.id

/-- The operand list `Inst.operands()`. -/
def Instruction.operands : Instruction → List Value
  | .binary _ _ Op0 Op1 => [Op0, Op1]
  | .nonBinary _ _ Ops => Ops

/-- Is the value an `Instruction` (`isa<Instruction>`)? -/
def Value.isInstruction : Value → Bool
  | .inst _ => true
  | _ => false

/-- Is the value an `Argument` (`isa<Argument>`)? -/
def Value.isArgument : Value → Bool
  | .arg _ => true
  | _ => false

/-- An `llvm::BasicBlock`: its instructions in program order, and the
enumerations `predecessors(&BB)` and `successors(&BB)`, each block being named
by its position in the function's block list. -/
structure BasicBlock where
  insts : List Instruction
  preds : List Nat
  succs : List Nat
  deriving DecidableEq

/-- An `llvm::Function`: its basic blocks in the underlying order. -/
structure Function where
  blocks : List BasicBlock
  deriving DecidableEq

/-- The range `instructions(F)`: every instruction, block by block. -/
def instructions (F : Function) : List Instruction :=
  F.blocks.flatMap (fun BB => BB.insts)

/-- The ways a call can fail. -/
inductive Failure where
  /-- The assertion "Size of domain values for merge has to be the same"
  of `Intersect::operator()` and `Union::operator()`. -/
  | mergeSize
  /-- The assertion "Size of domain values has to be the same" of
  `Framework::diff`. -/
  | diffSize
  /-- The assertion `AntiExprIN.size() == TEMP_OV.size()` of
  `WBAvailExprImpl::transferFunc`. -/
  | antiSize
  /-- The exception `std::out_of_range` thrown by `vector::at` or
  `unordered_map::at`. -/
  | outOfRange
  /-- The assertion "The size of mask must be equal to the size of domain."
  of `Framework::printDomainWithMask`. -/
  | maskSize
  /-- Undefined behaviour: `back()` or `front()` of an empty block, or a
  neighbour that is not a block of the function. -/
  | undefined
  deriving DecidableEq

/-- The type `DomainVal_t = std::vector<bool>`. -/
abbrev DomainVal := List Bool

/-! ## MeetOp.h -/

/-- The loop `for (i = 0; i < LHS.size(); i++) result[i] = f(LHS[i], RHS[i])`
run on `result`. -/
def mergeLoop (f : Bool → Bool → Bool) (LHS RHS : DomainVal) (result : DomainVal) : DomainVal :=
  (List.range LHS.length).foldl
    (fun res i => res.set i (f (LHS.getD i false) (RHS.getD i false))) result

/-- The abstract class `MeetOp<bool>`: `operator()` and `top`. -/
structure MeetOp where
  call : DomainVal → DomainVal → Except Failure DomainVal
  top : Nat → DomainVal

/-- The class `Intersect` (logical AND, top is the all-true vector). -/
def Intersect : MeetOp where
  call := fun LHS RHS =>
    if LHS.length ≠ RHS.length then Except.error Failure.mergeSize
    else Except.ok (mergeLoop (fun a b => a && b) LHS RHS (List.replicate LHS.length false))
  top := fun DomainSize => List.replicate DomainSize true

/-- The class `Union` (logical OR, top is the all-false vector). -/
def Union : MeetOp where
  call := fun LHS RHS =>
    if LHS.length ≠ RHS.length then Except.error Failure.mergeSize
    else Except.ok (mergeLoop (fun a b => a || b) LHS RHS (List.replicate LHS.length false))
  top := fun DomainSize => List.replicate DomainSize false

/-! ## Expression.h and Variable.h -/

/-- The struct `Expression`: opcode and the two operand references. -/
structure Expression where
  Opcode : BinaryOps
  LHS : Value
  RHS : Value
  deriving DecidableEq

/-- The cast `dyn_cast<BinaryOperator>(&Inst)` followed by the constructor
`Expression(*BinaryOp)`; `none` when the cast yields null. -/
def Expression.ofInst : Instruction → Option Expression
  | .binary _ Opcode Op0 Op1 => some ⟨Opcode, Op0, Op1⟩
  | .nonBinary _ _ _ => none

/-- The method `Expression::operator==`, called on `this` with argument `Expr`. -/
def Expression.eq (this Expr : Expression) : Bool :=
  if Expr.Opcode = this.Opcode ∧ Expr.LHS = this.LHS ∧ Expr.RHS = this.RHS then true
  else if Expr.Opcode = this.Opcode then
    match this.Opcode with
    | .Add | .FAdd | .Mul | .FMul | .And | .Or | .Xor =>
      if Expr.LHS = this.RHS ∧ Expr.RHS = this.LHS then true else false
    | _ => false
  else false

/-- Modelled from the spec: the struct `Variable` of `lib/Variable.h`, which
is not among the sources. It "wraps a single operand reference (instruction
result or parameter); equality is reference identity". -/
structure Variable where
  Var : Value
  deriving DecidableEq

/-- Modelled from the spec: `Variable::operator==`, reference identity. -/
def Variable.eq (this Var : Variable) : Bool := decide (this.Var = Var.Var)

/-! ## Framework.h -/

/-- Analysis direction, the template parameter `TDirection`. -/
inductive Direction where
  | kForward
  | kBackward
  deriving DecidableEq

/-- The member `InstDomainValMap`, an
`unordered_map<const Instruction *, DomainVal_t>` keyed by instruction
identity. -/
abbrev InstMap := Nat → Option DomainVal

/-- The empty map of a fresh instance. -/
def InstMap.empty : InstMap := fun _ => none

/-- The lookup `Map.at(key)`, which throws when the key is absent. -/
def InstMap.at (m : InstMap) (key : Nat) : Except Failure DomainVal :=
  match m key with
  | some v => Except.ok v
  | none => Except.error Failure.outOfRange

/-- The map with `key` bound to `v`. -/
def InstMap.assign (m : InstMap) (key : Nat) (v : DomainVal) : InstMap :=
  fun k => if k = key then some v else m k

/-- The statement `Map.at(key) = v`, which throws when the key is absent. -/
def InstMap.store (m : InstMap) (key : Nat) (v : DomainVal) : Except Failure InstMap :=
  match m key with
  | some _ => Except.ok (m.assign key v)
  | none => Except.error Failure.outOfRange

/-- The call `Map.emplace(key, v)`, which leaves an existing entry alone. -/
def InstMap.emplace (m : InstMap) (key : Nat) (v : DomainVal) : InstMap :=
  match m key with
  | some _ => m
  | none => m.assign key v

/-- The assignment `V.at(index) = b` on a vector, which throws when out of range. -/
def setAt (V : DomainVal) (index : Nat) (b : Bool) : Except Failure DomainVal :=
  if index < V.length then Except.ok (V.set index b) else Except.error Failure.outOfRange

/-- The data members of `Framework`: `Domain` and `InstDomainValMap`. -/
structure Framework (TDomainElem : Type) where
  Domain : List TDomainElem
  InstDomainValMap : InstMap

/-- What a concrete analysis fixes: the template parameters `TDirection` and
`TMeetOp` and the two pure virtual methods. `transferFunc Domain Inst IV OV`
returns the new value of `OV` and the flag. -/
structure Analysis (TDomainElem : Type) where
  dir : Direction
  meetOp : MeetOp
  initializeDomainFromInst : List TDomainElem → Instruction → List TDomainElem
  transferFunc : List TDomainElem → Instruction → DomainVal → DomainVal →
    Except Failure (DomainVal × Bool)

/-- The block a neighbour pointer refers to. -/
def Function.block (F : Function) (i : Nat) : Except Failure BasicBlock :=
  match F.blocks.get? i with
  | some BB => Except.ok BB
  | none => Except.error Failure.undefined

/-- The call `BB.back()`. -/
def BasicBlock.back (BB : BasicBlock) : Except Failure Instruction :=
  match BB.insts.getLast? with
  | some I => Except.ok I
  | none => Except.error Failure.undefined

/-- The call `BB.front()`. -/
def BasicBlock.front (BB : BasicBlock) : Except Failure Instruction :=
  match BB.insts.head? with
  | some I => Except.ok I
  | none => Except.error Failure.undefined

/-- The loop of `getMeetOperands` for the forward pass, over the remaining
predecessors. -/
def getMeetOperandsForward (F : Function) (m : InstMap) : List Nat → Except Failure (List DomainVal)
  | [] => Except.ok []
  | pred :: rest => do
    let P ← F.block pred
    let I ← P.back
    let v ← m.at I.id
    let operands ← getMeetOperandsForward F m rest
    pure (v :: operands)

/-- The loop of `getMeetOperands` for the backward pass, over the remaining
successors. -/
def getMeetOperandsBackward (F : Function) (m : InstMap) : List Nat → Except Failure (List DomainVal)
  | [] => Except.ok []
  | succ :: rest => do
    let S ← F.block succ
    let I ← S.front
    let v ← m.at I.id
    let operands ← getMeetOperandsBackward F m rest
    pure (v :: operands)

/-- The method `Framework::getMeetOperands`, selected by direction. -/
def getMeetOperands (dir : Direction) (F : Function) (m : InstMap) (BB : BasicBlock) :
    Except Failure (List DomainVal) :=
  match dir with
  | .kForward => getMeetOperandsForward F m BB.preds
  | .kBackward => getMeetOperandsBackward F m BB.succs

/-- The method `Framework::bc`: `DomainVal_t(Domain.size())`, a vector of
`Domain.size()` value-initialised (false) entries. -/
def bc {E : Type} (Domain : List E) : DomainVal := List.replicate Domain.length false

/-- The loop of `Framework::meet` from index 1 on. -/
def meetLoop (MeetOp : MeetOp) : DomainVal → List DomainVal → Except Failure DomainVal
  | merge, [] => Except.ok merge
  | merge, v :: rest => do
    let merge' ← MeetOp.call merge v
    meetLoop MeetOp merge' rest

/-- The method `Framework::meet`. -/
def meet (MeetOp : MeetOp) (MeetOperands : List DomainVal) : Except Failure DomainVal :=
  match MeetOperands with
  | [] => Except.error Failure.outOfRange
  | v :: rest => meetLoop MeetOp v rest

/-- The method `Framework::getBoundaryVal`. -/
def getBoundaryVal {E : Type} (A : Analysis E) (Domain : List E) (F : Function) (m : InstMap)
    (BB : BasicBlock) : Except Failure DomainVal := do
  let MeetOperands ← getMeetOperands A.dir F m BB
  match MeetOperands with
  | [] => pure (bc Domain)
  | _ :: _ => meet A.meetOp MeetOperands

/-- The method `Framework::diff`. -/
def diff (LHS RHS : DomainVal) : Except Failure Bool :=
  if LHS.length ≠ RHS.length then Except.error Failure.diffSize
  else Except.ok ((List.range LHS.length).any
    (fun Idx => LHS.getD Idx false != RHS.getD Idx false))

/-- The method `getBBTraversalOrder`. -/
def getBBTraversalOrder (dir : Direction) (F : Function) : List BasicBlock :=
  match dir with
  | .kForward => F.blocks
  | .kBackward => F.blocks.reverse

/-- The method `getInstTraversalOrder`. -/
def getInstTraversalOrder (dir : Direction) (BB : BasicBlock) : List Instruction :=
  match dir with
  | .kForward => BB.insts
  | .kBackward => BB.insts.reverse

/-- The inner loop of `traverseCFG` over the remaining instructions of a block;
the state is the map, `IN` and `isChanged`. -/
def instLoop {E : Type} (A : Analysis E) (Domain : List E) :
    List Instruction → InstMap → DomainVal → Bool → Except Failure (InstMap × Bool)
  | [], m, _, isChanged => Except.ok (m, isChanged)
  | I :: rest, m, IN, isChanged => do
    let OUT ← m.at I.id
    let (OUT', c) ← A.transferFunc Domain I IN OUT
    let m' ← m.store I.id OUT'
    instLoop A Domain rest m' OUT' (isChanged || c)

/-- The outer loop of `traverseCFG` over the remaining blocks. -/
def bbLoop {E : Type} (A : Analysis E) (Domain : List E) (F : Function) :
    List BasicBlock → InstMap → Bool → Except Failure (InstMap × Bool)
  | [], m, isChanged => Except.ok (m, isChanged)
  | BB :: rest, m, isChanged => do
    let IN ← getBoundaryVal A Domain F m BB
    let (m', isChanged') ← instLoop A Domain (getInstTraversalOrder A.dir BB) m IN isChanged
    bbLoop A Domain F rest m' isChanged'

/-- The method `Framework::traverseCFG`: the map after the sweep and the flag. -/
def traverseCFG {E : Type} (A : Analysis E) (Domain : List E) (F : Function) (m : InstMap) :
    Except Failure (InstMap × Bool) :=
  bbLoop A Domain F (getBBTraversalOrder A.dir F) m false

/-- The method `Framework::initializeDomain`. -/
def initializeDomain {E : Type} (A : Analysis E) (Domain : List E) (F : Function) : List E :=
  (instructions F).foldl A.initializeDomainFromInst Domain

/-- The loop `while (traverseCFG(F)) {}` with fuel: `none` when the fuel runs
out, otherwise the failure or the map at the exit of the loop. -/
def whileTraverseCFG {E : Type} (A : Analysis E) (Domain : List E) (F : Function) :
    Nat → InstMap → Option (Except Failure InstMap)
  | 0, _ => none
  | fuel + 1, m =>
    match traverseCFG A Domain F m with
    | Except.error e => some (Except.error e)
    | Except.ok (m', true) => whileTraverseCFG A Domain F fuel m'
    | Except.ok (m', false) => some (Except.ok m')

/-- The initial conditions of `runOnFunction`:
`InstDomainValMap.emplace(&Inst, MeetOp.top(Domain.size()))` for every
instruction. -/
def applyInitialConditions (MeetOp : MeetOp) (n : Nat) (F : Function) (m : InstMap) : InstMap :=
  (instructions F).foldl (fun m Inst => m.emplace Inst.id (MeetOp.top n)) m

/-- The method `Framework::printDomainWithMask`: its assertion; the text it
writes is not part of the model. -/
def printDomainWithMask {E : Type} (Domain : List E) (Mask : DomainVal) : Except Failure Unit :=
  if Mask.length ≠ Domain.length then Except.error Failure.maskSize else Except.ok ()

/-- The instruction of a block at which the dump prints the boundary value:
`InstParent->front()` in the forward variant, `InstParent->back()` in the
backward variant. -/
def boundaryInst (dir : Direction) (InstParent : BasicBlock) : Except Failure Instruction :=
  match dir with
  | .kForward => InstParent.front
  | .kBackward => InstParent.back

/-- The method `Framework::printInstDomainValMap(const Instruction &)` for an
instruction `Inst` of the block `InstParent`: the lookups and assertions of
the dump. -/
def printInstDomainValMapInst {E : Type} (A : Analysis E) (Domain : List E) (F : Function)
    (m : InstMap) (InstParent : BasicBlock) (Inst : Instruction) : Except Failure Unit := do
  let first ← boundaryInst A.dir InstParent
  let _ ← (if Inst.id = first.id then do
      let v ← getBoundaryVal A Domain F m InstParent
      printDomainWithMask Domain v
    else Except.ok ())
  let v ← m.at Inst.id
  printDomainWithMask Domain v

/-- The dump of the remaining instructions of a block. -/
def printInstsLoop {E : Type} (A : Analysis E) (Domain : List E) (F : Function) (m : InstMap)
    (InstParent : BasicBlock) : List Instruction → Except Failure Unit
  | [] => Except.ok ()
  | Inst :: rest => do
    printInstDomainValMapInst A Domain F m InstParent Inst
    printInstsLoop A Domain F m InstParent rest

/-- The dump of the remaining blocks. -/
def printBlocksLoop {E : Type} (A : Analysis E) (Domain : List E) (F : Function) (m : InstMap) :
    List BasicBlock → Except Failure Unit
  | [] => Except.ok ()
  | BB :: rest => do
    printInstsLoop A Domain F m BB BB.insts
    printBlocksLoop A Domain F m rest

/-- The method `Framework::printInstDomainValMap(const Function &)`, the loop
over `instructions(F)`. -/
def printInstDomainValMap {E : Type} (A : Analysis E) (Domain : List E) (F : Function)
    (m : InstMap) : Except Failure Unit :=
  printBlocksLoop A Domain F m F.blocks

/-- The method `Framework::runOnFunction` on the state `this`, with fuel for
its loop; the result is the state of the instance when it returns. -/
def runOnFunction {E : Type} (A : Analysis E) (fuel : Nat) (this : Framework E) (F : Function) :
    Option (Except Failure (Framework E)) :=
  let Domain := initializeDomain A this.Domain F
  let m := applyInitialConditions A.meetOp Domain.length F this.InstDomainValMap
  match whileTraverseCFG A Domain F fuel m with
  | none => none
  | some (Except.error e) => some (Except.error e)
  | some (Except.ok m') =>
    match printInstDomainValMap A Domain F m' with
    | Except.error e => some (Except.error e)
    | Except.ok _ => some (Except.ok ⟨Domain, m'⟩)

/-- A fresh instance: empty `Domain`, empty `InstDomainValMap`. -/
def Framework.fresh {E : Type} : Framework E := ⟨[], InstMap.empty⟩

/-! ## The concrete analyses -/

/-- The step `if (std::find(Domain.begin(), Domain.end(), x) == Domain.end())
Domain.emplace_back(x)`, with `eq d x` the call `d == x`. -/
def addIfAbsent {E : Type} (eq : E → E → Bool) (Domain : List E) (x : E) : List E :=
  if Domain.findIdx (fun d => eq d x) = Domain.length then Domain ++ [x] else Domain

/-- The step `it = std::find(Domain.begin(), Domain.end(), x); if (it !=
Domain.end()) TEMP.at(it - Domain.begin()) = true`. -/
def setIfFound {E : Type} (eq : E → E → Bool) (Domain : List E) (x : E) (TEMP : DomainVal) :
    Except Failure DomainVal :=
  let index := Domain.findIdx (fun d => eq d x)
  if index < Domain.length then setAt TEMP index true else Except.ok TEMP

/-- The loop `for (Elem : Domain) { if (killed Elem) TEMP.at(Idx) = false;
Idx++; }` over the remaining elements. -/
def killLoop {E : Type} (killed : E → Bool) : List E → Nat → DomainVal → Except Failure DomainVal
  | [], _, TEMP => Except.ok TEMP
  | Elem :: rest, Idx, TEMP => do
    let TEMP' ← if killed Elem then setAt TEMP Idx false else Except.ok TEMP
    killLoop killed rest (Idx + 1) TEMP'

/-- The flag `redefined` of the kill step: an operand of `Expr` is an
instruction and is `&Inst`. -/
def redefined (Inst : Instruction) (Expr : Expression) : Bool :=
  let redefined := false
  let redefined :=
    match Expr.LHS with
    | .inst InstLHS => if InstLHS = Inst.id then true else redefined
    | _ => redefined
  let redefined :=
    match Expr.RHS with
    | .inst InstRHS => if InstRHS = Inst.id then true else redefined
    | _ => redefined
  redefined

/-- The generate step shared by `AvailExpr`, `AntiExprImpl` and
`WBAvailExprImpl`. -/
def generateExpr (Domain : List Expression) (Inst : Instruction) (TEMP : DomainVal) :
    Except Failure DomainVal :=
  match Expression.ofInst Inst with
  | some Expr => setIfFound Expression.eq Domain Expr TEMP
  | none => Except.ok TEMP

/-- The method `initializeDomainFromInst` of `AvailExpr` and of `AntiExprImpl`. -/
def exprInitializeDomainFromInst (Domain : List Expression) (Inst : Instruction) :
    List Expression :=
  match Expression.ofInst Inst with
  | some Expr => addIfAbsent Expression.eq Domain Expr
  | none => Domain

/-- The method `AvailExpr::transferFunc`. -/
def AvailExpr.transferFunc (Domain : List Expression) (Inst : Instruction)
    (IBV OBV : DomainVal) : Except Failure (DomainVal × Bool) := do
  let TEMP_OBV ← generateExpr Domain Inst IBV
  let TEMP_OBV ← killLoop (redefined Inst) Domain 0 TEMP_OBV
  let isChanged ← diff OBV TEMP_OBV
  pure (TEMP_OBV, isChanged)

/-- The class `AvailExpr`: forward, `Intersect`. -/
def AvailExpr : Analysis Expression where
  dir := .kForward
  meetOp := Intersect
  initializeDomainFromInst := exprInitializeDomainFromInst
  transferFunc := AvailExpr.transferFunc

/-- The method `AntiExprImpl::transferFunc`. -/
def AntiExprImpl.transferFunc (Domain : List Expression) (Inst : Instruction)
    (IV OV : DomainVal) : Except Failure (DomainVal × Bool) := do
  let TEMP_OV ← generateExpr Domain Inst IV
  let TEMP_OV ← killLoop (redefined Inst) Domain 0 TEMP_OV
  pure (TEMP_OV, decide (TEMP_OV ≠ OV))

/-- The class `AntiExprImpl`: backward, `Intersect`. -/
def AntiExprImpl : Analysis Expression where
  dir := .kBackward
  meetOp := Intersect
  initializeDomainFromInst := exprInitializeDomainFromInst
  transferFunc := AntiExprImpl.transferFunc

/-- The loop `for (i = 0; i < TEMP_OV.size(); ++i) TEMP_OV[i] = TEMP_OV[i] ||
AntiExprIN[i]`. -/
def unionLoop (TEMP_OV AntiExprIN : DomainVal) : DomainVal :=
  (List.range TEMP_OV.length).foldl
    (fun T i => T.set i (T.getD i false || AntiExprIN.getD i false)) TEMP_OV

/-- The method `WBAvailExprImpl::transferFunc`; `AntiExprInstDomainValMap` is
the member of that name. -/
def WBAvailExprImpl.transferFunc (AntiExprInstDomainValMap : InstMap)
    (Domain : List Expression) (Inst : Instruction) (IV OV : DomainVal) :
    Except Failure (DomainVal × Bool) := do
  let TEMP_OV ← generateExpr Domain Inst IV
  let AntiExprIN ← AntiExprInstDomainValMap.at Inst.id
  if AntiExprIN.length ≠ TEMP_OV.length then Except.error Failure.antiSize
  else
    let TEMP_OV := unionLoop TEMP_OV AntiExprIN
    let TEMP_OV ← killLoop (redefined Inst) Domain 0 TEMP_OV
    pure (TEMP_OV, decide (TEMP_OV ≠ OV))

/-- The class `WBAvailExprImpl`: forward, `Intersect`; its
`initializeDomainFromInst` only prints. -/
def WBAvailExprImpl (AntiExprInstDomainValMap : InstMap) : Analysis Expression where
  dir := .kForward
  meetOp := Intersect
  initializeDomainFromInst := fun Domain _ => Domain
  transferFunc := WBAvailExprImpl.transferFunc AntiExprInstDomainValMap

/-- The method `EPlaceImpl::transferFunc`: `return false`, `OV` untouched. -/
def EPlaceImpl.transferFunc (_Domain : List Expression) (_Inst : Instruction)
    (_IV OV : DomainVal) : Except Failure (DomainVal × Bool) :=
  Except.ok (OV, false)

/-- The class `EPlaceImpl`: forward, `Intersect`. -/
def EPlaceImpl : Analysis Expression where
  dir := .kForward
  meetOp := Intersect
  initializeDomainFromInst := fun Domain _ => Domain
  transferFunc := EPlaceImpl.transferFunc

/-- The loop of `Liveness::initializeDomainFromInst` over the operands. -/
def Liveness.initializeDomainFromInst (Domain : List Variable) (Inst : Instruction) :
    List Variable :=
  Inst.operands.foldl
    (fun Domain value =>
      if value.isInstruction || value.isArgument then
        addIfAbsent Variable.eq Domain ⟨value⟩
      else Domain)
    Domain

/-- The generate loop of `Liveness::transferFunc` over the remaining operands. -/
def Liveness.generateLoop (Domain : List Variable) : List Value → DomainVal →
    Except Failure DomainVal
  | [], TEMP => Except.ok TEMP
  | value :: rest, TEMP => do
    let TEMP' ←
      if value.isInstruction || value.isArgument then
        setIfFound Variable.eq Domain ⟨value⟩ TEMP
      else Except.ok TEMP
    Liveness.generateLoop Domain rest TEMP'

/-- The method `Liveness::transferFunc`. -/
def Liveness.transferFunc (Domain : List Variable) (Inst : Instruction)
    (IBV OBV : DomainVal) : Except Failure (DomainVal × Bool) := do
  let TEMP_OBV ← killLoop (fun variableDom => Variable.eq ⟨Inst.asValue⟩ variableDom) Domain 0 IBV
  let TEMP_OBV ← Liveness.generateLoop Domain Inst.operands TEMP_OBV
  pure (TEMP_OBV, decide (TEMP_OBV ≠ OBV))

/-- The class `Liveness`: backward, `Union`. -/
def Liveness : Analysis Variable where
  dir := .kBackward
  meetOp := Union
  initializeDomainFromInst := Liveness.initializeDomainFromInst
  transferFunc := Liveness.transferFunc

/-! ## The LCM pipeline -/

/-- The method `AntiExprWrapperPass::runOnFunction` on its member `AntiExpr`. -/
def AntiExprWrapperPass.runOnFunction (fuel : Nat) (AntiExpr : Framework Expression)
    (F : Function) : Option (Except Failure (Framework Expression)) :=
  dfa.runOnFunction AntiExprImpl fuel AntiExpr F

/-- The data members of `WBAvailExprImpl`. `BasicBlockBoundaryValMap` is
keyed by the position of the block. -/
structure WBAvailExprState where
  base : Framework Expression
  AntiExprInstDomainValMap : InstMap
  BasicBlockBoundaryValMap : Nat → Option DomainVal

/-- A fresh `WBAvailExprImpl`. -/
def WBAvailExprState.fresh : WBAvailExprState := ⟨Framework.fresh, InstMap.empty, fun _ => none⟩

/-- The method `WBAvailExprImpl::initialize`: the Anticipated domain is
appended to `Domain`, the Anticipated map is stored. -/
def WBAvailExprState.initialize (this : WBAvailExprState) (AntiExprDomain : List Expression)
    (AntiExprInstDomainValMap : InstMap) : WBAvailExprState :=
  { this with
    base := ⟨this.base.Domain ++ AntiExprDomain, this.base.InstDomainValMap⟩
    AntiExprInstDomainValMap := AntiExprInstDomainValMap }

/-- The loop of `constructBasicBlockBoundaryValMap` over the remaining blocks,
`idx` being the position of the next one. -/
def constructBoundaryLoop (A : Analysis Expression) (Domain : List Expression) (F : Function)
    (m : InstMap) : List BasicBlock → Nat → (Nat → Option DomainVal) →
    Except Failure (Nat → Option DomainVal)
  | [], _, bmap => Except.ok bmap
  | BB :: rest, idx, bmap => do
    let v ← getBoundaryVal A Domain F m BB
    let bmap' := fun k => match bmap k with
      | some w => some w
      | none => if k = idx then some v else none
    constructBoundaryLoop A Domain F m rest (idx + 1) bmap'

/-- The method `WBAvailExprWrapperPass::runOnFunction` on its member
`WBAvailExpr`, given the `AntiExprWrapperPass` that has run on `F`. -/
def WBAvailExprWrapperPass.runOnFunction (fuel : Nat) (WBAvailExpr : WBAvailExprState)
    (AntiExpr : Framework Expression) (F : Function) :
    Option (Except Failure WBAvailExprState) :=
  let this := WBAvailExpr.initialize AntiExpr.Domain AntiExpr.InstDomainValMap
  let A := WBAvailExprImpl this.AntiExprInstDomainValMap
  match dfa.runOnFunction A fuel this.base F with
  | none => none
  | some (Except.error e) => some (Except.error e)
  | some (Except.ok fw) =>
    match constructBoundaryLoop A fw.Domain F fw.InstDomainValMap F.blocks 0
        this.BasicBlockBoundaryValMap with
    | Except.error e => some (Except.error e)
    | Except.ok bmap => some (Except.ok { this with base := fw, BasicBlockBoundaryValMap := bmap })

/-- The data members of `EPlaceImpl`. -/
structure EPlaceState where
  base : Framework Expression
  AntiExprInstDomainValMap : InstMap
  WBAvailExprBoundaryVals : Nat → Option DomainVal

/-- A fresh `EPlaceImpl`. -/
def EPlaceState.fresh : EPlaceState := ⟨Framework.fresh, InstMap.empty, fun _ => none⟩

/-- The method `EPlaceImpl::initialize`. -/
def EPlaceState.initialize (this : EPlaceState) (AntiExprDomain : List Expression)
    (AntiExprInstDomainValMap : InstMap) (WBAvailExprBoundaryVals : Nat → Option DomainVal) :
    EPlaceState :=
  { base := ⟨this.base.Domain ++ AntiExprDomain, this.base.InstDomainValMap⟩
    AntiExprInstDomainValMap := AntiExprInstDomainValMap
    WBAvailExprBoundaryVals := WBAvailExprBoundaryVals }

/-- The method `EPlaceWrapperPass::runOnFunction` on its member `EPlace`,
given the two passes that have run on `F`. -/
def EPlaceWrapperPass.runOnFunction (fuel : Nat) (EPlace : EPlaceState)
    (AntiExpr : Framework Expression) (WBAvailExpr : WBAvailExprState) (F : Function) :
    Option (Except Failure EPlaceState) :=
  let this := EPlace.initialize AntiExpr.Domain AntiExpr.InstDomainValMap
    WBAvailExpr.BasicBlockBoundaryValMap
  match dfa.runOnFunction EPlaceImpl fuel this.base F with
  | none => none
  | some (Except.error e) => some (Except.error e)
  | some (Except.ok fw) => some (Except.ok { this with base := fw })

/-! ## Auxiliary definitions used to state the properties -/

/-- The opcodes of the commutative case of `Expression::operator==`. -/
def BinaryOps.isCommutative : BinaryOps → Bool
  | .Add | .FAdd | .Mul | .FMul | .And | .Or | .Xor => true
  | _ => false

/-- No two elements of the domain compare equal under `eq`. -/
def Distinct {E : Type} (eq : E → E → Bool) (Domain : List E) : Prop :=
  Domain.Pairwise (fun a b => eq a b = false)

/-- At most one element of the list satisfies `p`. -/
def AtMostOne {E : Type} (p : E → Bool) (Domain : List E) : Prop :=
  Domain.Pairwise (fun a b => ¬ (p a = true ∧ p b = true))

/-- The generate condition: `Inst` is a binary operator whose expression
compares equal to the domain element `e`. -/
def exprGen (Inst : Instruction) (e : Expression) : Bool :=
  match Expression.ofInst Inst with
  | some Expr => e.eq Expr
  | none => false

/-- The output of the transfer function of `AvailExpr` and `AntiExprImpl` on
a distinct domain, entry by entry. -/
def exprTransfer (Inst : Instruction) (D : List Expression) (IN : DomainVal) : DomainVal :=
  List.zipWith (fun e b => !redefined Inst e && (exprGen Inst e || b)) D IN

/-- The output of the transfer function of `WBAvailExprImpl`, entry by entry. -/
def wbTransfer (Anti : DomainVal) (Inst : Instruction) (D : List Expression)
    (IN : DomainVal) : DomainVal :=
  List.zipWith (fun e b => !redefined Inst e && b) D
    (List.zipWith (fun a b => a || b)
      (List.zipWith (fun e b => exprGen Inst e || b) D IN) Anti)

/-- The generate condition of liveness: the variable is an operand of `Inst`
that is an instruction or an argument. -/
def liveGen (Inst : Instruction) (d : Variable) : Bool :=
  Inst.operands.any (fun value => (value.isInstruction || value.isArgument) && d.eq ⟨value⟩)

/-- The output of the transfer function of `Liveness`, entry by entry. -/
def liveTransfer (Inst : Instruction) (D : List Variable) (IN : DomainVal) : DomainVal :=
  List.zipWith (fun d b => liveGen Inst d || (!Variable.eq ⟨Inst.asValue⟩ d && b)) D IN

/-! ## Definitions used to state the properties of the engine -/

/-- A function as the engine can receive it: no block is empty, the
neighbours of every block are blocks of the function, and distinct
instructions have distinct identities. -/
structure WellFormed (F : Function) : Prop where
  nonempty : ∀ BB ∈ F.blocks, BB.insts ≠ []
  preds : ∀ BB ∈ F.blocks, ∀ p ∈ BB.preds, p < F.blocks.length
  succs : ∀ BB ∈ F.blocks, ∀ s ∈ BB.succs, s < F.blocks.length
  nodup : ((instructions F).map Instruction.id).Nodup

/-- The instructions of a traversal order, each paired with the instruction
that precedes it in that order (`prev` for the first one). -/
def tasksFrom (prev : Option Instruction) : List Instruction →
    List (Option Instruction × Instruction)
  | [] => []
  | I :: rest => (prev, I) :: tasksFrom (some I) rest

/-- The instructions of block `BB` in the in-block traversal order, each with
its predecessor in that order, `none` for the first. -/
def blockTasks (dir : Direction) (BB : BasicBlock) : List (Option Instruction × Instruction) :=
  tasksFrom none (getInstTraversalOrder dir BB)

/-- The incoming vector of an instruction of `BB` on the map `m`:
`getBoundaryVal(BB)` when it is first in the traversal order, the map entry
of the previous instruction otherwise. -/
def incoming {E : Type} (A : Analysis E) (Domain : List E) (F : Function) (m : InstMap)
    (BB : BasicBlock) (prev : Option Instruction) : Except Failure DomainVal :=
  match prev with
  | none => getBoundaryVal A Domain F m BB
  | some J => m.at J.id

/-- The dataflow equation holds at one instruction: the stored vector is
what `transferFunc` outputs on the incoming vector, and no change is flagged. -/
def FixedAt {E : Type} (A : Analysis E) (Domain : List E) (F : Function) (m : InstMap)
    (BB : BasicBlock) (task : Option Instruction × Instruction) : Prop :=
  ∃ IN OUT, incoming A Domain F m BB task.1 = Except.ok IN ∧ m task.2.id = some OUT ∧
    A.transferFunc Domain task.2 IN OUT = Except.ok (OUT, false)

/-- The map is a fixed point of the dataflow equations of the analysis. -/
def FixedPoint {E : Type} (A : Analysis E) (Domain : List E) (F : Function) (m : InstMap) :
    Prop :=
  ∀ BB ∈ F.blocks, ∀ task ∈ blockTasks A.dir BB, FixedAt A Domain F m BB task

/-- The stored vector, empty when there is none. -/
def val (m : InstMap) (id : Nat) : DomainVal := (m id).getD []

/-- The lattice order on fact vectors with top bit `t`: entry by entry, a top
bit on the left is a top bit on the right. -/
def VLe (t : Bool) (v w : DomainVal) : Prop := List.Forall₂ (fun a b => a = t → b = t) v w

/-- The order on maps, entry by entry. -/
def MLe (t : Bool) (m' m : InstMap) : Prop := ∀ id, VLe t (val m' id) (val m id)

/-- The meet on bits: AND when the top bit is `true`, OR when it is `false`. -/
def bitMeet (t : Bool) (a b : Bool) : Bool := if t then a && b else a || b

/-- Every instruction of the function has an entry, of length `n`. -/
def Good (n : Nat) (F : Function) (m : InstMap) : Prop :=
  ∀ I ∈ instructions F, ∃ v, m I.id = some v ∧ v.length = n

/-- The number of top bits stored for the instructions of the function. -/
def topBits (t : Bool) (F : Function) (m : InstMap) : Nat :=
  ((instructions F).map (fun I => (val m I.id).count t)).sum

/-- What the convergence argument needs of an analysis on the domain `D`:
its meet is the bitwise meet and its top the vector of bits `t`, and on the instructions of `F`
its transfer function is the pure, length-preserving, monotone function `g`,
the flag telling whether the output differs from the previous one. -/
structure Sound {E : Type} (A : Analysis E) (D : List E) (F : Function) (t : Bool)
    (g : Instruction → DomainVal → DomainVal) : Prop where
  call_eq : ∀ v w : DomainVal, v.length = w.length →
    A.meetOp.call v w = Except.ok (List.zipWith (bitMeet t) v w)
  top_eq : ∀ k : Nat, A.meetOp.top k = List.replicate k t
  tf_eq : ∀ I ∈ instructions F, ∀ IN OV : DomainVal, IN.length = D.length →
    OV.length = D.length →
    A.transferFunc D I IN OV = Except.ok (g I IN, decide (g I IN ≠ OV))
  g_len : ∀ I ∈ instructions F, ∀ IN : DomainVal, IN.length = D.length →
    (g I IN).length = D.length
  g_mono : ∀ I ∈ instructions F, ∀ v w : DomainVal, VLe t v w → VLe t (g I v) (g I w)

/-- The loop of `getMeetOperands` with the choice of the neighbour's
instruction (`back` or `front`) as a parameter. -/
def operandsLoop (pick : BasicBlock → Except Failure Instruction) (F : Function) (m : InstMap) :
    List Nat → Except Failure (List DomainVal)
  | [] => Except.ok []
  | nb :: rest => do
    let B ← F.block nb
    let I ← pick B
    let v ← m.at I.id
    let operands ← operandsLoop pick F m rest
    pure (v :: operands)

/-- The post-fixed-point invariant of the iteration: every stored vector is
above what the transfer function makes of its current incoming vector. -/
def PostFix {E : Type} (A : Analysis E) (D : List E) (F : Function) (t : Bool)
    (g : Instruction → DomainVal → DomainVal) (m : InstMap) : Prop :=
  ∀ BB ∈ F.blocks, ∀ task ∈ blockTasks A.dir BB, ∀ IN,
    incoming A D F m BB task.1 = Except.ok IN → VLe t (g task.2 IN) (val m task.2.id)

/-! ## Example inputs -/

/-- The block `t1 = a + b; t2 = t1 + c; ret t2` with parameters `a`, `b`, `c`
(arguments 0, 1, 2) and no successors: instruction 0 is `t1`, 1 is `t2`, 2 is
the `ret`. -/
def exLiveBlock : BasicBlock :=
  ⟨[.binary 0 .Add (.arg 0) (.arg 1), .binary 1 .Add (.inst 0) (.arg 2),
    .nonBinary 2 1 [.inst 1]], [], []⟩

/-- The function whose only block is `exLiveBlock`. -/
def exLive : Function := ⟨[exLiveBlock]⟩

/-- The block `x = a + b; ret x`, without neighbours: instruction 0 is `x`, 1
is the `ret`. -/
def exCarryBlock : BasicBlock :=
  ⟨[.binary 0 .Add (.arg 0) (.arg 1), .nonBinary 1 1 [.inst 0]], [], []⟩

/-- The function whose only block is `exCarryBlock`. -/
def exCarry : Function := ⟨[exCarryBlock]⟩

/-- The block `x = a + b; a = load p; y = a + b` in which the operand `a` of
the expression is the middle instruction: instruction 0 is `x`, 1 is `a`, 2
is `y`. -/
def exKill : Function :=
  ⟨[⟨[.binary 0 .Add (.inst 1) (.arg 1), .nonBinary 1 32 [.arg 0],
      .binary 2 .Add (.inst 1) (.arg 1)], [], []⟩]⟩

/-- The stored vectors of the listed instructions. -/
def Framework.entries {E : Type} (fw : Framework E) (ids : List Nat) : List (Option DomainVal) :=
  ids.map fw.InstDomainValMap

end dfa

namespace dfa

/-- The domain and the stored vectors of the listed instructions after
`runOnFunction` on a fresh instance; `none` unless the run returns. -/
def runSummary {E : Type} (A : Analysis E) (fuel : Nat) (F : Function) (ids : List Nat) :
    Option (List E × List (Option DomainVal)) :=
  match runOnFunction A fuel Framework.fresh F with
  | some (Except.ok fw) => some (fw.Domain, fw.entries ids)
  | _ => none

/-- The domain and the Anticipated and Will-Be-Available vectors of the listed
instructions after the two passes have run on fresh instances; `none` unless
both return. -/
def lcmSummary (fuel : Nat) (F : Function) (ids : List Nat) :
    Option (List Expression × List (Option DomainVal) × List (Option DomainVal)) :=
  match AntiExprWrapperPass.runOnFunction fuel Framework.fresh F with
  | some (Except.ok AntiExpr) =>
    match WBAvailExprWrapperPass.runOnFunction fuel WBAvailExprState.fresh AntiExpr F with
    | some (Except.ok wb) =>
      some (wb.base.Domain, AntiExpr.entries ids, wb.base.entries ids)
    | _ => none
  | _ => none

/-! ## Definitions for the second group of properties -/

/-- The position, in the reversed block list of a function with `n` blocks, of
the block at position `i`; a position outside the function stays outside. -/
def revIndex (n i : Nat) : Nat := if i < n then n - 1 - i else i

/-- A block of the reversed function: the instructions in reverse order, the
predecessors being the successors the block has in the function (in the same
enumeration order), and the successors its predecessors. -/
def revBlock (n : Nat) (BB : BasicBlock) : BasicBlock :=
  ⟨BB.insts.reverse, BB.succs.map (revIndex n), BB.preds.map (revIndex n)⟩

/-- The reversed function `rev(F)`: the blocks of `F` in reverse order, each
reversed by `revBlock`. -/
def Function.rev (F : Function) : Function :=
  ⟨F.blocks.reverse.map (revBlock F.blocks.length)⟩

/-- The variant of an analysis for the direction `dir`: same meet operator,
same domain rule, same transfer function. -/
def Analysis.withDir {E : Type} (A : Analysis E) (dir : Direction) : Analysis E :=
  { A with dir := dir }

/-- The blocks `entry: br`, `then: x = a + b; br`, `join: y = a + b; ret`,
with the edges entry → then, entry → join, then → join: instruction 0 is the
first `br`, 1 is `x`, 2 the second `br`, 3 is `y`, 4 the `ret`. -/
def exJoin : Function :=
  ⟨[⟨[.nonBinary 0 2 []], [], [1, 2]⟩,
    ⟨[.binary 1 .Add (.arg 0) (.arg 1), .nonBinary 2 2 []], [0], [2]⟩,
    ⟨[.binary 3 .Add (.arg 0) (.arg 1), .nonBinary 4 1 [.inst 3]], [0, 1], []⟩]⟩

/-- The join block of `exJoin`. -/
def exJoinBlock : BasicBlock :=
  ⟨[.binary 3 .Add (.arg 0) (.arg 1), .nonBinary 4 1 [.inst 3]], [0, 1], []⟩

end dfa

namespace dfa

/-- A second function, `y = c + d; ret y` in one block, with its own
arguments (2, 3) and instructions (10, 11), for runs of a pass instance that
has already run on another function. -/
def exSecond : Function :=
  ⟨[⟨[.binary 10 .Add (.arg 2) (.arg 3), .nonBinary 11 1 [.inst 10]], [], []⟩]⟩

/-- The pass instances of the Anticipated and Will-Be-Available passes run on
`F1` and then, the same instances, on `F2`: the Will-Be-Available domain after
the first run, the Anticipated domain after the second run, the
Will-Be-Available domain after `initialize` of the second run, and the domain
or the failure of the second Will-Be-Available run; `none` unless the first
three runs return. -/
def reuseSummary (fuel : Nat) (F1 F2 : Function) :
    Option (List Expression × List Expression × List Expression ×
      Option (Except Failure (List Expression))) :=
  match AntiExprWrapperPass.runOnFunction fuel Framework.fresh F1 with
  | some (Except.ok anti1) =>
    match WBAvailExprWrapperPass.runOnFunction fuel WBAvailExprState.fresh anti1 F1 with
    | some (Except.ok wb1) =>
      match AntiExprWrapperPass.runOnFunction fuel anti1 F2 with
      | some (Except.ok anti2) =>
        some (wb1.base.Domain, anti2.Domain,
          ( WBAvailExprState.initialize wb1 anti2.Domain anti2.InstDomainValMap).base.Domain,
          (WBAvailExprWrapperPass.runOnFunction fuel wb1 anti2 F2).map
            (fun r => r.map (fun wb2 => wb2.base.Domain)))
      | _ => none
    | _ => none
  | _ => none

/-- The three passes of the pipeline run on fresh instances: the domain, the
Anticipated vectors of the listed instructions, the Will-Be-Available boundary
values of the listed blocks and the Earliest-Placement vectors of the listed
instructions; `none` unless all three return. -/
def pipelineSummary (fuel : Nat) (F : Function) (ids blocks : List Nat) :
    Option (List Expression × List (Option DomainVal) × List (Option DomainVal) ×
      List (Option DomainVal)) :=
  match AntiExprWrapperPass.runOnFunction fuel Framework.fresh F with
  | some (Except.ok AntiExpr) =>
    match WBAvailExprWrapperPass.runOnFunction fuel WBAvailExprState.fresh AntiExpr F with
    | some (Except.ok wb) =>
      match EPlaceWrapperPass.runOnFunction fuel EPlaceState.fresh AntiExpr wb F with
      | some (Except.ok ep) =>
        some (ep.base.Domain, AntiExpr.entries ids, blocks.map wb.BasicBlockBoundaryValMap,
          ep.base.entries ids)
      | _ => none
    | _ => none
  | _ => none

end dfa

namespace dfa

/-- The analysis with a check of the lengths around every call of
`transferFunc`: the call fails when the incoming vector or the previous output
has not the length of the domain, or when the new output has not. A run of
the engine on it fails as soon as one call sees a vector of another length. -/
def Analysis.checked {E : Type} (A : Analysis E) : Analysis E :=
  { A with
    transferFunc := fun Domain Inst IV OV =>
      if IV.length ≠ Domain.length ∨ OV.length ≠ Domain.length then
        Except.error Failure.diffSize
      else
        match A.transferFunc Domain Inst IV OV with
        | Except.ok (OUT, isChanged) =>
          if OUT.length ≠ Domain.length then Except.error Failure.diffSize
          else Except.ok (OUT, isChanged)
        | Except.error e => Except.error e }

/-- Every vector of the map has length `n`. -/
def AllLength (n : Nat) (m : InstMap) : Prop := ∀ id v, m id = some v → v.length = n

/-- What the length invariant needs of an analysis on the domain `D`: its
meet is the bitwise meet and its top the vector of bits `t`, and on the
instructions of `F` its transfer function returns an output of length `|D|`
when the incoming vector and the previous output have that length. -/
structure LenSound {E : Type} (A : Analysis E) (D : List E) (F : Function) (t : Bool) :
    Prop where
  call_eq : ∀ v w : DomainVal, v.length = w.length →
    A.meetOp.call v w = Except.ok (List.zipWith (bitMeet t) v w)
  top_eq : ∀ k : Nat, A.meetOp.top k = List.replicate k t
  tf_len : ∀ I ∈ instructions F, ∀ IN OV : DomainVal, IN.length = D.length →
    OV.length = D.length →
    ∃ OUT isChanged, A.transferFunc D I IN OV = Except.ok (OUT, isChanged) ∧
      OUT.length = D.length

/-- The length invariant of a run of `runOnFunction` of the analysis `A` on
the instance `this` and the function `F`, with `D` the domain after
`initializeDomain` and `m0` the map after the initial conditions:
* in `m0` every instruction of `F` has the entry `top(|D|)`, and every vector
  of `m0` has length `|D|`;
* from every map `m` that has an entry for every instruction of `F` and only
  vectors of length `|D|`, every boundary value has length `|D|`, and a sweep
  returns a map of that kind, also with the lengths checked at every call of
  `transferFunc`;
* the run with the lengths checked at every call of `transferFunc` is the run
  itself, for every fuel;
* the run returns, with a map whose vectors all have length `|D|`. -/
def LengthInvariant {E : Type} (A : Analysis E) (this : Framework E) (F : Function) : Prop :=
  (∀ I ∈ instructions F,
    applyInitialConditions A.meetOp (initializeDomain A this.Domain F).length F
      this.InstDomainValMap I.id
      = some (A.meetOp.top (initializeDomain A this.Domain F).length)) ∧
  AllLength (initializeDomain A this.Domain F).length
    (applyInitialConditions A.meetOp (initializeDomain A this.Domain F).length F
      this.InstDomainValMap) ∧
  (∀ m : InstMap, (∀ I ∈ instructions F, ∃ v, m I.id = some v) →
    AllLength (initializeDomain A this.Domain F).length m →
    (∀ BB ∈ F.blocks, ∃ v,
      getBoundaryVal A (initializeDomain A this.Domain F) F m BB = Except.ok v ∧
      v.length = (initializeDomain A this.Domain F).length) ∧
    ∃ m' isChanged,
      traverseCFG A (initializeDomain A this.Domain F) F m = Except.ok (m', isChanged) ∧
      traverseCFG A.checked (initializeDomain A this.Domain F) F m
        = Except.ok (m', isChanged) ∧
      (∀ I ∈ instructions F, ∃ v, m' I.id = some v) ∧
      AllLength (initializeDomain A this.Domain F).length m') ∧
  (∀ fuel, runOnFunction A.checked fuel this F = runOnFunction A fuel this F) ∧
  (∃ N, ∀ fuel, N ≤ fuel → ∃ fw, runOnFunction A fuel this F = some (Except.ok fw) ∧
    AllLength fw.Domain.length fw.InstDomainValMap)

end dfa

namespace dfa

/-- The map after the inner loop of `traverseCFG` on the instructions `l` from
the incoming vector `IN`, when the transfer function is the pure function `g`:
each instruction stores what `g` makes of the output of the one before. -/
def chainMap (g : Instruction → DomainVal → DomainVal) :
    List Instruction → InstMap → DomainVal → InstMap
  | [], m, _ => m
  | I :: rest, m, IN => chainMap g rest (m.assign I.id (g I IN)) (g I IN)

/-- The stored vectors of the instructions `l` are the chain of outputs of `g`
from the incoming vector `IN`. -/
def Chain (g : Instruction → DomainVal → DomainVal) (m : InstMap) :
    DomainVal → List Instruction → Prop
  | _, [] => True
  | IN, I :: rest => m I.id = some (g I IN) ∧ Chain g m (g I IN) rest

/-- The vector `β` is a boundary value the block `BB` was last swept from: it
has the length of the domain, the stored vectors of the block are the chain
from `β`, and the boundary value of the block on the map `m` is below `β`. -/
def GhostAt {E : Type} (A : Analysis E) (D : List E) (F : Function) (t : Bool)
    (g : Instruction → DomainVal → DomainVal) (m : InstMap) (BB : BasicBlock)
    (β : DomainVal) : Prop :=
  β.length = D.length ∧ Chain g m β (getInstTraversalOrder A.dir BB) ∧
    ∃ b, getBoundaryVal A D F m BB = Except.ok b ∧ VLe t b β

/-- The number of top bits of a list of vectors. -/
def ghostBits (t : Bool) (bs : List DomainVal) : Nat := (bs.map (fun β => β.count t)).sum

/-- A block that is its own predecessor: `t0 = phi; t1 = t2 + a; t2 = phi`. -/
def exLoop : Function :=
  ⟨[⟨[.nonBinary 0 2 [], .binary 1 .Add (.inst 2) (.arg 0), .nonBinary 2 2 []], [0], [0]⟩]⟩

/-- A transfer function is monotone in its incoming vector: on every domain
`D` and instruction `Inst` that meet `pre`, for incoming vectors `IN1`, `IN2`
and previous outputs `OV1`, `OV2` of length `|D|` with `IN1[j]` implying
`IN2[j]` for every `j`, both calls return and the outputs satisfy `OUT1[j]`
implies `OUT2[j]` for every `j`. -/
def MonotoneTransfer {E : Type} (pre : List E → Instruction → Prop)
    (transferFunc : List E → Instruction → DomainVal → DomainVal →
      Except Failure (DomainVal × Bool)) : Prop :=
  ∀ (D : List E) (Inst : Instruction) (IN1 IN2 OV1 OV2 : DomainVal), pre D Inst →
    IN1.length = D.length → IN2.length = D.length → OV1.length = D.length →
    OV2.length = D.length → VLe true IN1 IN2 →
    ∃ OUT1 c1 OUT2 c2, transferFunc D Inst IN1 OV1 = Except.ok (OUT1, c1) ∧
      transferFunc D Inst IN2 OV2 = Except.ok (OUT2, c2) ∧ VLe true OUT1 OUT2

/-- A transfer function maps sequences to sequences monotonically: for every
sequence of incoming vectors and of previous outputs of length `|D|` the
calls return a sequence of outputs, which is non-increasing when the inputs
are and non-decreasing when the inputs are. -/
def MonotoneOnSequences {E : Type} (pre : List E → Instruction → Prop)
    (transferFunc : List E → Instruction → DomainVal → DomainVal →
      Except Failure (DomainVal × Bool)) : Prop :=
  ∀ (D : List E) (Inst : Instruction) (IN OV : Nat → DomainVal), pre D Inst →
    (∀ k, (IN k).length = D.length) → (∀ k, (OV k).length = D.length) →
    ∃ OUT : Nat → DomainVal,
      (∀ k, ∃ c, transferFunc D Inst (IN k) (OV k) = Except.ok (OUT k, c)) ∧
      ((∀ k, VLe true (IN (k + 1)) (IN k)) → ∀ k, VLe true (OUT (k + 1)) (OUT k)) ∧
      ((∀ k, VLe true (IN k) (IN (k + 1))) → ∀ k, VLe true (OUT k) (OUT (k + 1)))

end dfa

namespace dfa

/-- Following the words of the spec: the first occurrences, in order, of the
elements of a list modulo `eq`. An element is kept when no element before it
compares equal to it; `seen` holds the elements before the rest of the list. -/
def firstOccurrencesFrom {E : Type} (eq : E → E → Bool) : List E → List E → List E
  | _, [] => []
  | seen, x :: rest =>
    if seen.any (fun y => eq y x) then firstOccurrencesFrom eq (seen ++ [x]) rest
    else x :: firstOccurrencesFrom eq (seen ++ [x]) rest

/-- Following the words of the spec: the first occurrences, in order, of the
elements of a list modulo `eq`. -/
def firstOccurrences {E : Type} (eq : E → E → Bool) (l : List E) : List E :=
  firstOccurrencesFrom eq [] l

/-- The expressions of the binary-operator instructions of `F`, in program
order. -/
def expressionsOf (F : Function) : List Expression :=
  (instructions F).filterMap Expression.ofInst

end dfa

namespace dfa

/-- A solution of the available-expression equations on `exCarry`
(`x = a + b; ret x`, domain `[a + b]`): the expression is available after
both instructions. -/
def exCarrySolution : InstMap := fun id => if id = 0 ∨ id = 1 then some [true] else none

/-- A solution of the liveness equations on `exLive`
(`t1 = a + b; t2 = t1 + c; ret t2`, domain `[a, b, t1, c, t2]`): `{a, b, c}`
before `t1`, `{t1, c}` before `t2`, `{t2}` before the `ret`. -/
def exLiveSolution : InstMap := fun id =>
  if id = 0 then some [true, true, false, true, false]
  else if id = 1 then some [false, false, true, true, false]
  else if id = 2 then some [false, false, false, false, true]
  else none

end dfa

namespace dfa

/-- The inner loop of `traverseCFG` (`instLoop`) with a record of the calls:
`calls` lists, in order, the instructions `transferFunc` has been called on. -/
def instLoopLog {E : Type} (A : Analysis E) (Domain : List E) :
    List Instruction → InstMap → DomainVal → Bool → List Instruction →
    Except Failure (InstMap × Bool × List Instruction)
  | [], m, _, isChanged, calls => Except.ok (m, isChanged, calls)
  | I :: rest, m, IN, isChanged, calls => do
    let OUT ← m.at I.id
    let (OUT', c) ← A.transferFunc Domain I IN OUT
    let m' ← m.store I.id OUT'
    instLoopLog A Domain rest m' OUT' (isChanged || c) (calls ++ [I])

/-- The outer loop of `traverseCFG` (`bbLoop`) with the record of the calls. -/
def bbLoopLog {E : Type} (A : Analysis E) (Domain : List E) (F : Function) :
    List BasicBlock → InstMap → Bool → List Instruction →
    Except Failure (InstMap × Bool × List Instruction)
  | [], m, isChanged, calls => Except.ok (m, isChanged, calls)
  | BB :: rest, m, isChanged, calls => do
    let IN ← getBoundaryVal A Domain F m BB
    let (m', isChanged', calls') ←
      instLoopLog A Domain (getInstTraversalOrder A.dir BB) m IN isChanged calls
    bbLoopLog A Domain F rest m' isChanged' calls'

/-- The method `Framework::traverseCFG` with the record of the calls of
`transferFunc`. -/
def traverseCFGLog {E : Type} (A : Analysis E) (Domain : List E) (F : Function) (m : InstMap) :
    Except Failure (InstMap × Bool × List Instruction) :=
  bbLoopLog A Domain F (getBBTraversalOrder A.dir F) m false []

/-- The flag of the transfer function is exact: whenever a call returns, the
flag is `true` exactly when the new value of `OV` differs from the old one. -/
def FlagExact {E : Type} (A : Analysis E) : Prop :=
  ∀ (D : List E) (I : Instruction) (IN OV OUT : DomainVal) (c : Bool),
    A.transferFunc D I IN OV = Except.ok (OUT, c) → (c = true ↔ OUT ≠ OV)

/-- Convergence is a predicate of the whole sweep, for the analysis `A` on the
domain `D` and the function `F`, from every map `m`:
* `traverseCFGLog` is `traverseCFG` with the record of the calls added;
* when every instruction of `F` has a vector and every vector of `m` has
  length `|D|`, the sweep returns;
* when the sweep returns, `transferFunc` has been called on the instructions
  of the blocks in traversal order, block after block, which lists every
  instruction of `F` as often as `instructions(F)` does, and the flag is
  `true` exactly when the vector of some instruction of `F` differs from the
  one before the sweep. -/
def WholeSweep {E : Type} (A : Analysis E) (D : List E) (F : Function) : Prop :=
  ∀ m : InstMap,
    (traverseCFGLog A D F m).map (fun r => (r.1, r.2.1)) = traverseCFG A D F m ∧
    ((∀ I ∈ instructions F, ∃ v, m I.id = some v) → AllLength D.length m →
      ∃ m' isChanged, traverseCFG A D F m = Except.ok (m', isChanged)) ∧
    ∀ m' isChanged calls, traverseCFGLog A D F m = Except.ok (m', isChanged, calls) →
      calls = (getBBTraversalOrder A.dir F).flatMap (getInstTraversalOrder A.dir) ∧
      calls.Perm (instructions F) ∧
      (isChanged = true ↔ ∃ I ∈ instructions F, m' I.id ≠ m I.id)

/-! ## Strength reduction (Assignment1-Introduction_to_LLVM, LocalOpts)

A shallow embedding of `LocalOpts/lib/2-StrengthReduction.cpp`: the helper
`isPowerofTwo` and the body of the loops of `StrengthReduction::runOnFunction`
for one `BinaryOperator`. An `int` is an `Int` in `[-2^31, 2^31)`, an
`int64_t` an `Int` in `[-2^63, 2^63)`; the bits of an `iN` value are a `Nat`
below `2^N`. The `while` loop of `isPowerofTwo` is run with fuel. -/

namespace LocalOpts

/-- The conversion of an `int64_t` to `int`: the value modulo `2^32`, read as
a two's complement 32-bit number. -/
def toInt (c : Int) : Int := (c + 2 ^ 31) % 2 ^ 32 - 2 ^ 31

/-- The loop `while (n != 1) { if (n % 2 != 0) return 0; power++; n = n / 2; }
return power;` of `isPowerofTwo`, with fuel; `%` and `/` are those of C, which
truncate toward zero. `none` when the fuel runs out. -/
def isPowerofTwoLoop : Nat → Int → Int → Option Int
  | 0, _, _ => none
  | fuel + 1, n, power =>
    if n = 1 then some power
    else if n.tmod 2 ≠ 0 then some 0
    else isPowerofTwoLoop fuel (n.tdiv 2) (power + 1)

/-- The function `isPowerofTwo(int n)`. -/
def isPowerofTwo (fuel : Nat) (n : Int) : Option Int :=
  if n = 0 then some 0 else isPowerofTwoLoop fuel n 0

/-- The bits of an `iN` value read as a signed number. -/
def toSigned (BitWidth : Nat) (VAL : Nat) : Int :=
  if VAL < 2 ^ (BitWidth - 1) then (VAL : Int) else (VAL : Int) - 2 ^ BitWidth

/-- The bits of a signed number as an `iN` value. -/
def toBits (BitWidth : Nat) (z : Int) : Nat := (z % 2 ^ BitWidth).toNat

/-- An operand of a `BinaryOperator`, of type `iN` with `N = BitWidth`: a
`ConstantInt` with its bits, or any other value, named by `id`. -/
inductive Operand where
  | constantInt (BitWidth : Nat) (VAL : Nat)
  | value (BitWidth : Nat) (id : Nat)
  deriving DecidableEq

/-- The width of the type of the operand (`getType()`). -/
def Operand.BitWidth : Operand → Nat
  | .constantInt BitWidth _ => BitWidth
  | .value BitWidth _ => BitWidth

/-- A `BinaryOperator`: opcode and the operands `getOperand(0)`,
`getOperand(1)`. -/
structure BinaryOperator where
  Opcode : BinaryOps
  Op0 : Operand
  Op1 : Operand
  deriving DecidableEq

/-- The assertion "Too many bits for int64_t!" of `APInt::getSExtValue`. -/
inductive Failure where
  | tooManyBits
  deriving DecidableEq

/-- The call `ConstantInt::getSExtValue()`: the value sign-extended to an
`int64_t`; the assertion fails when it needs more than 64 bits. -/
def getSExtValue (BitWidth : Nat) (VAL : Nat) : Except Failure Int :=
  if -(2 : Int) ^ 63 ≤ toSigned BitWidth VAL ∧ toSigned BitWidth VAL < (2 : Int) ^ 63 then
    Except.ok (toSigned BitWidth VAL)
  else Except.error Failure.tooManyBits

/-- The statements `int power = isPowerofTwo(C->getSExtValue()); if (power > 0)
{ ... builder.Create<shift>(X, power) ... }` for the constant operand `C` and
the other operand `X`: the instruction the `IRBuilder` creates, whose second
operand is `ConstantInt::get(X->getType(), power)`; `none` inside when
`power > 0` fails. -/
def shiftBy (shift : BinaryOps) (fuel : Nat) (BitWidth VAL : Nat) (X : Operand) :
    Option (Except Failure (Option BinaryOperator)) :=
  match getSExtValue BitWidth VAL with
  | Except.error e => some (Except.error e)
  | Except.ok c =>
    match isPowerofTwo fuel (toInt c) with
    | none => none
    | some power =>
      if power > 0 then
        some (Except.ok (some ⟨shift, X, .constantInt X.BitWidth power.toNat⟩))
      else some (Except.ok none)

/-- The body of the loops of `StrengthReduction::runOnFunction` for the
`BinaryOperator` `op`: the instruction inserted before `op`, by which all
uses of `op` are replaced and for which `op` is put on the list of dead
instructions; `none` inside when `op` is left alone, `none` outside when the
fuel of `isPowerofTwo` runs out. -/
def visit (fuel : Nat) (op : BinaryOperator) : Option (Except Failure (Option BinaryOperator)) :=
  match op.Opcode with
  | .Mul =>
    match op.Op0 with
    | .constantInt BitWidth VAL => shiftBy .LShr fuel BitWidth VAL op.Op1
    | .value _ _ =>
      match op.Op1 with
      | .constantInt BitWidth VAL => shiftBy .LShr fuel BitWidth VAL op.Op0
      | .value _ _ => some (Except.ok none)
  | .SDiv =>
    match op.Op1 with
    | .constantInt BitWidth VAL => shiftBy .AShr fuel BitWidth VAL op.Op0
    | .value _ _ => some (Except.ok none)
  | _ => some (Except.ok none)

/-- The bits of an operand when the values named by `id` have the bits `ρ id`. -/
def Operand.eval (ρ : Nat → Nat) : Operand → Nat
  | .constantInt _ VAL => VAL
  | .value _ id => ρ id

/-- The value of `mul`, `sdiv`, `shl`, `lshr` and `ashr` on `iN` operands with
bits `a` and `b`, after the LLVM language reference: `mul` wraps; a shift by
`N` or more is poison; `lshr` fills with zeros and `ashr` with the sign bit;
`sdiv` rounds toward zero and is undefined for a zero divisor and on overflow.
`none` stands for poison and undefined behaviour, and for the opcodes the pass
neither reads nor creates. -/
def evalBinary (BitWidth : Nat) (Opcode : BinaryOps) (a b : Nat) : Option Nat :=
  match Opcode with
  | .Mul => some ((a * b) % 2 ^ BitWidth)
  | .Shl => if b < BitWidth then some ((a * 2 ^ b) % 2 ^ BitWidth) else none
  | .LShr => if b < BitWidth then some (a / 2 ^ b) else none
  | .AShr =>
    if b < BitWidth then some (toBits BitWidth ((toSigned BitWidth a).fdiv (2 ^ b))) else none
  | .SDiv =>
    if toSigned BitWidth b = 0 then none
    else if toSigned BitWidth a = -(2 : Int) ^ (BitWidth - 1) ∧ toSigned BitWidth b = -1 then none
    else some (toBits BitWidth ((toSigned BitWidth a).tdiv (toSigned BitWidth b)))
  | _ => none

/-- The value of a `BinaryOperator` under `ρ`. -/
def BinaryOperator.eval (ρ : Nat → Nat) (op : BinaryOperator) : Option Nat :=
  evalBinary op.Op0.BitWidth op.Opcode (op.Op0.eval ρ) (op.Op1.eval ρ)

end LocalOpts

/-! ## Lemmas on the vector loops -/

theorem set_length_append_cons (pre : List Bool) (b c : Bool) (suf : List Bool) :
    (pre ++ b :: suf).set pre.length c = pre ++ c :: suf := by
  induction pre with
  | nil => rfl
  | cons a pre ih => simp [ih]

theorem foldl_range_set_length (φ : Nat → Bool → Bool) (k : Nat) (T : List Bool) :
    ((List.range k).foldl (fun T i => T.set i (φ i (T.getD i false))) T).length = T.length := by
  induction k with
  | zero => rfl
  | succ n ihn =>
    rw [List.range_succ, List.foldl_append]
    simp only [List.foldl_cons, List.foldl_nil, List.length_set]
    exact ihn

/-- An index loop that rewrites entry `i` from its own old value, run on the
first `k` indices. -/
theorem foldl_range_set (φ : Nat → Bool → Bool) (k : Nat) (T : List Bool) :
    ∀ j, ((List.range k).foldl (fun T i => T.set i (φ i (T.getD i false))) T)[j]? =
      if j < k then (T[j]?).map (φ j) else T[j]? := by
  induction k with
  | zero => intro j; simp
  | succ k ih =>
    intro j
    rw [List.range_succ, List.foldl_append]
    simp only [List.foldl_cons, List.foldl_nil]
    rw [List.getElem?_set]
    by_cases hkj : k = j
    · subst hkj
      simp only [if_true, Nat.lt_succ_self]
      have hlen : ((List.range k).foldl (fun T i => T.set i (φ i (T.getD i false))) T).length
          = T.length := foldl_range_set_length φ k T
      rw [hlen, List.getD_eq_getElem?_getD, ih k]
      simp only [lt_irrefl, if_false]
      by_cases hk : k < T.length
      · simp [hk, List.getElem?_eq_getElem hk]
      · simp [hk, List.getElem?_eq_none (not_lt.mp hk)]
    · rw [if_neg hkj, ih j]
      by_cases hjk : j < k
      · rw [if_pos hjk, if_pos (by omega)]
      · rw [if_neg hjk, if_neg (by omega)]

theorem mergeLoop_eq_zipWith (f : Bool → Bool → Bool) (LHS RHS : DomainVal)
    (h : LHS.length = RHS.length) :
    mergeLoop f LHS RHS (List.replicate LHS.length false) = List.zipWith f LHS RHS := by
  apply List.ext_getElem?
  intro j
  unfold mergeLoop
  have key := foldl_range_set (fun i _ => f (LHS.getD i false) (RHS.getD i false))
    LHS.length (List.replicate LHS.length false) j
  simp only at key
  rw [key, List.getElem?_zipWith]
  by_cases hj : j < LHS.length
  · have hj2 : j < RHS.length := h ▸ hj
    simp [hj, List.getElem?_replicate, List.getElem?_eq_getElem hj, List.getElem?_eq_getElem hj2,
      List.getD_eq_getElem?_getD]
  · have hj2 : ¬ j < RHS.length := h ▸ hj
    simp [hj, List.getElem?_replicate, List.getElem?_eq_none (not_lt.mp hj)]

theorem unionLoop_eq_zipWith (TEMP_OV AntiExprIN : DomainVal)
    (h : AntiExprIN.length = TEMP_OV.length) :
    unionLoop TEMP_OV AntiExprIN = List.zipWith (fun a b => a || b) TEMP_OV AntiExprIN := by
  apply List.ext_getElem?
  intro j
  unfold unionLoop
  have key := foldl_range_set (fun i b => b || AntiExprIN.getD i false)
    TEMP_OV.length TEMP_OV j
  simp only at key
  rw [key, List.getElem?_zipWith]
  by_cases hj : j < TEMP_OV.length
  · have hj2 : j < AntiExprIN.length := h ▸ hj
    simp [hj, List.getElem?_eq_getElem hj, List.getElem?_eq_getElem hj2,
      List.getD_eq_getElem?_getD]
  · simp [hj, List.getElem?_eq_none (not_lt.mp hj)]

theorem Intersect_call_ok (LHS RHS : DomainVal) (h : LHS.length = RHS.length) :
    Intersect.call LHS RHS = Except.ok (List.zipWith (fun a b => a && b) LHS RHS) := by
  simp only [Intersect, h, ne_eq, not_true_eq_false, if_false]
  rw [← h, mergeLoop_eq_zipWith _ _ _ h]

theorem Union_call_ok (LHS RHS : DomainVal) (h : LHS.length = RHS.length) :
    Union.call LHS RHS = Except.ok (List.zipWith (fun a b => a || b) LHS RHS) := by
  simp only [Union, h, ne_eq, not_true_eq_false, if_false]
  rw [← h, mergeLoop_eq_zipWith _ _ _ h]

/-! ## Equality of domain elements -/

theorem Expression.eq_iff (a b : Expression) :
    a.eq b = true ↔ a.Opcode = b.Opcode ∧
      ((a.LHS = b.LHS ∧ a.RHS = b.RHS) ∨
        (a.Opcode.isCommutative = true ∧ a.LHS = b.RHS ∧ a.RHS = b.LHS)) := by
  obtain ⟨oa, la, ra⟩ := a
  obtain ⟨ob, lb, rb⟩ := b
  unfold Expression.eq
  simp only
  by_cases hop : ob = oa
  · subst hop
    by_cases h1 : lb = la ∧ rb = ra
    · obtain ⟨h1a, h1b⟩ := h1
      subst h1a; subst h1b
      simp
    · rw [if_neg (by tauto)]
      simp only [if_true]
      cases ob <;> simp [BinaryOps.isCommutative] <;> tauto
  · rw [if_neg (by tauto), if_neg hop]
    simp only [Bool.false_eq_true, false_iff]
    intro h
    exact hop h.1.symm

theorem Expression.eq_refl (a : Expression) : a.eq a = true := by
  rw [Expression.eq_iff]; simp

theorem Expression.eq_symm {a b : Expression} (h : a.eq b = true) : b.eq a = true := by
  rw [Expression.eq_iff] at h ⊢
  obtain ⟨h1, h2⟩ := h
  refine ⟨h1.symm, ?_⟩
  rcases h2 with ⟨h3, h4⟩ | ⟨h3, h4, h5⟩
  · exact Or.inl ⟨h3.symm, h4.symm⟩
  · exact Or.inr ⟨h1 ▸ h3, h5.symm, h4.symm⟩

theorem Expression.eq_trans {a b c : Expression} (h : a.eq b = true) (h' : b.eq c = true) :
    a.eq c = true := by
  rw [Expression.eq_iff] at h h' ⊢
  obtain ⟨h1, h2⟩ := h
  obtain ⟨h1', h2'⟩ := h'
  refine ⟨h1.trans h1', ?_⟩
  rcases h2 with ⟨h3, h4⟩ | ⟨h3, h4, h5⟩ <;> rcases h2' with ⟨h3', h4'⟩ | ⟨h3', h4', h5'⟩
  · exact Or.inl ⟨h3.trans h3', h4.trans h4'⟩
  · exact Or.inr ⟨h1 ▸ h3', h3.trans h4', h4.trans h5'⟩
  · exact Or.inr ⟨h3, h4.trans h4', h5.trans h3'⟩
  · exact Or.inl ⟨h4.trans h5', h5.trans h4'⟩

theorem Distinct.atMostOne_expr {D : List Expression} (h : Distinct Expression.eq D)
    (x : Expression) : AtMostOne (fun d => d.eq x) D := by
  unfold Distinct at h
  unfold AtMostOne
  refine h.imp ?_
  intro a b hab hboth
  have : a.eq b = true := Expression.eq_trans hboth.1 (Expression.eq_symm hboth.2)
  rw [hab] at this
  exact Bool.false_ne_true this

theorem Distinct.atMostOne_var {D : List Variable} (h : Distinct Variable.eq D)
    (x : Variable) : AtMostOne (fun d => d.eq x) D := by
  unfold Distinct at h
  unfold AtMostOne
  refine h.imp ?_
  intro a b hab hboth
  simp only [Variable.eq, decide_eq_true_eq, decide_eq_false_iff_not] at hab hboth
  exact hab (hboth.1.trans hboth.2.symm)

/-! ## Closed forms of the steps of the transfer functions -/

@[simp]
theorem ok_bind {α β : Type} (a : α) (f : α → Except Failure β) :
    (Except.ok a >>= f) = f a := rfl

@[simp]
theorem error_bind {α β : Type} (e : Failure) (f : α → Except Failure β) :
    ((Except.error e : Except Failure α) >>= f) = Except.error e := rfl

@[simp]
theorem pure_eq_ok {α : Type} (a : α) : (pure a : Except Failure α) = Except.ok a := rfl

theorem zipWith_noop {E : Type} (p : E → Bool) (D : List E) (T : DomainVal)
    (hlen : T.length = D.length) (hp : ∀ e ∈ D, p e = false) :
    List.zipWith (fun d b => p d || b) D T = T := by
  induction D generalizing T with
  | nil =>
    cases T with
    | nil => rfl
    | cons b T => simp at hlen
  | cons d D ih =>
    cases T with
    | nil => simp at hlen
    | cons b T =>
      simp only [List.zipWith_cons_cons]
      rw [hp d (List.mem_cons_self _ _), ih T (by simpa using hlen)
        (fun e he => hp e (List.mem_cons_of_mem _ he))]
      rfl

theorem set_findIdx_eq_zipWith {E : Type} (p : E → Bool) (D : List E) (T : DomainVal)
    (hlen : T.length = D.length) (hone : AtMostOne p D) :
    (if D.findIdx p < D.length then T.set (D.findIdx p) true else T)
      = List.zipWith (fun d b => p d || b) D T := by
  induction D generalizing T with
  | nil =>
    cases T with
    | nil => rfl
    | cons b T => simp at hlen
  | cons d D ih =>
    cases T with
    | nil => simp at hlen
    | cons b T =>
      have hlen' : T.length = D.length := by simpa using hlen
      unfold AtMostOne at hone
      rw [List.pairwise_cons] at hone
      rw [List.findIdx_cons]
      cases hpd : p d with
      | true =>
        simp only [cond_true, List.length_cons, Nat.zero_lt_succ, if_true, List.set_cons_zero,
          List.zipWith_cons_cons, hpd, Bool.true_or]
        rw [zipWith_noop p D T hlen']
        intro e he
        have := hone.1 e he
        cases hpe : p e with
        | false => rfl
        | true => exact absurd ⟨hpd, hpe⟩ this
      | false =>
        simp only [cond_false, List.length_cons, Nat.add_lt_add_iff_right, List.set_cons_succ,
          List.zipWith_cons_cons, hpd, Bool.false_or]
        rw [← ih T hlen' hone.2]
        split <;> rfl

theorem setIfFound_eq {E : Type} (eq : E → E → Bool) (D : List E) (x : E) (T : DomainVal)
    (hlen : T.length = D.length) (hone : AtMostOne (fun d => eq d x) D) :
    setIfFound eq D x T = Except.ok (List.zipWith (fun d b => eq d x || b) D T) := by
  unfold setIfFound
  simp only
  rw [← set_findIdx_eq_zipWith (fun d => eq d x) D T hlen hone]
  by_cases h : D.findIdx (fun d => eq d x) < D.length
  · rw [if_pos h, if_pos h]
    unfold setAt
    rw [if_pos (hlen ▸ h)]
  · rw [if_neg h, if_neg h]

theorem killLoop_append {E : Type} (killed : E → Bool) (D : List E) :
    ∀ (pre suf : DomainVal), suf.length = D.length →
      killLoop killed D pre.length (pre ++ suf)
        = Except.ok (pre ++ List.zipWith (fun e b => !killed e && b) D suf) := by
  induction D with
  | nil =>
    intro pre suf h
    cases suf with
    | nil => simp [killLoop]
    | cons b suf => simp at h
  | cons e D ih =>
    intro pre suf h
    cases suf with
    | nil => simp at h
    | cons b suf =>
      have h' : suf.length = D.length := by simpa using h
      have hlt : pre.length < (pre ++ b :: suf).length := by simp
      have key := ih (pre ++ [!killed e && b]) suf h'
      simp only [List.length_append, List.length_singleton, List.append_assoc,
        List.singleton_append] at key
      unfold killLoop
      cases hk : killed e with
      | true =>
        rw [hk] at key
        simp only [if_true, setAt, hlt, set_length_append_cons, ok_bind, List.zipWith_cons_cons,
          hk]
        simpa using key
      | false =>
        rw [hk] at key
        simp only [ok_bind, List.zipWith_cons_cons, hk, Bool.false_eq_true, if_false]
        simpa using key

theorem killLoop_eq {E : Type} (killed : E → Bool) (D : List E) (T : DomainVal)
    (hlen : T.length = D.length) :
    killLoop killed D 0 T = Except.ok (List.zipWith (fun e b => !killed e && b) D T) := by
  simpa using killLoop_append killed D [] T hlen

theorem zipWith_zipWith {E : Type} (f g : E → Bool → Bool) (D : List E) (T : DomainVal) :
    List.zipWith f D (List.zipWith g D T) = List.zipWith (fun e b => f e (g e b)) D T := by
  induction D generalizing T with
  | nil => simp
  | cons d D ih =>
    cases T with
    | nil => simp
    | cons b T => simp [ih]

theorem diff_eq (LHS RHS : DomainVal) (h : LHS.length = RHS.length) :
    diff LHS RHS = Except.ok (decide (RHS ≠ LHS)) := by
  unfold diff
  rw [if_neg (by simpa using h)]
  congr 1
  rw [Bool.eq_iff_iff]
  simp only [List.any_eq_true, List.mem_range, bne_iff_ne, ne_eq, decide_eq_true_eq]
  constructor
  · rintro ⟨i, _, hi⟩ heq
    exact hi (by rw [heq])
  · intro hne
    by_contra hall
    apply hne
    apply List.ext_getElem?
    intro i
    by_cases hi : i < LHS.length
    · have := not_exists.mp hall i
      simp only [not_and, not_not] at this
      have := this hi
      rw [List.getD_eq_getElem?_getD, List.getD_eq_getElem?_getD,
        List.getElem?_eq_getElem hi, List.getElem?_eq_getElem (h ▸ hi)] at this
      rw [List.getElem?_eq_getElem hi, List.getElem?_eq_getElem (h ▸ hi)]
      simpa using this.symm
    · rw [List.getElem?_eq_none (not_lt.mp hi), List.getElem?_eq_none (h ▸ not_lt.mp hi)]

/-! ## Closed forms of the transfer functions -/

theorem redefined_iff (Inst : Instruction) (e : Expression) :
    redefined Inst e = true ↔ (e.LHS = Inst.asValue ∨ e.RHS = Inst.asValue) := by
  obtain ⟨op, l, r⟩ := e
  unfold redefined Instruction.asValue
  cases l <;> cases r <;> (simp; try tauto)

theorem generateExpr_eq (D : List Expression) (Inst : Instruction) (T : DomainVal)
    (hD : Distinct Expression.eq D) (hlen : T.length = D.length) :
    generateExpr D Inst T = Except.ok (List.zipWith (fun e b => exprGen Inst e || b) D T) := by
  unfold generateExpr exprGen
  cases h : Expression.ofInst Inst with
  | none =>
    simp only
    rw [zipWith_noop (fun _ => false) D T hlen (fun _ _ => rfl)]
  | some x =>
    simp only
    exact setIfFound_eq Expression.eq D x T hlen (hD.atMostOne_expr x)

theorem zipWith_kill_gen (Inst : Instruction) (D : List Expression) (IN : DomainVal) :
    List.zipWith (fun e b => !redefined Inst e && b) D
      (List.zipWith (fun e b => exprGen Inst e || b) D IN) = exprTransfer Inst D IN := by
  rw [zipWith_zipWith]; rfl

theorem length_exprTransfer (Inst : Instruction) (D : List Expression) (IN : DomainVal)
    (hlen : IN.length = D.length) : (exprTransfer Inst D IN).length = D.length := by
  simp [exprTransfer, hlen]

theorem availExpr_transferFunc_eq (D : List Expression) (Inst : Instruction)
    (IN OV : DomainVal) (hD : Distinct Expression.eq D) (hIN : IN.length = D.length)
    (hOV : OV.length = D.length) :
    AvailExpr.transferFunc D Inst IN OV
      = Except.ok (exprTransfer Inst D IN, decide (exprTransfer Inst D IN ≠ OV)) := by
  unfold AvailExpr.transferFunc
  rw [generateExpr_eq D Inst IN hD hIN]
  simp only [ok_bind]
  rw [killLoop_eq _ D _ (by simp [hIN]), zipWith_kill_gen]
  simp only [ok_bind]
  rw [diff_eq OV _ (by rw [hOV, length_exprTransfer Inst D IN hIN])]
  rfl

theorem antiExpr_transferFunc_eq (D : List Expression) (Inst : Instruction)
    (IN OV : DomainVal) (hD : Distinct Expression.eq D) (hIN : IN.length = D.length) :
    AntiExprImpl.transferFunc D Inst IN OV
      = Except.ok (exprTransfer Inst D IN, decide (exprTransfer Inst D IN ≠ OV)) := by
  unfold AntiExprImpl.transferFunc
  rw [generateExpr_eq D Inst IN hD hIN]
  simp only [ok_bind]
  rw [killLoop_eq _ D _ (by simp [hIN]), zipWith_kill_gen]
  rfl

theorem length_wbTransfer (Anti : DomainVal) (Inst : Instruction) (D : List Expression)
    (IN : DomainVal) (hlen : IN.length = D.length) (hA : Anti.length = D.length) :
    (wbTransfer Anti Inst D IN).length = D.length := by
  simp [wbTransfer, hlen, hA]

theorem wbAvailExpr_transferFunc_eq (AntiMap : InstMap) (Anti : DomainVal)
    (D : List Expression) (Inst : Instruction) (IN OV : DomainVal)
    (hD : Distinct Expression.eq D) (hIN : IN.length = D.length)
    (hA : AntiMap Inst.id = some Anti) (hAlen : Anti.length = D.length) :
    WBAvailExprImpl.transferFunc AntiMap D Inst IN OV
      = Except.ok (wbTransfer Anti Inst D IN, decide (wbTransfer Anti Inst D IN ≠ OV)) := by
  unfold WBAvailExprImpl.transferFunc
  rw [generateExpr_eq D Inst IN hD hIN]
  simp only [ok_bind, InstMap.at, hA]
  have hl : Anti.length = (List.zipWith (fun e b => exprGen Inst e || b) D IN).length := by
    simp [hIN, hAlen]
  rw [if_neg (by simpa using hl), unionLoop_eq_zipWith _ _ hl,
    killLoop_eq _ D _ (by simp [hIN, hAlen])]
  rfl

theorem liveness_generateLoop_eq (D : List Variable) (hD : Distinct Variable.eq D) :
    ∀ (ops : List Value) (T : DomainVal), T.length = D.length →
      Liveness.generateLoop D ops T = Except.ok (List.zipWith
        (fun d b => ops.any (fun value => (value.isInstruction || value.isArgument)
          && d.eq ⟨value⟩) || b) D T) := by
  intro ops
  induction ops with
  | nil =>
    intro T hlen
    simp only [Liveness.generateLoop, List.any_nil]
    rw [zipWith_noop (fun _ => false) D T hlen (fun _ _ => rfl)]
  | cons value rest ih =>
    intro T hlen
    unfold Liveness.generateLoop
    cases hv : (value.isInstruction || value.isArgument) with
    | false =>
      simp only [Bool.false_eq_true, if_false, ok_bind, List.any_cons, hv, Bool.false_and,
        Bool.false_or]
      exact ih T hlen
    | true =>
      simp only [if_true]
      rw [setIfFound_eq Variable.eq D ⟨value⟩ T hlen (hD.atMostOne_var _)]
      simp only [ok_bind]
      rw [ih _ (by simp [hlen]), zipWith_zipWith]
      congr 2
      funext d b
      simp only [List.any_cons, hv, Bool.true_and]
      cases d.eq ⟨value⟩ <;> cases (rest.any _) <;> cases b <;> rfl

theorem length_liveTransfer (Inst : Instruction) (D : List Variable) (IN : DomainVal)
    (hlen : IN.length = D.length) : (liveTransfer Inst D IN).length = D.length := by
  simp [liveTransfer, hlen]

theorem liveness_transferFunc_eq (D : List Variable) (Inst : Instruction)
    (IN OV : DomainVal) (hD : Distinct Variable.eq D) (hIN : IN.length = D.length) :
    Liveness.transferFunc D Inst IN OV
      = Except.ok (liveTransfer Inst D IN, decide (liveTransfer Inst D IN ≠ OV)) := by
  unfold Liveness.transferFunc
  rw [killLoop_eq _ D _ hIN]
  simp only [ok_bind]
  rw [liveness_generateLoop_eq D hD _ _ (by simp [hIN]), zipWith_zipWith]
  rfl

/-! ## The lattice of fact vectors -/

theorem VLe.length_eq {t : Bool} {v w : DomainVal} (h : VLe t v w) : v.length = w.length :=
  List.Forall₂.length_eq h

theorem VLe.refl (t : Bool) (v : DomainVal) : VLe t v v := by
  unfold VLe
  induction v with
  | nil => exact List.Forall₂.nil
  | cons a v ih => exact List.Forall₂.cons (fun h => h) ih

theorem VLe.trans {t : Bool} {u v w : DomainVal} (h1 : VLe t u v) (h2 : VLe t v w) :
    VLe t u w := by
  unfold VLe at *
  induction h1 generalizing w with
  | nil => cases h2; exact List.Forall₂.nil
  | cons hab _ ih =>
    cases h2 with
    | cons hbc h2' => exact List.Forall₂.cons (fun h => hbc (hab h)) (ih h2')

theorem VLe.top (t : Bool) (v : DomainVal) : VLe t v (List.replicate v.length t) := by
  unfold VLe
  induction v with
  | nil => exact List.Forall₂.nil
  | cons a v ih => exact List.Forall₂.cons (fun _ => rfl) ih

theorem VLe.zipWith_meet {t : Bool} {v v' w w' : DomainVal} (h1 : VLe t v v')
    (h2 : VLe t w w') :
    VLe t (List.zipWith (bitMeet t) v w) (List.zipWith (bitMeet t) v' w') := by
  unfold VLe at *
  induction h1 generalizing w w' with
  | nil => simp
  | @cons a b l l' hab _ ih =>
    cases h2 with
    | nil => simp
    | @cons c d k k' hcd h2' =>
      simp only [List.zipWith_cons_cons]
      refine List.Forall₂.cons ?_ (ih h2')
      revert hab hcd
      cases t <;> cases a <;> cases b <;> cases c <;> cases d <;> simp [bitMeet]

theorem VLe.count_le {t : Bool} {v w : DomainVal} (h : VLe t v w) :
    v.count t ≤ w.count t := by
  unfold VLe at h
  induction h with
  | nil => simp
  | @cons a b l l' hab _ ih =>
    simp only [List.count_cons]
    by_cases ha : a = t
    · simp only [ha, hab ha, beq_self_eq_true, if_true]
      omega
    · have : (a == t) = false := by simpa using ha
      simp only [this, Bool.false_eq_true, if_false]
      split <;> omega

theorem VLe.count_lt {t : Bool} {v w : DomainVal} (h : VLe t v w) (hne : v ≠ w) :
    v.count t < w.count t := by
  unfold VLe at h
  induction h with
  | nil => exact absurd rfl hne
  | @cons a b l l' hab hl ih =>
    simp only [List.count_cons]
    have hle : l.count t ≤ l'.count t := VLe.count_le hl
    by_cases hab' : a = b
    · subst hab'
      have : l ≠ l' := fun h => hne (by rw [h])
      have := ih this
      omega
    · have hb : b = t := by
        revert hab hab'
        cases t <;> cases a <;> cases b <;> simp
      have ha : (a == t) = false := by
        revert hab' hb
        cases t <;> cases a <;> cases b <;> simp
      simp only [ha, hb, beq_self_eq_true, if_true, Bool.false_eq_true, if_false]
      omega

theorem mle_refl (t : Bool) (m : InstMap) : MLe t m m := fun _ => VLe.refl t _

/-! ## Boundary values -/

theorem getMeetOperandsForward_eq (F : Function) (m : InstMap) (ps : List Nat) :
    getMeetOperandsForward F m ps = operandsLoop BasicBlock.back F m ps := by
  induction ps with
  | nil => rfl
  | cons p ps ih => simp only [getMeetOperandsForward, operandsLoop, ih]

theorem getMeetOperandsBackward_eq (F : Function) (m : InstMap) (ss : List Nat) :
    getMeetOperandsBackward F m ss = operandsLoop BasicBlock.front F m ss := by
  induction ss with
  | nil => rfl
  | cons s ss ih => simp only [getMeetOperandsBackward, operandsLoop, ih]

theorem mem_instructions {F : Function} {BB : BasicBlock} {I : Instruction}
    (hBB : BB ∈ F.blocks) (hI : I ∈ BB.insts) : I ∈ instructions F := by
  unfold instructions
  rw [List.mem_flatMap]
  exact ⟨BB, hBB, hI⟩

theorem block_ok {F : Function} {i : Nat} (h : i < F.blocks.length) :
    ∃ B, F.block i = Except.ok B ∧ B ∈ F.blocks := by
  refine ⟨F.blocks[i], ?_, List.getElem_mem _⟩
  unfold Function.block
  simp [List.get?_eq_getElem?, List.getElem?_eq_getElem h]

theorem back_ok {B : BasicBlock} (h : B.insts ≠ []) :
    ∃ I, B.back = Except.ok I ∧ I ∈ B.insts := by
  unfold BasicBlock.back
  cases hl : B.insts.getLast? with
  | none => exact absurd (List.getLast?_eq_none_iff.mp hl) h
  | some I => exact ⟨I, rfl, List.mem_of_getLast?_eq_some hl⟩

theorem front_ok {B : BasicBlock} (h : B.insts ≠ []) :
    ∃ I, B.front = Except.ok I ∧ I ∈ B.insts := by
  unfold BasicBlock.front
  cases hl : B.insts.head? with
  | none => exact absurd (List.head?_eq_none_iff.mp hl) h
  | some I => exact ⟨I, rfl, List.mem_of_mem_head? hl⟩

theorem operandsLoop_mono {F : Function} {t : Bool} {n : Nat} {m m' : InstMap}
    (pick : BasicBlock → Except Failure Instruction)
    (hpick : ∀ B ∈ F.blocks, ∃ I, pick B = Except.ok I ∧ I ∈ B.insts)
    (hm : Good n F m) (hm' : Good n F m') (hle : MLe t m' m) :
    ∀ nbs : List Nat, (∀ i ∈ nbs, i < F.blocks.length) →
      ∃ ops ops', operandsLoop pick F m nbs = Except.ok ops ∧
        operandsLoop pick F m' nbs = Except.ok ops' ∧
        List.Forall₂ (VLe t) ops' ops ∧ (∀ v ∈ ops, v.length = n) ∧
        (ops = [] ↔ nbs = []) ∧ (ops' = [] ↔ nbs = []) := by
  intro nbs
  induction nbs with
  | nil =>
    intro _
    exact ⟨[], [], rfl, rfl, List.Forall₂.nil, by simp, by simp, by simp⟩
  | cons i nbs ih =>
    intro hnbs
    obtain ⟨ops, ops', h1, h2, h3, h4, _, _⟩ :=
      ih (fun j hj => hnbs j (List.mem_cons_of_mem _ hj))
    obtain ⟨B, hB, hBmem⟩ := block_ok (hnbs i (List.mem_cons_self _ _))
    obtain ⟨I, hI, hImem⟩ := hpick B hBmem
    have hIF := mem_instructions hBmem hImem
    obtain ⟨v, hv, hvlen⟩ := hm I hIF
    obtain ⟨v', hv', _⟩ := hm' I hIF
    have hvv : VLe t v' v := by
      have := hle I.id
      simpa [val, hv, hv'] using this
    refine ⟨v :: ops, v' :: ops', ?_, ?_, List.Forall₂.cons hvv h3, ?_, by simp, by simp⟩
    · simp [operandsLoop, hB, hI, InstMap.at, hv, h1]
    · simp [operandsLoop, hB, hI, InstMap.at, hv', h2]
    · intro w hw
      rcases List.mem_cons.mp hw with rfl | hw
      · exact hvlen
      · exact h4 w hw

theorem meetLoop_mono {t : Bool} {n : Nat} (MeetOp : MeetOp)
    (hcall : ∀ v w : DomainVal, v.length = w.length →
      MeetOp.call v w = Except.ok (List.zipWith (bitMeet t) v w))
    {ops ops' : List DomainVal} (hops : List.Forall₂ (VLe t) ops' ops) :
    ∀ acc acc' : DomainVal, VLe t acc' acc → acc.length = n → (∀ v ∈ ops, v.length = n) →
      ∃ r r', meetLoop MeetOp acc ops = Except.ok r ∧ meetLoop MeetOp acc' ops' = Except.ok r' ∧
        VLe t r' r ∧ r.length = n := by
  induction hops with
  | nil =>
    intro acc acc' hacc hlen _
    exact ⟨acc, acc', rfl, rfl, hacc, hlen⟩
  | @cons v' v l' l hv _ ih =>
    intro acc acc' hacc hlen hall
    have hvlen : v.length = n := hall v (List.mem_cons_self _ _)
    have hl1 : acc.length = v.length := by rw [hlen, hvlen]
    have hl2 : acc'.length = v'.length := by rw [hacc.length_eq, hv.length_eq, hl1]
    obtain ⟨r, r', h1, h2, h3, h4⟩ := ih (List.zipWith (bitMeet t) acc v)
      (List.zipWith (bitMeet t) acc' v') (VLe.zipWith_meet hacc hv)
      (by simp [hlen, hvlen]) (fun w hw => hall w (List.mem_cons_of_mem _ hw))
    refine ⟨r, r', ?_, ?_, h3, h4⟩
    · simp [meetLoop, hcall acc v hl1, h1]
    · simp [meetLoop, hcall acc' v' hl2, h2]

theorem getBoundaryVal_mono {E : Type} {A : Analysis E} {D : List E} {F : Function} {t : Bool}
    (hcall : ∀ v w : DomainVal, v.length = w.length →
      A.meetOp.call v w = Except.ok (List.zipWith (bitMeet t) v w)) (hF : WellFormed F)
    {m m' : InstMap} (hm : Good D.length F m) (hm' : Good D.length F m') (hle : MLe t m' m)
    {BB : BasicBlock} (hBB : BB ∈ F.blocks) :
    ∃ v v', getBoundaryVal A D F m BB = Except.ok v ∧
      getBoundaryVal A D F m' BB = Except.ok v' ∧ VLe t v' v ∧ v.length = D.length := by
  have key : ∃ ops ops', getMeetOperands A.dir F m BB = Except.ok ops ∧
      getMeetOperands A.dir F m' BB = Except.ok ops' ∧
      List.Forall₂ (VLe t) ops' ops ∧ (∀ v ∈ ops, v.length = D.length) := by
    unfold getMeetOperands
    cases A.dir with
    | kForward =>
      simp only [getMeetOperandsForward_eq]
      obtain ⟨ops, ops', h1, h2, h3, h4, _⟩ := operandsLoop_mono (t := t) BasicBlock.back
        (fun B hB => back_ok (hF.nonempty B hB)) hm hm' hle BB.preds (hF.preds BB hBB)
      exact ⟨ops, ops', h1, h2, h3, h4⟩
    | kBackward =>
      simp only [getMeetOperandsBackward_eq]
      obtain ⟨ops, ops', h1, h2, h3, h4, _⟩ := operandsLoop_mono (t := t) BasicBlock.front
        (fun B hB => front_ok (hF.nonempty B hB)) hm hm' hle BB.succs (hF.succs BB hBB)
      exact ⟨ops, ops', h1, h2, h3, h4⟩
  obtain ⟨ops, ops', h1, h2, h3, h4⟩ := key
  unfold getBoundaryVal
  rw [h1, h2]
  cases h3 with
  | nil =>
    refine ⟨bc D, bc D, rfl, rfl, VLe.refl t _, ?_⟩
    simp [bc]
  | @cons v' v l' l hv hl =>
    obtain ⟨r, r', e1, e2, e3, e4⟩ := meetLoop_mono A.meetOp hcall hl v v' hv
      (h4 v (List.mem_cons_self _ _)) (fun w hw => h4 w (List.mem_cons_of_mem _ hw))
    exact ⟨r, r', by simpa [meet] using e1, by simpa [meet] using e2, e3, e4⟩

/-! ## The schedule of a sweep -/

theorem tasksFrom_map_snd (prev : Option Instruction) (l : List Instruction) :
    (tasksFrom prev l).map Prod.snd = l := by
  induction l generalizing prev with
  | nil => rfl
  | cons I rest ih => simp [tasksFrom, ih]

theorem mem_tasksFrom {prev : Option Instruction} {l : List Instruction}
    {task : Option Instruction × Instruction} (h : task ∈ tasksFrom prev l) :
    task.2 ∈ l ∧ (task.1 = prev ∨ ∃ J ∈ l, task.1 = some J) := by
  induction l generalizing prev with
  | nil => simp [tasksFrom] at h
  | cons I rest ih =>
    simp only [tasksFrom, List.mem_cons] at h
    rcases h with rfl | h
    · exact ⟨List.mem_cons_self _ _, Or.inl rfl⟩
    · obtain ⟨h1, h2⟩ := ih h
      refine ⟨List.mem_cons_of_mem _ h1, Or.inr ?_⟩
      rcases h2 with h2 | ⟨J, hJ, h2⟩
      · exact ⟨I, List.mem_cons_self _ _, h2⟩
      · exact ⟨J, List.mem_cons_of_mem _ hJ, h2⟩

theorem mem_getInstTraversalOrder {dir : Direction} {BB : BasicBlock} {I : Instruction} :
    I ∈ getInstTraversalOrder dir BB ↔ I ∈ BB.insts := by
  cases dir <;> simp [getInstTraversalOrder]

theorem mem_getBBTraversalOrder {dir : Direction} {F : Function} {BB : BasicBlock} :
    BB ∈ getBBTraversalOrder dir F ↔ BB ∈ F.blocks := by
  cases dir <;> simp [getBBTraversalOrder]

theorem mem_blockTasks {dir : Direction} {BB : BasicBlock}
    {task : Option Instruction × Instruction} (h : task ∈ blockTasks dir BB) :
    task.2 ∈ BB.insts ∧ (task.1 = none ∨ ∃ J ∈ BB.insts, task.1 = some J) := by
  obtain ⟨h1, h2⟩ := mem_tasksFrom h
  refine ⟨mem_getInstTraversalOrder.mp h1, ?_⟩
  rcases h2 with h2 | ⟨J, hJ, h2⟩
  · exact Or.inl h2
  · exact Or.inr ⟨J, mem_getInstTraversalOrder.mp hJ, h2⟩

theorem WellFormed.block_nodup {F : Function} (hF : WellFormed F) {BB : BasicBlock}
    (hBB : BB ∈ F.blocks) : (BB.insts.map Instruction.id).Nodup := by
  have h := hF.nodup
  unfold instructions at h
  rw [List.map_flatMap, List.nodup_flatMap] at h
  exact h.1 BB hBB

theorem WellFormed.block_unique {F : Function} (hF : WellFormed F) {BB BB' : BasicBlock}
    (hBB : BB ∈ F.blocks) (hBB' : BB' ∈ F.blocks) {I J : Instruction} (hI : I ∈ BB.insts)
    (hJ : J ∈ BB'.insts) (hid : I.id = J.id) : BB = BB' := by
  have h := hF.nodup
  unfold instructions at h
  rw [List.map_flatMap, List.nodup_flatMap] at h
  by_contra hne
  have hdis := h.2.forall (fun a b hab => List.Disjoint.symm hab) hBB hBB' hne
  simp only [Function.onFun] at hdis
  exact hdis (List.mem_map_of_mem _ hI) (hid ▸ List.mem_map_of_mem _ hJ)

theorem WellFormed.task_unique {F : Function} (hF : WellFormed F) {dir : Direction}
    {BB BB' : BasicBlock} (hBB : BB ∈ F.blocks) (hBB' : BB' ∈ F.blocks)
    {task task' : Option Instruction × Instruction} (h : task ∈ blockTasks dir BB)
    (h' : task' ∈ blockTasks dir BB') (hid : task.2.id = task'.2.id) :
    BB = BB' ∧ task = task' := by
  have e : BB = BB' :=
    hF.block_unique hBB hBB' (mem_blockTasks h).1 (mem_blockTasks h').1 hid
  subst e
  refine ⟨rfl, ?_⟩
  have hnd : ((blockTasks dir BB).map (fun task => task.2.id)).Nodup := by
    have : (blockTasks dir BB).map (fun task => task.2.id)
        = ((blockTasks dir BB).map Prod.snd).map Instruction.id := by
      rw [List.map_map]; rfl
    rw [this]
    unfold blockTasks
    rw [tasksFrom_map_snd]
    cases dir with
    | kForward => exact hF.block_nodup hBB
    | kBackward =>
      simp only [getInstTraversalOrder, List.map_reverse, List.nodup_reverse]
      exact hF.block_nodup hBB
  exact List.inj_on_of_nodup_map hnd h h' hid

theorem incoming_mono {E : Type} {A : Analysis E} {D : List E} {F : Function} {t : Bool}
    {g : Instruction → DomainVal → DomainVal} (hS : Sound A D F t g) (hF : WellFormed F)
    {m m' : InstMap} (hm : Good D.length F m) (hm' : Good D.length F m') (hle : MLe t m' m)
    {BB : BasicBlock} (hBB : BB ∈ F.blocks) {task : Option Instruction × Instruction}
    (htask : task ∈ blockTasks A.dir BB) :
    ∃ v v', incoming A D F m BB task.1 = Except.ok v ∧
      incoming A D F m' BB task.1 = Except.ok v' ∧ VLe t v' v ∧ v.length = D.length := by
  rcases (mem_blockTasks htask).2 with h | ⟨J, hJ, h⟩
  · rw [h]
    exact getBoundaryVal_mono hS.call_eq hF hm hm' hle hBB
  · rw [h]
    have hJF := mem_instructions hBB hJ
    obtain ⟨v, hv, hvlen⟩ := hm J hJF
    obtain ⟨v', hv', _⟩ := hm' J hJF
    refine ⟨v, v', by simp [incoming, InstMap.at, hv], by simp [incoming, InstMap.at, hv'],
      ?_, hvlen⟩
    have := hle J.id
    simpa [val, hv, hv'] using this

theorem val_assign_self (m : InstMap) (k : Nat) (v : DomainVal) : val (m.assign k v) k = v := by
  simp [val, InstMap.assign]

theorem val_assign_ne (m : InstMap) {k j : Nat} (v : DomainVal) (h : j ≠ k) :
    val (m.assign k v) j = val m j := by
  simp [val, InstMap.assign, h]

theorem assign_same (m : InstMap) (k : Nat) (v : DomainVal) (h : m k = some v) :
    m.assign k v = m := by
  funext j
  unfold InstMap.assign
  split
  · next e => rw [e, h]
  · rfl

/-- One assignment of the sweep keeps the invariants and lowers the map. -/
theorem step_spec {E : Type} {A : Analysis E} {D : List E} {F : Function} {t : Bool}
    {g : Instruction → DomainVal → DomainVal} (hS : Sound A D F t g) (hF : WellFormed F)
    {m : InstMap} (hG : Good D.length F m) (hP : PostFix A D F t g m)
    {BB : BasicBlock} (hBB : BB ∈ F.blocks) {task : Option Instruction × Instruction}
    (htask : task ∈ blockTasks A.dir BB) {IN : DomainVal}
    (hIN : incoming A D F m BB task.1 = Except.ok IN) :
    Good D.length F (m.assign task.2.id (g task.2 IN)) ∧
    PostFix A D F t g (m.assign task.2.id (g task.2 IN)) ∧
    topBits t F (m.assign task.2.id (g task.2 IN)) ≤ topBits t F m ∧
    (g task.2 IN ≠ val m task.2.id →
      topBits t F (m.assign task.2.id (g task.2 IN)) < topBits t F m) := by
  have hIF : task.2 ∈ instructions F := mem_instructions hBB (mem_blockTasks htask).1
  have hINlen : IN.length = D.length := by
    obtain ⟨v, _, h1, _, _, h4⟩ := incoming_mono hS hF hG hG (mle_refl t m) hBB htask
    rw [hIN] at h1
    cases h1
    exact h4
  have hOUTlen := hS.g_len task.2 hIF IN hINlen
  have hG' : Good D.length F (m.assign task.2.id (g task.2 IN)) := by
    intro J hJ
    by_cases e : J.id = task.2.id
    · exact ⟨g task.2 IN, by simp [InstMap.assign, e], hOUTlen⟩
    · obtain ⟨v, hv, hvlen⟩ := hG J hJ
      exact ⟨v, by simp [InstMap.assign, e, hv], hvlen⟩
  have hle : MLe t (m.assign task.2.id (g task.2 IN)) m := by
    intro id
    by_cases e : id = task.2.id
    · rw [e, val_assign_self]
      exact hP BB hBB task htask IN hIN
    · rw [val_assign_ne m _ e]
      exact VLe.refl t _
  refine ⟨hG', ?_, ?_, ?_⟩
  · intro BB' hBB' task' htask' IN' hIN'
    obtain ⟨v, v', h1, h2, h3, _⟩ := incoming_mono hS hF hG hG' hle hBB' htask'
    rw [hIN'] at h2
    cases h2
    have hJF : task'.2 ∈ instructions F := mem_instructions hBB' (mem_blockTasks htask').1
    have hstep : VLe t (g task'.2 IN') (g task'.2 v) := hS.g_mono task'.2 hJF IN' v h3
    by_cases e : task'.2.id = task.2.id
    · obtain ⟨e1, e2⟩ := hF.task_unique hBB' hBB htask' htask e
      subst e1; subst e2
      rw [val_assign_self]
      rw [hIN] at h1
      cases h1
      exact hstep
    · rw [val_assign_ne m _ e]
      exact hstep.trans (hP BB' hBB' task' htask' v h1)
  · unfold topBits
    exact List.sum_le_sum (fun J _ => (hle J.id).count_le)
  · intro hne
    unfold topBits
    refine List.sum_lt_sum _ _ (fun J _ => (hle J.id).count_le) ⟨task.2, hIF, ?_⟩
    have h := hle task.2.id
    refine h.count_lt ?_
    rw [val_assign_self]
    exact hne

/-! ## One sweep, and the loop of sweeps -/

theorem instLoop_spec {E : Type} {A : Analysis E} {D : List E} {F : Function} {t : Bool}
    {g : Instruction → DomainVal → DomainVal} (hS : Sound A D F t g) (hF : WellFormed F)
    {BB : BasicBlock} (hBB : BB ∈ F.blocks) :
    ∀ (l : List Instruction) (prev : Option Instruction) (m : InstMap) (IN : DomainVal)
      (ch : Bool), (∀ task ∈ tasksFrom prev l, task ∈ blockTasks A.dir BB) →
      Good D.length F m → PostFix A D F t g m →
      incoming A D F m BB prev = Except.ok IN →
      ∃ m' ch', instLoop A D l m IN ch = Except.ok (m', ch') ∧
        Good D.length F m' ∧ PostFix A D F t g m' ∧ topBits t F m' ≤ topBits t F m ∧
        (ch' = true → ch = true ∨ topBits t F m' < topBits t F m) ∧
        (ch' = false → ch = false ∧ m' = m ∧
          ∀ task ∈ tasksFrom prev l, FixedAt A D F m BB task) := by
  intro l
  induction l with
  | nil =>
    intro prev m IN ch _ hG hP _
    refine ⟨m, ch, rfl, hG, hP, le_refl _, fun h => Or.inl h, fun h => ⟨h, rfl, ?_⟩⟩
    intro task htask
    simp [tasksFrom] at htask
  | cons I rest ih =>
    intro prev m IN ch hsub hG hP hIN
    have htask : (prev, I) ∈ blockTasks A.dir BB :=
      hsub (prev, I) (by simp [tasksFrom])
    have hIF : I ∈ instructions F := mem_instructions hBB (mem_blockTasks htask).1
    obtain ⟨OUT, hOUT, hOUTlen⟩ := hG I hIF
    have hINlen : IN.length = D.length := by
      obtain ⟨v, _, h1, _, _, h4⟩ := incoming_mono hS hF hG hG (mle_refl t m) hBB htask
      rw [hIN] at h1
      cases h1
      exact h4
    have htf := hS.tf_eq I hIF IN OUT hINlen hOUTlen
    obtain ⟨hG', hP', hle, hlt⟩ := step_spec hS hF hG hP hBB htask hIN
    simp only at hG' hP' hle hlt
    have hin' : incoming A D F (m.assign I.id (g I IN)) BB (some I) = Except.ok (g I IN) := by
      simp [incoming, InstMap.at, InstMap.assign]
    obtain ⟨m'', ch'', h1, h2, h3, h4, h5, h6⟩ :=
      ih (some I) (m.assign I.id (g I IN)) (g I IN) (ch || decide (g I IN ≠ OUT))
        (fun task h => hsub task (by simp [tasksFrom, h])) hG' hP' hin'
    have hval : val m I.id = OUT := by simp [val, hOUT]
    refine ⟨m'', ch'', ?_, h2, h3, le_trans h4 hle, ?_, ?_⟩
    · simp only [instLoop, InstMap.at, hOUT, htf, InstMap.store, ok_bind]
      exact h1
    · intro hch
      rcases h5 hch with h | h
      · rw [Bool.or_eq_true] at h
        rcases h with h | h
        · exact Or.inl h
        · right
          have hne : g I IN ≠ val m I.id := by rw [hval]; simpa using h
          exact lt_of_le_of_lt h4 (hlt hne)
      · exact Or.inr (lt_of_lt_of_le h hle)
    · intro hch
      obtain ⟨hc, hm, hfix⟩ := h6 hch
      rw [Bool.or_eq_false_iff] at hc
      have heq : g I IN = OUT := by simpa using hc.2
      have hsame : m.assign I.id (g I IN) = m := by
        rw [heq]; exact assign_same m I.id OUT hOUT
      rw [hsame] at hm hfix
      refine ⟨hc.1, hm, ?_⟩
      intro task htask'
      simp only [tasksFrom, List.mem_cons] at htask'
      rcases htask' with rfl | htask'
      · refine ⟨IN, OUT, hIN, hOUT, ?_⟩
        rw [htf, heq]
        simp
      · exact hfix task htask'

theorem bbLoop_spec {E : Type} {A : Analysis E} {D : List E} {F : Function} {t : Bool}
    {g : Instruction → DomainVal → DomainVal} (hS : Sound A D F t g) (hF : WellFormed F) :
    ∀ (bl : List BasicBlock) (m : InstMap) (ch : Bool), (∀ BB ∈ bl, BB ∈ F.blocks) →
      Good D.length F m → PostFix A D F t g m →
      ∃ m' ch', bbLoop A D F bl m ch = Except.ok (m', ch') ∧
        Good D.length F m' ∧ PostFix A D F t g m' ∧ topBits t F m' ≤ topBits t F m ∧
        (ch' = true → ch = true ∨ topBits t F m' < topBits t F m) ∧
        (ch' = false → ch = false ∧ m' = m ∧
          ∀ BB ∈ bl, ∀ task ∈ blockTasks A.dir BB, FixedAt A D F m BB task) := by
  intro bl
  induction bl with
  | nil =>
    intro m ch _ hG hP
    refine ⟨m, ch, rfl, hG, hP, le_refl _, fun h => Or.inl h, fun h => ⟨h, rfl, ?_⟩⟩
    intro BB hBB
    simp at hBB
  | cons BB rest ih =>
    intro m ch hsub hG hP
    have hBB : BB ∈ F.blocks := hsub BB (List.mem_cons_self _ _)
    obtain ⟨IN, _, hIN, _, _, _⟩ := getBoundaryVal_mono hS.call_eq hF hG hG (mle_refl t m) hBB
    obtain ⟨m1, ch1, a1, a2, a3, a4, a5, a6⟩ :=
      instLoop_spec hS hF hBB (getInstTraversalOrder A.dir BB) none m IN ch
        (fun task h => h) hG hP hIN
    obtain ⟨m2, ch2, b1, b2, b3, b4, b5, b6⟩ :=
      ih m1 ch1 (fun B h => hsub B (List.mem_cons_of_mem _ h)) a2 a3
    refine ⟨m2, ch2, ?_, b2, b3, le_trans b4 a4, ?_, ?_⟩
    · simp [bbLoop, hIN, a1, b1]
    · intro hch
      rcases b5 hch with h | h
      · rcases a5 h with h' | h'
        · exact Or.inl h'
        · exact Or.inr (lt_of_le_of_lt b4 h')
      · exact Or.inr (lt_of_lt_of_le h a4)
    · intro hch
      obtain ⟨c1, c2, c3⟩ := b6 hch
      obtain ⟨d1, d2, d3⟩ := a6 c1
      subst d2
      refine ⟨d1, c2, ?_⟩
      intro B hB
      rcases List.mem_cons.mp hB with rfl | hB
      · exact d3
      · exact c3 B hB

theorem traverseCFG_spec {E : Type} {A : Analysis E} {D : List E} {F : Function} {t : Bool}
    {g : Instruction → DomainVal → DomainVal} (hS : Sound A D F t g) (hF : WellFormed F)
    {m : InstMap} (hG : Good D.length F m) (hP : PostFix A D F t g m) :
    ∃ m' ch', traverseCFG A D F m = Except.ok (m', ch') ∧
      Good D.length F m' ∧ PostFix A D F t g m' ∧
      (ch' = true → topBits t F m' < topBits t F m) ∧
      (ch' = false → m' = m ∧ FixedPoint A D F m) := by
  obtain ⟨m', ch', h1, h2, h3, _, h5, h6⟩ :=
    bbLoop_spec hS hF (getBBTraversalOrder A.dir F) m false
      (fun BB h => mem_getBBTraversalOrder.mp h) hG hP
  refine ⟨m', ch', h1, h2, h3, ?_, ?_⟩
  · intro hch
    rcases h5 hch with h | h
    · exact absurd h (by simp)
    · exact h
  · intro hch
    obtain ⟨_, e, hfix⟩ := h6 hch
    exact ⟨e, fun BB hBB => hfix BB (mem_getBBTraversalOrder.mpr hBB)⟩

/-- The loop of sweeps ends: fuel beyond the number of top bits suffices. -/
theorem whileTraverseCFG_terminates {E : Type} {A : Analysis E} {D : List E} {F : Function}
    {t : Bool} {g : Instruction → DomainVal → DomainVal} (hS : Sound A D F t g)
    (hF : WellFormed F) :
    ∀ (k : Nat) (m : InstMap), Good D.length F m → PostFix A D F t g m →
      topBits t F m ≤ k → ∀ fuel, k < fuel →
      ∃ m', whileTraverseCFG A D F fuel m = some (Except.ok m') ∧
        Good D.length F m' ∧ FixedPoint A D F m' := by
  intro k
  induction k with
  | zero =>
    intro m hG hP hk fuel hfuel
    obtain ⟨m', ch', h1, h2, _, h4, h5⟩ := traverseCFG_spec hS hF hG hP
    cases fuel with
    | zero => omega
    | succ fuel =>
      cases ch' with
      | true => have := h4 rfl; omega
      | false =>
        obtain ⟨e, hfix⟩ := h5 rfl
        subst e
        exact ⟨m', by simp [whileTraverseCFG, h1], h2, hfix⟩
  | succ k ih =>
    intro m hG hP hk fuel hfuel
    obtain ⟨m', ch', h1, h2, h3, h4, h5⟩ := traverseCFG_spec hS hF hG hP
    cases fuel with
    | zero => omega
    | succ fuel =>
      cases ch' with
      | true =>
        have hlt := h4 rfl
        obtain ⟨m'', e1, e2, e3⟩ := ih m' h2 h3 (by omega) fuel (by omega)
        exact ⟨m'', by simp [whileTraverseCFG, h1, e1], e2, e3⟩
      | false =>
        obtain ⟨e, hfix⟩ := h5 rfl
        subst e
        exact ⟨m', by simp [whileTraverseCFG, h1], h2, hfix⟩

/-- Whatever the fuel, a map returned by the loop of sweeps is a fixed point. -/
theorem whileTraverseCFG_fixed {E : Type} {A : Analysis E} {D : List E} {F : Function}
    {t : Bool} {g : Instruction → DomainVal → DomainVal} (hS : Sound A D F t g)
    (hF : WellFormed F) :
    ∀ (fuel : Nat) (m m' : InstMap), Good D.length F m → PostFix A D F t g m →
      whileTraverseCFG A D F fuel m = some (Except.ok m') →
      Good D.length F m' ∧ FixedPoint A D F m' := by
  intro fuel
  induction fuel with
  | zero =>
    intro m m' _ _ h
    simp [whileTraverseCFG] at h
  | succ fuel ih =>
    intro m m' hG hP h
    obtain ⟨m1, ch1, h1, h2, h3, _, h5⟩ := traverseCFG_spec hS hF hG hP
    cases ch1 with
    | true =>
      simp only [whileTraverseCFG, h1] at h
      exact ih m1 m' h2 h3 h
    | false =>
      obtain ⟨e, hfix⟩ := h5 rfl
      subst e
      simp only [whileTraverseCFG, h1, Option.some.injEq, Except.ok.injEq] at h
      subst h
      exact ⟨h2, hfix⟩

/-! ## Initial conditions and the domain -/

theorem applyInitialConditions_apply (top : DomainVal) (l : List Instruction) :
    ∀ (m : InstMap) (id : Nat),
      (l.foldl (fun m Inst => m.emplace Inst.id top) m) id =
        match m id with
        | some v => some v
        | none => if id ∈ l.map Instruction.id then some top else none := by
  induction l with
  | nil => intro m id; cases h : m id <;> simp [h]
  | cons I rest ih =>
    intro m id
    rw [List.foldl_cons, ih]
    unfold InstMap.emplace
    cases hI : m I.id with
    | some w => simp only [List.map_cons, List.mem_cons]
                cases h : m id with
                | some v => rfl
                | none =>
                  have : id ≠ I.id := fun e => by rw [e, hI] at h; cases h
                  simp [this]
    | none =>
      simp only [InstMap.assign, List.map_cons, List.mem_cons]
      by_cases e : id = I.id
      · subst e; simp [hI]
      · simp only [e, if_false, false_or]

theorem good_init (MeetOp : MeetOp) (t : Bool) (n : Nat) (F : Function)
    (htop : ∀ k : Nat, MeetOp.top k = List.replicate k t) :
    ∀ I ∈ instructions F,
      applyInitialConditions MeetOp n F InstMap.empty I.id = some (List.replicate n t) := by
  intro I hI
  unfold applyInitialConditions
  rw [applyInitialConditions_apply, htop]
  simp only [InstMap.empty]
  rw [if_pos (List.mem_map_of_mem _ hI)]

theorem init_inv {E : Type} {A : Analysis E} {D : List E} {F : Function} {t : Bool}
    {g : Instruction → DomainVal → DomainVal} (hS : Sound A D F t g) (hF : WellFormed F) :
    Good D.length F (applyInitialConditions A.meetOp D.length F InstMap.empty) ∧
    PostFix A D F t g (applyInitialConditions A.meetOp D.length F InstMap.empty) := by
  have hinit := good_init A.meetOp t D.length F hS.top_eq
  have hG : Good D.length F (applyInitialConditions A.meetOp D.length F InstMap.empty) :=
    fun I hI => ⟨_, hinit I hI, by simp⟩
  refine ⟨hG, ?_⟩
  intro BB hBB task htask IN hIN
  have hIF : task.2 ∈ instructions F := mem_instructions hBB (mem_blockTasks htask).1
  have hINlen : IN.length = D.length := by
    obtain ⟨v, _, h1, _, _, h4⟩ := incoming_mono hS hF hG hG (mle_refl t _) hBB htask
    rw [hIN] at h1
    cases h1
    exact h4
  have hlen := hS.g_len task.2 hIF IN hINlen
  have := VLe.top t (g task.2 IN)
  rw [hlen] at this
  simpa [val, hinit task.2 hIF] using this

theorem findIdx_eq_length {E : Type} {p : E → Bool} {D : List E}
    (h : D.findIdx p = D.length) : ∀ d ∈ D, p d = false := by
  intro d hd
  have hnot : ¬ D.findIdx p < D.length := by omega
  rw [List.findIdx_lt_length] at hnot
  cases hp : p d with
  | false => rfl
  | true => exact absurd ⟨d, hd, hp⟩ hnot

theorem addIfAbsent_distinct {E : Type} (eq : E → E → Bool) (D : List E) (x : E)
    (hD : Distinct eq D) : Distinct eq (addIfAbsent eq D x) := by
  unfold addIfAbsent
  split
  · next h =>
    unfold Distinct at *
    rw [List.pairwise_append]
    refine ⟨hD, List.pairwise_singleton _ _, ?_⟩
    intro a ha b hb
    rw [List.mem_singleton] at hb
    subst hb
    exact findIdx_eq_length h a ha
  · exact hD

theorem exprInitializeDomainFromInst_distinct (D : List Expression) (Inst : Instruction)
    (hD : Distinct Expression.eq D) :
    Distinct Expression.eq (exprInitializeDomainFromInst D Inst) := by
  unfold exprInitializeDomainFromInst
  cases Expression.ofInst Inst with
  | none => exact hD
  | some x => exact addIfAbsent_distinct _ D x hD

theorem liveness_initializeDomainFromInst_distinct (D : List Variable) (Inst : Instruction)
    (hD : Distinct Variable.eq D) :
    Distinct Variable.eq (Liveness.initializeDomainFromInst D Inst) := by
  unfold Liveness.initializeDomainFromInst
  generalize Inst.operands = ops
  induction ops generalizing D with
  | nil => exact hD
  | cons value rest ih =>
    rw [List.foldl_cons]
    apply ih
    split
    · exact addIfAbsent_distinct _ D _ hD
    · exact hD

theorem initializeDomain_distinct {E : Type} (A : Analysis E) (eq : E → E → Bool)
    (hA : ∀ D Inst, Distinct eq D → Distinct eq (A.initializeDomainFromInst D Inst))
    (D : List E) (F : Function) (hD : Distinct eq D) :
    Distinct eq (initializeDomain A D F) := by
  unfold initializeDomain
  generalize instructions F = l
  induction l generalizing D with
  | nil => exact hD
  | cons I rest ih =>
    rw [List.foldl_cons]
    exact ih _ (hA D I hD)

theorem distinct_nil {E : Type} (eq : E → E → Bool) : Distinct eq [] := List.Pairwise.nil

theorem initializeDomain_id {E : Type} (A : Analysis E)
    (hA : ∀ D Inst, A.initializeDomainFromInst D Inst = D) (D : List E) (F : Function) :
    initializeDomain A D F = D := by
  unfold initializeDomain
  generalize instructions F = l
  induction l with
  | nil => rfl
  | cons I rest ih => rw [List.foldl_cons, hA]; exact ih

/-! ## The analyses meet the requirements of the convergence argument -/

theorem VLe.zipWith_right {E : Type} {t : Bool} (f : E → Bool → Bool)
    (hf : ∀ e a b, (a = t → b = t) → f e a = t → f e b = t) (D : List E) {v w : DomainVal}
    (h : VLe t v w) : VLe t (List.zipWith f D v) (List.zipWith f D w) := by
  unfold VLe at *
  induction h generalizing D with
  | nil => simp
  | @cons a b l l' hab _ ih =>
    cases D with
    | nil => simp
    | cons d D =>
      simp only [List.zipWith_cons_cons]
      exact List.Forall₂.cons (hf d a b hab) (ih D)

theorem VLe.zipWith_left {t : Bool} (f : Bool → Bool → Bool)
    (hf : ∀ c a b, (a = t → b = t) → f a c = t → f b c = t) (A : DomainVal) {v w : DomainVal}
    (h : VLe t v w) : VLe t (List.zipWith f v A) (List.zipWith f w A) := by
  unfold VLe at *
  induction h generalizing A with
  | nil => simp
  | @cons a b l l' hab _ ih =>
    cases A with
    | nil => simp
    | cons c A =>
      simp only [List.zipWith_cons_cons]
      exact List.Forall₂.cons (hf c a b hab) (ih A)

theorem bitMeet_true : bitMeet true = fun a b => a && b := by
  funext a b; simp [bitMeet]

theorem bitMeet_false : bitMeet false = fun a b => a || b := by
  funext a b; simp [bitMeet]

theorem exprTransfer_mono (Inst : Instruction) (D : List Expression) {v w : DomainVal}
    (h : VLe true v w) : VLe true (exprTransfer Inst D v) (exprTransfer Inst D w) := by
  unfold exprTransfer
  refine VLe.zipWith_right _ ?_ D h
  intro e a b hab
  cases redefined Inst e <;> cases exprGen Inst e <;> cases a <;> cases b <;> simp at hab ⊢

theorem wbTransfer_mono (Anti : DomainVal) (Inst : Instruction) (D : List Expression)
    {v w : DomainVal} (h : VLe true v w) :
    VLe true (wbTransfer Anti Inst D v) (wbTransfer Anti Inst D w) := by
  unfold wbTransfer
  refine VLe.zipWith_right _ ?_ D (VLe.zipWith_left _ ?_ Anti (VLe.zipWith_right _ ?_ D h))
  · intro e a b hab
    cases redefined Inst e <;> cases a <;> cases b <;> simp at hab ⊢
  · intro c a b hab
    cases c <;> cases a <;> cases b <;> simp at hab ⊢
  · intro e a b hab
    cases exprGen Inst e <;> cases a <;> cases b <;> simp at hab ⊢

theorem liveTransfer_mono (Inst : Instruction) (D : List Variable) {v w : DomainVal}
    (h : VLe false v w) : VLe false (liveTransfer Inst D v) (liveTransfer Inst D w) := by
  unfold liveTransfer
  refine VLe.zipWith_right _ ?_ D h
  intro e a b hab
  cases liveGen Inst e <;> cases Variable.eq ⟨Inst.asValue⟩ e <;> cases a <;> cases b <;>
    simp at hab ⊢

theorem availExpr_sound (D : List Expression) (F : Function) (hD : Distinct Expression.eq D) :
    Sound AvailExpr D F true (fun Inst IN => exprTransfer Inst D IN) where
  call_eq := fun v w h => by rw [bitMeet_true]; exact Intersect_call_ok v w h
  top_eq := fun _ => rfl
  tf_eq := fun I _ IN OV hIN hOV => availExpr_transferFunc_eq D I IN OV hD hIN hOV
  g_len := fun I _ IN hIN => length_exprTransfer I D IN hIN
  g_mono := fun I _ _ _ h => exprTransfer_mono I D h

theorem antiExpr_sound (D : List Expression) (F : Function)
    (hD : Distinct Expression.eq D) :
    Sound AntiExprImpl D F true (fun Inst IN => exprTransfer Inst D IN) where
  call_eq := fun v w h => by rw [bitMeet_true]; exact Intersect_call_ok v w h
  top_eq := fun _ => rfl
  tf_eq := fun I _ IN OV hIN _ => antiExpr_transferFunc_eq D I IN OV hD hIN
  g_len := fun I _ IN hIN => length_exprTransfer I D IN hIN
  g_mono := fun I _ _ _ h => exprTransfer_mono I D h

theorem wbAvailExpr_sound (AntiMap : InstMap) (D : List Expression) (F : Function)
    (hD : Distinct Expression.eq D) (hA : Good D.length F AntiMap) :
    Sound (WBAvailExprImpl AntiMap) D F true
      (fun Inst IN => wbTransfer (val AntiMap Inst.id) Inst D IN) where
  call_eq := fun v w h => by rw [bitMeet_true]; exact Intersect_call_ok v w h
  top_eq := fun _ => rfl
  tf_eq := fun I hI IN OV hIN _ => by
    obtain ⟨a, ha, halen⟩ := hA I hI
    have : val AntiMap I.id = a := by simp [val, ha]
    rw [this]
    exact wbAvailExpr_transferFunc_eq AntiMap a D I IN OV hD hIN ha halen
  g_len := fun I hI IN hIN => by
    obtain ⟨a, ha, halen⟩ := hA I hI
    have : val AntiMap I.id = a := by simp [val, ha]
    simp only [this]
    exact length_wbTransfer a I D IN hIN halen
  g_mono := fun I _ _ _ h => wbTransfer_mono _ I D h

theorem liveness_sound (D : List Variable) (F : Function) (hD : Distinct Variable.eq D) :
    Sound Liveness D F false (fun Inst IN => liveTransfer Inst D IN) where
  call_eq := fun v w h => by rw [bitMeet_false]; exact Union_call_ok v w h
  top_eq := fun _ => rfl
  tf_eq := fun I _ IN OV hIN _ => liveness_transferFunc_eq D I IN OV hD hIN
  g_len := fun I _ IN hIN => length_liveTransfer I D IN hIN
  g_mono := fun I _ _ _ h => liveTransfer_mono I D h

/-! ## runOnFunction -/

theorem printInstDomainValMap_ok {E : Type} {A : Analysis E} {D : List E} {F : Function}
    {t : Bool}
    (hcall : ∀ v w : DomainVal, v.length = w.length →
      A.meetOp.call v w = Except.ok (List.zipWith (bitMeet t) v w)) (hF : WellFormed F)
    {m : InstMap} (hG : Good D.length F m) :
    printInstDomainValMap A D F m = Except.ok () := by
  have hinst : ∀ BB ∈ F.blocks, ∀ I ∈ BB.insts,
      printInstDomainValMapInst A D F m BB I = Except.ok () := by
    intro BB hBB I hI
    obtain ⟨v, hv, hvlen⟩ := hG I (mem_instructions hBB hI)
    obtain ⟨w, _, hw, _, _, hwlen⟩ := getBoundaryVal_mono hcall hF hG hG (mle_refl t m) hBB
    have hfirst : ∃ J, boundaryInst A.dir BB = Except.ok J := by
      unfold boundaryInst
      cases A.dir with
      | kForward =>
        obtain ⟨J, hJ, _⟩ := front_ok (hF.nonempty BB hBB)
        exact ⟨J, hJ⟩
      | kBackward =>
        obtain ⟨J, hJ, _⟩ := back_ok (hF.nonempty BB hBB)
        exact ⟨J, hJ⟩
    obtain ⟨J, hJ⟩ := hfirst
    have hpw : printDomainWithMask D w = Except.ok () := by
      simp [printDomainWithMask, hwlen]
    have hpv : printDomainWithMask D v = Except.ok () := by
      simp [printDomainWithMask, hvlen]
    unfold printInstDomainValMapInst
    simp only [hJ, ok_bind, hw, hpw, InstMap.at, hv, hpv]
    split <;> rfl
  have hinsts : ∀ BB ∈ F.blocks, ∀ l : List Instruction, (∀ I ∈ l, I ∈ BB.insts) →
      printInstsLoop A D F m BB l = Except.ok () := by
    intro BB hBB l
    induction l with
    | nil => intro _; rfl
    | cons I rest ih =>
      intro hsub
      simp only [printInstsLoop, hinst BB hBB I (hsub I (List.mem_cons_self _ _)), ok_bind]
      exact ih (fun J hJ => hsub J (List.mem_cons_of_mem _ hJ))
  have hblocks : ∀ bl : List BasicBlock, (∀ BB ∈ bl, BB ∈ F.blocks) →
      printBlocksLoop A D F m bl = Except.ok () := by
    intro bl
    induction bl with
    | nil => intro _; rfl
    | cons BB rest ih =>
      intro hsub
      simp only [printBlocksLoop,
        hinsts BB (hsub BB (List.mem_cons_self _ _)) BB.insts (fun _ h => h), ok_bind]
      exact ih (fun B hB => hsub B (List.mem_cons_of_mem _ hB))
  exact hblocks F.blocks (fun _ h => h)

theorem runOnFunction_spec {E : Type} {A : Analysis E} {F : Function} {t : Bool}
    {g : Instruction → DomainVal → DomainVal} (this : Framework E)
    (hmap : this.InstDomainValMap = InstMap.empty)
    (hS : Sound A (initializeDomain A this.Domain F) F t g) (hF : WellFormed F) :
    (∃ N, ∀ fuel, N ≤ fuel → ∃ fw, runOnFunction A fuel this F = some (Except.ok fw)) ∧
    (∀ fuel fw, runOnFunction A fuel this F = some (Except.ok fw) →
      fw.Domain = initializeDomain A this.Domain F ∧
      Good fw.Domain.length F fw.InstDomainValMap ∧
      FixedPoint A fw.Domain F fw.InstDomainValMap) := by
  obtain ⟨hG, hP⟩ := init_inv hS hF
  constructor
  · refine ⟨topBits t F (applyInitialConditions A.meetOp
      (initializeDomain A this.Domain F).length F InstMap.empty) + 1, ?_⟩
    intro fuel hfuel
    obtain ⟨m', h1, h2, _⟩ := whileTraverseCFG_terminates hS hF _ _ hG hP (le_refl _) fuel
      (by omega)
    refine ⟨⟨initializeDomain A this.Domain F, m'⟩, ?_⟩
    simp only [runOnFunction, hmap, h1, printInstDomainValMap_ok hS.call_eq hF h2]
  · intro fuel fw h
    simp only [runOnFunction, hmap] at h
    split at h
    · simp at h
    · simp at h
    · next m' hw =>
      split at h
      · simp at h
      · simp only [Option.some.injEq, Except.ok.injEq] at h
        subst h
        obtain ⟨h1, h2⟩ := whileTraverseCFG_fixed hS hF fuel _ m' hG hP hw
        exact ⟨rfl, h1, h2⟩

theorem availExpr_domain_distinct (F : Function) :
    Distinct Expression.eq (initializeDomain AvailExpr [] F) :=
  initializeDomain_distinct AvailExpr Expression.eq
    exprInitializeDomainFromInst_distinct [] F (distinct_nil _)

theorem antiExpr_domain_distinct (F : Function) :
    Distinct Expression.eq (initializeDomain AntiExprImpl [] F) :=
  initializeDomain_distinct AntiExprImpl Expression.eq
    exprInitializeDomainFromInst_distinct [] F (distinct_nil _)

theorem liveness_domain_distinct (F : Function) :
    Distinct Variable.eq (initializeDomain Liveness [] F) :=
  initializeDomain_distinct Liveness Variable.eq
    liveness_initializeDomainFromInst_distinct [] F (distinct_nil _)

theorem constructBoundaryLoop_ok {A : Analysis Expression} {D : List Expression}
    {F : Function} {t : Bool}
    (hcall : ∀ v w : DomainVal, v.length = w.length →
      A.meetOp.call v w = Except.ok (List.zipWith (bitMeet t) v w)) (hF : WellFormed F)
    {m : InstMap} (hG : Good D.length F m) :
    ∀ (bl : List BasicBlock) (idx : Nat) (bmap : Nat → Option DomainVal),
      (∀ BB ∈ bl, BB ∈ F.blocks) →
      ∃ bmap', constructBoundaryLoop A D F m bl idx bmap = Except.ok bmap' := by
  intro bl
  induction bl with
  | nil => intro idx bmap _; exact ⟨bmap, rfl⟩
  | cons BB rest ih =>
    intro idx bmap hsub
    obtain ⟨v, _, hv, _, _, _⟩ := getBoundaryVal_mono hcall hF hG hG (mle_refl t m)
      (hsub BB (List.mem_cons_self _ _))
    obtain ⟨bmap', h⟩ := ih (idx + 1) _ (fun B hB => hsub B (List.mem_cons_of_mem _ hB))
    exact ⟨bmap', by simp only [constructBoundaryLoop, hv, ok_bind]; exact h⟩

/-- The Will-Be-Available pass, run on a fresh instance after an Anticipated
pass whose domain is distinct and whose map covers the function. -/
theorem wbAvailExpr_run_spec (AntiExpr : Framework Expression)
    (F : Function) (hF : WellFormed F) (hD : Distinct Expression.eq AntiExpr.Domain)
    (hA : Good AntiExpr.Domain.length F AntiExpr.InstDomainValMap) :
    (∃ N, ∀ fuel, N ≤ fuel → ∃ wb,
      WBAvailExprWrapperPass.runOnFunction fuel WBAvailExprState.fresh AntiExpr F
        = some (Except.ok wb)) ∧
    (∀ fuel wb, WBAvailExprWrapperPass.runOnFunction fuel WBAvailExprState.fresh AntiExpr F
        = some (Except.ok wb) →
      wb.base.Domain = AntiExpr.Domain ∧
      wb.AntiExprInstDomainValMap = AntiExpr.InstDomainValMap ∧
      Good wb.base.Domain.length F wb.base.InstDomainValMap ∧
      FixedPoint (WBAvailExprImpl wb.AntiExprInstDomainValMap) wb.base.Domain F
        wb.base.InstDomainValMap) := by
  have hdom : initializeDomain (WBAvailExprImpl AntiExpr.InstDomainValMap)
      ([] ++ AntiExpr.Domain) F = AntiExpr.Domain := by
    rw [initializeDomain_id _ (fun _ _ => rfl)]
    rfl
  have hS : Sound (WBAvailExprImpl AntiExpr.InstDomainValMap)
      (initializeDomain (WBAvailExprImpl AntiExpr.InstDomainValMap)
        (⟨[] ++ AntiExpr.Domain, InstMap.empty⟩ : Framework Expression).Domain F) F true
      (fun Inst IN => wbTransfer (val AntiExpr.InstDomainValMap Inst.id) Inst AntiExpr.Domain
        IN) := by
    simp only [hdom]
    exact wbAvailExpr_sound _ _ F hD hA
  obtain ⟨⟨N, hN⟩, hfix⟩ := runOnFunction_spec
    (⟨[] ++ AntiExpr.Domain, InstMap.empty⟩ : Framework Expression) rfl hS hF
  constructor
  · refine ⟨N, fun fuel hfuel => ?_⟩
    obtain ⟨fw, hfw⟩ := hN fuel hfuel
    obtain ⟨_, hG, _⟩ := hfix fuel fw hfw
    obtain ⟨bmap, hb⟩ := constructBoundaryLoop_ok (A := WBAvailExprImpl AntiExpr.InstDomainValMap)
      (t := true) hS.call_eq hF hG F.blocks 0 (fun _ => none) (fun _ h => h)
    refine ⟨⟨fw, AntiExpr.InstDomainValMap, bmap⟩, ?_⟩
    simp only [WBAvailExprWrapperPass.runOnFunction, WBAvailExprState.initialize,
      WBAvailExprState.fresh, Framework.fresh, hfw, hb]
  · intro fuel wb h
    simp only [WBAvailExprWrapperPass.runOnFunction, WBAvailExprState.initialize,
      WBAvailExprState.fresh, Framework.fresh] at h
    split at h
    · simp at h
    · simp at h
    · next fw hfw =>
      obtain ⟨e1, hG, hfp⟩ := hfix fuel fw hfw
      split at h
      · simp at h
      · next bmap hb =>
        simp only [Option.some.injEq, Except.ok.injEq] at h
        subst h
        simp only
        rw [hdom] at e1
        exact ⟨e1, trivial, hG, hfp⟩

theorem ePlace_instLoop_eq (D : List Expression) :
    ∀ (l : List Instruction) (m : InstMap) (IN : DomainVal) (ch : Bool),
      (∀ I ∈ l, ∃ v, m I.id = some v) →
      instLoop EPlaceImpl D l m IN ch = Except.ok (m, ch) := by
  intro l
  induction l with
  | nil => intro m IN ch _; rfl
  | cons I rest ih =>
    intro m IN ch h
    obtain ⟨v, hv⟩ := h I (List.mem_cons_self _ _)
    simp only [instLoop, InstMap.at, hv, ok_bind, EPlaceImpl, EPlaceImpl.transferFunc,
      InstMap.store, assign_same m I.id v hv, Bool.or_false]
    exact ih m v ch (fun J hJ => h J (List.mem_cons_of_mem _ hJ))

theorem ePlace_bbLoop_eq (D : List Expression) (F : Function) (hF : WellFormed F)
    (m : InstMap) (hG : Good D.length F m) :
    ∀ (bl : List BasicBlock) (ch : Bool), (∀ BB ∈ bl, BB ∈ F.blocks) →
      bbLoop EPlaceImpl D F bl m ch = Except.ok (m, ch) := by
  intro bl
  induction bl with
  | nil => intro ch _; rfl
  | cons BB rest ih =>
    intro ch hsub
    have hBB := hsub BB (List.mem_cons_self _ _)
    have hcall : ∀ v w : DomainVal, v.length = w.length →
        EPlaceImpl.meetOp.call v w = Except.ok (List.zipWith (bitMeet true) v w) :=
      fun v w h => by rw [bitMeet_true]; exact Intersect_call_ok v w h
    obtain ⟨v, _, hv, _, _, _⟩ := getBoundaryVal_mono hcall hF hG hG (mle_refl true m) hBB
    have hinst := ePlace_instLoop_eq D (getInstTraversalOrder EPlaceImpl.dir BB) m v ch
      (fun I hI => by
        obtain ⟨w, hw, _⟩ := hG I (mem_instructions hBB (mem_getInstTraversalOrder.mp hI))
        exact ⟨w, hw⟩)
    simp only [bbLoop, hv, ok_bind, hinst]
    exact ih ch (fun B hB => hsub B (List.mem_cons_of_mem _ hB))

/-- The Earliest-Placement pass on a fresh instance ends after one sweep,
with every fact at the initial all-true vector. -/
theorem ePlace_run_spec (AntiExpr : Framework Expression)
    (WBAvailExpr : WBAvailExprState) (F : Function) (hF : WellFormed F) (fuel : Nat) :
    EPlaceWrapperPass.runOnFunction (fuel + 1) EPlaceState.fresh AntiExpr WBAvailExpr F
      = some (Except.ok
        { base := ⟨AntiExpr.Domain, applyInitialConditions Intersect AntiExpr.Domain.length F
            InstMap.empty⟩
          AntiExprInstDomainValMap := AntiExpr.InstDomainValMap
          WBAvailExprBoundaryVals := WBAvailExpr.BasicBlockBoundaryValMap }) := by
  have hdom : initializeDomain EPlaceImpl ([] ++ AntiExpr.Domain) F = AntiExpr.Domain := by
    rw [initializeDomain_id _ (fun _ _ => rfl)]
    rfl
  have hG : Good AntiExpr.Domain.length F
      (applyInitialConditions Intersect AntiExpr.Domain.length F InstMap.empty) :=
    fun I hI => ⟨_, good_init Intersect true _ F (fun _ => rfl) I hI, by simp⟩
  have ht := ePlace_bbLoop_eq AntiExpr.Domain F hF _ hG
    (getBBTraversalOrder EPlaceImpl.dir F) false (fun BB h => mem_getBBTraversalOrder.mp h)
  have hcall : ∀ v w : DomainVal, v.length = w.length →
      EPlaceImpl.meetOp.call v w = Except.ok (List.zipWith (bitMeet true) v w) :=
    fun v w h => by rw [bitMeet_true]; exact Intersect_call_ok v w h
  have hp := printInstDomainValMap_ok (A := EPlaceImpl) hcall hF hG
  have hm : EPlaceImpl.meetOp = Intersect := rfl
  simp only [EPlaceWrapperPass.runOnFunction, EPlaceState.initialize, EPlaceState.fresh,
    Framework.fresh, dfa.runOnFunction, hdom, whileTraverseCFG, traverseCFG, hm, ht, hp]

/-! ## The meet operators -/

/-- C10: for both `Intersect` and `Union`, `operator()` fails, with the
assertion on the sizes, exactly when the two vectors differ in length, and on
vectors of equal length it returns a vector of that length whose entries are
the AND, respectively the OR, of the entries of the arguments. -/
theorem meetOp_call_spec (LHS RHS : DomainVal) :
    ((∃ e, Intersect.call LHS RHS = Except.error e) ↔ LHS.length ≠ RHS.length) ∧
    ((∃ e, Union.call LHS RHS = Except.error e) ↔ LHS.length ≠ RHS.length) ∧
    (LHS.length ≠ RHS.length →
      Intersect.call LHS RHS = Except.error Failure.mergeSize ∧
      Union.call LHS RHS = Except.error Failure.mergeSize) ∧
    (LHS.length = RHS.length →
      ∃ rI rU, Intersect.call LHS RHS = Except.ok rI ∧ Union.call LHS RHS = Except.ok rU ∧
        rI.length = LHS.length ∧ rU.length = LHS.length ∧
        ∀ (i : Nat) (a b : Bool), LHS[i]? = some a → RHS[i]? = some b →
          rI[i]? = some (a && b) ∧ rU[i]? = some (a || b)) := by
  have hne : LHS.length ≠ RHS.length →
      Intersect.call LHS RHS = Except.error Failure.mergeSize ∧
      Union.call LHS RHS = Except.error Failure.mergeSize := by
    intro h
    simp [Intersect, Union, h]
  have heq : LHS.length = RHS.length →
      ∃ rI rU, Intersect.call LHS RHS = Except.ok rI ∧ Union.call LHS RHS = Except.ok rU ∧
        rI.length = LHS.length ∧ rU.length = LHS.length ∧
        ∀ (i : Nat) (a b : Bool), LHS[i]? = some a → RHS[i]? = some b →
          rI[i]? = some (a && b) ∧ rU[i]? = some (a || b) := by
    intro h
    refine ⟨_, _, Intersect_call_ok LHS RHS h, Union_call_ok LHS RHS h, by simp [h],
      by simp [h], ?_⟩
    intro i a b ha hb
    simp [List.getElem?_zipWith, ha, hb]
  refine ⟨?_, ?_, hne, heq⟩
  · constructor
    · rintro ⟨e, he⟩ hlen
      obtain ⟨rI, _, h1, _⟩ := heq hlen
      rw [h1] at he
      cases he
    · intro h
      exact ⟨_, (hne h).1⟩
  · constructor
    · rintro ⟨e, he⟩ hlen
      obtain ⟨_, rU, _, h2, _⟩ := heq hlen
      rw [h2] at he
      cases he
    · intro h
      exact ⟨_, (hne h).2⟩

/-- A run of C10 on the vectors `[true, false, true]` and `[true, true, false]`. -/
theorem meetOp_call_spec_witness :
    Intersect.call [true, false, true] [true, true, false] = Except.ok [true, false, false] ∧
    Union.call [true, false, true] [true, true, false] = Except.ok [true, true, true] ∧
    Intersect.call [true] [] = Except.error Failure.mergeSize := by
  have h' := meetOp_call_spec [true] []
  exact ⟨rfl, rfl, (h'.2.2.1 (by decide)).1⟩

/-! ## Boundary values -/

/-- C3, as amended: for every analysis and every block without boundary
contributors (no predecessors for a forward analysis, no successors for a
backward one), `getBoundaryVal` returns `bc()`, the all-false vector of length
`|Domain|`, whatever the meet operator; this is `top(|Domain|)` of `Union`,
and on a non-empty domain it is not `top(|Domain|)` of `Intersect`. -/
theorem getBoundaryVal_no_contributors {E : Type} (A : Analysis E) (Domain : List E)
    (F : Function) (m : InstMap) (BB : BasicBlock)
    (h : (A.dir = Direction.kForward ∧ BB.preds = []) ∨
      (A.dir = Direction.kBackward ∧ BB.succs = [])) :
    getBoundaryVal A Domain F m BB = Except.ok (List.replicate Domain.length false) ∧
    List.replicate Domain.length false = Union.top Domain.length ∧
    (Domain ≠ [] → List.replicate Domain.length false ≠ Intersect.top Domain.length) := by
  refine ⟨?_, rfl, ?_⟩
  · unfold getBoundaryVal getMeetOperands
    rcases h with ⟨h1, h2⟩ | ⟨h1, h2⟩
    · rw [h1, h2]; rfl
    · rw [h1, h2]; rfl
  · intro hne
    cases Domain with
    | nil => exact absurd rfl hne
    | cons d D =>
      intro heq
      simp [Intersect, List.replicate] at heq

/-- C3 at the only block of `exLive`, for the backward `Liveness` and for the
forward `AvailExpr`. -/
theorem getBoundaryVal_no_contributors_witness :
    getBoundaryVal Liveness (initializeDomain Liveness [] exLive) exLive InstMap.empty
      exLiveBlock = Except.ok [false, false, false, false, false] ∧
    getBoundaryVal AvailExpr (initializeDomain AvailExpr [] exLive) exLive InstMap.empty
      exLiveBlock = Except.ok [false, false] :=
  ⟨(getBoundaryVal_no_contributors Liveness _ exLive InstMap.empty exLiveBlock
      (Or.inr ⟨rfl, rfl⟩)).1,
    (getBoundaryVal_no_contributors AvailExpr _ exLive InstMap.empty exLiveBlock
      (Or.inl ⟨rfl, rfl⟩)).1⟩

/-- C3 as stated fails: at the block of `exCarry`, which has no predecessors,
`getBoundaryVal` of `AvailExpr` on the initial map is `[false]`, while the top
of `Intersect` is `[true]`. -/
theorem getBoundaryVal_not_top :
    exCarryBlock.preds = [] ∧
    getBoundaryVal AvailExpr (initializeDomain AvailExpr [] exCarry) exCarry
      (applyInitialConditions AvailExpr.meetOp (initializeDomain AvailExpr [] exCarry).length
        exCarry InstMap.empty) exCarryBlock = Except.ok [false] ∧
    AvailExpr.meetOp.top (initializeDomain AvailExpr [] exCarry).length = [true] ∧
    getBoundaryVal AvailExpr (initializeDomain AvailExpr [] exCarry) exCarry
      (applyInitialConditions AvailExpr.meetOp (initializeDomain AvailExpr [] exCarry).length
        exCarry InstMap.empty) exCarryBlock ≠
      Except.ok (AvailExpr.meetOp.top (initializeDomain AvailExpr [] exCarry).length) := by
  have h1 : getBoundaryVal AvailExpr (initializeDomain AvailExpr [] exCarry) exCarry
      (applyInitialConditions AvailExpr.meetOp (initializeDomain AvailExpr [] exCarry).length
        exCarry InstMap.empty) exCarryBlock = Except.ok [false] := rfl
  have h2 : AvailExpr.meetOp.top (initializeDomain AvailExpr [] exCarry).length = [true] := rfl
  refine ⟨rfl, h1, h2, ?_⟩
  rw [h1, h2]
  intro h
  cases h

/-! ## The transfer functions -/

theorem getElem?_zipWith_some {α : Type} (f : α → Bool → Bool) (D : List α) (T : DomainVal)
    (j : Nat) (e : α) (b : Bool) (he : D[j]? = some e) (hb : T[j]? = some b) :
    (List.zipWith f D T)[j]? = some (f e b) := by
  simp [List.getElem?_zipWith, he, hb]

/-- C4: on a pairwise-distinct domain `D` and vectors `IN`, `OV` of length
`|D|`, `AvailExpr::transferFunc` and `AntiExprImpl::transferFunc` return the
same output and the same flag; the output `OUT` has length `|D|`, and at every
index `j`: `OUT[j]` is false if an operand of `D[j]` is `Inst` itself (kill);
otherwise it is true if `Inst` is a binary operator whose expression compares
equal to `D[j]` (generate); otherwise it is `IN[j]`. -/
theorem transferFunc_avail_anti (Inst : Instruction) (D : List Expression)
    (IN OV : DomainVal) (hD : Distinct Expression.eq D) (hIN : IN.length = D.length)
    (hOV : OV.length = D.length) :
    AvailExpr.transferFunc D Inst IN OV = AntiExprImpl.transferFunc D Inst IN OV ∧
    ∃ OUT isChanged, AvailExpr.transferFunc D Inst IN OV = Except.ok (OUT, isChanged) ∧
      OUT.length = D.length ∧
      ∀ (j : Nat) (e : Expression) (b : Bool), D[j]? = some e → IN[j]? = some b →
        ((e.LHS = Inst.asValue ∨ e.RHS = Inst.asValue) → OUT[j]? = some false) ∧
        (¬ (e.LHS = Inst.asValue ∨ e.RHS = Inst.asValue) →
          ((∃ Expr, Expression.ofInst Inst = some Expr ∧ e.eq Expr = true) →
            OUT[j]? = some true) ∧
          (¬ (∃ Expr, Expression.ofInst Inst = some Expr ∧ e.eq Expr = true) →
            OUT[j]? = some b)) := by
  rw [availExpr_transferFunc_eq D Inst IN OV hD hIN hOV,
    antiExpr_transferFunc_eq D Inst IN OV hD hIN]
  refine ⟨rfl, _, _, rfl, length_exprTransfer Inst D IN hIN, ?_⟩
  intro j e b he hb
  unfold exprTransfer
  rw [getElem?_zipWith_some _ D IN j e b he hb]
  have hgen : exprGen Inst e = true ↔
      ∃ Expr, Expression.ofInst Inst = some Expr ∧ e.eq Expr = true := by
    unfold exprGen
    cases Expression.ofInst Inst <;> simp
  refine ⟨fun hk => ?_, fun hk => ⟨fun hg => ?_, fun hg => ?_⟩⟩
  · rw [(redefined_iff Inst e).mpr hk]; rfl
  · have h1 : redefined Inst e = false := by
      cases h : redefined Inst e with
      | false => rfl
      | true => exact absurd ((redefined_iff Inst e).mp h) hk
    rw [h1, hgen.mpr hg]; rfl
  · have h1 : redefined Inst e = false := by
      cases h : redefined Inst e with
      | false => rfl
      | true => exact absurd ((redefined_iff Inst e).mp h) hk
    have h2 : exprGen Inst e = false := by
      cases h : exprGen Inst e with
      | false => rfl
      | true => exact absurd (hgen.mp h) hg
    rw [h1, h2]; rfl

/-- C4 on the domain `[a + b, x + c]` at the instruction `x = b + a`
(instruction 0), which generates the first expression and kills the second. -/
theorem transferFunc_avail_anti_witness :
    ∃ OUT isChanged,
      AntiExprImpl.transferFunc [⟨.Add, .arg 0, .arg 1⟩, ⟨.Add, .inst 0, .arg 2⟩]
        (.binary 0 .Add (.arg 1) (.arg 0)) [false, true] [true, true]
        = Except.ok (OUT, isChanged) ∧
      OUT[0]? = some true ∧ OUT[1]? = some false := by
  obtain ⟨heq, OUT, isChanged, h, -, hpt⟩ :=
    transferFunc_avail_anti (.binary 0 .Add (.arg 1) (.arg 0))
      [⟨.Add, .arg 0, .arg 1⟩, ⟨.Add, .inst 0, .arg 2⟩] [false, true] [true, true]
      (by unfold Distinct; decide) rfl rfl
  refine ⟨OUT, isChanged, heq ▸ h, ?_, ?_⟩
  · exact ((hpt 0 ⟨.Add, .arg 0, .arg 1⟩ false rfl rfl).2 (by decide)).1
      ⟨⟨.Add, .arg 1, .arg 0⟩, rfl, by decide⟩
  · exact (hpt 1 ⟨.Add, .inst 0, .arg 2⟩ true rfl rfl).1 (Or.inl rfl)

/-- C5: for `WBAvailExprImpl::transferFunc` on a pairwise-distinct domain `D`,
an instruction whose stored Anticipated vector is `A`, and `IN`, `A` of length
`|D|`: the output `OUT` has at every index `j` the value false if an operand
of `D[j]` is `Inst` itself, and otherwise `IN[j]` or `A[j]` or (`Inst` is a
binary operator whose expression compares equal to `D[j]`). When `A` is
all-false the output is the output of `AvailExpr::transferFunc` on the same
`Inst`, `D` and `IN`. -/
theorem transferFunc_wbavail (AntiExprInstDomainValMap : InstMap) (Inst : Instruction)
    (D : List Expression) (IN OV A : DomainVal) (hD : Distinct Expression.eq D)
    (hIN : IN.length = D.length) (hA : AntiExprInstDomainValMap Inst.id = some A)
    (hAlen : A.length = D.length) :
    ∃ OUT isChanged,
      WBAvailExprImpl.transferFunc AntiExprInstDomainValMap D Inst IN OV
        = Except.ok (OUT, isChanged) ∧
      OUT.length = D.length ∧
      (∀ (j : Nat) (e : Expression) (b a : Bool), D[j]? = some e → IN[j]? = some b →
        A[j]? = some a →
        ((e.LHS = Inst.asValue ∨ e.RHS = Inst.asValue) → OUT[j]? = some false) ∧
        (¬ (e.LHS = Inst.asValue ∨ e.RHS = Inst.asValue) →
          (OUT[j]? = some true ↔ (b = true ∨ a = true ∨
            ∃ Expr, Expression.ofInst Inst = some Expr ∧ e.eq Expr = true)))) ∧
      (A = List.replicate D.length false → ∀ OV' : DomainVal, OV'.length = D.length →
        ∃ isChanged', AvailExpr.transferFunc D Inst IN OV' = Except.ok (OUT, isChanged')) := by
  rw [wbAvailExpr_transferFunc_eq AntiExprInstDomainValMap A D Inst IN OV hD hIN hA hAlen]
  refine ⟨_, _, rfl, length_wbTransfer A Inst D IN hIN hAlen, ?_, ?_⟩
  · intro j e b a he hb ha
    have hgen : exprGen Inst e = true ↔
        ∃ Expr, Expression.ofInst Inst = some Expr ∧ e.eq Expr = true := by
      unfold exprGen
      cases Expression.ofInst Inst <;> simp
    have hout : (wbTransfer A Inst D IN)[j]?
        = some (!redefined Inst e && ((exprGen Inst e || b) || a)) := by
      unfold wbTransfer
      rw [getElem?_zipWith_some _ D _ j e ((exprGen Inst e || b) || a) he]
      simp only [List.getElem?_zipWith, he, hb, ha]
    rw [hout]
    refine ⟨fun hk => ?_, fun hk => ?_⟩
    · rw [(redefined_iff Inst e).mpr hk]; rfl
    · have h1 : redefined Inst e = false := by
        cases h : redefined Inst e with
        | false => rfl
        | true => exact absurd ((redefined_iff Inst e).mp h) hk
      rw [h1, ← hgen]
      cases exprGen Inst e <;> cases b <;> cases a <;> simp
  · intro hA0 OV' hOV'
    have hout : wbTransfer A Inst D IN = exprTransfer Inst D IN := by
      subst hA0
      unfold wbTransfer
      have hnoop : List.zipWith (fun a b => a || b)
          (List.zipWith (fun e b => exprGen Inst e || b) D IN) (List.replicate D.length false)
          = List.zipWith (fun e b => exprGen Inst e || b) D IN := by
        apply List.ext_getElem?
        intro i
        rw [List.getElem?_zipWith, List.getElem?_replicate]
        by_cases hi : i < D.length
        · rw [if_pos hi]
          cases h : (List.zipWith (fun e b => exprGen Inst e || b) D IN)[i]? <;> simp
        · rw [if_neg hi]
          have : (List.zipWith (fun e b => exprGen Inst e || b) D IN)[i]? = none := by
            apply List.getElem?_eq_none
            simp only [List.length_zipWith, hIN, min_self]
            omega
          rw [this]
      rw [hnoop, zipWith_kill_gen]
    rw [availExpr_transferFunc_eq D Inst IN OV' hD hIN hOV', hout]
    exact ⟨_, rfl⟩

/-- C5 on the domain `[a + b, x + c]` at the instruction `x = c + c`
(instruction 0) with the Anticipated vector `[true, false]`: the first
expression is anticipated, the second is killed. -/
theorem transferFunc_wbavail_witness :
    ∃ OUT isChanged,
      WBAvailExprImpl.transferFunc (InstMap.empty.assign 0 [true, false])
        [⟨.Add, .arg 0, .arg 1⟩, ⟨.Add, .inst 0, .arg 2⟩]
        (.binary 0 .Add (.arg 2) (.arg 2)) [false, true] []
        = Except.ok (OUT, isChanged) ∧
      OUT[0]? = some true ∧ OUT[1]? = some false := by
  obtain ⟨OUT, isChanged, h, -, hpt, -⟩ :=
    transferFunc_wbavail (InstMap.empty.assign 0 [true, false])
      (.binary 0 .Add (.arg 2) (.arg 2)) [⟨.Add, .arg 0, .arg 1⟩, ⟨.Add, .inst 0, .arg 2⟩]
      [false, true] [] [true, false] (by unfold Distinct; decide) rfl rfl rfl
  refine ⟨OUT, isChanged, h, ?_, ?_⟩
  · exact ((hpt 0 ⟨.Add, .arg 0, .arg 1⟩ false true rfl rfl rfl).2 (by decide)).mpr
      (Or.inr (Or.inl rfl))
  · exact (hpt 1 ⟨.Add, .inst 0, .arg 2⟩ true false rfl rfl rfl).1 (Or.inl rfl)

/-- C7: for `Liveness::transferFunc` on a pairwise-distinct domain `D` of
variables and `IN` of length `|D|`: the output `OUT` has length `|D|` and at
every index `j` it is true if `D[j]` is an operand of `Inst` that is an
instruction or an argument (generate, applied last); otherwise false if
`D[j]` is the value defined by `Inst` itself (kill); otherwise `IN[j]`. -/
theorem transferFunc_liveness (Inst : Instruction) (D : List Variable) (IN OV : DomainVal)
    (hD : Distinct Variable.eq D) (hIN : IN.length = D.length) :
    ∃ OUT isChanged, Liveness.transferFunc D Inst IN OV = Except.ok (OUT, isChanged) ∧
      OUT.length = D.length ∧
      ∀ (j : Nat) (d : Variable) (b : Bool), D[j]? = some d → IN[j]? = some b →
        ((d.Var ∈ Inst.operands ∧ (d.Var.isInstruction = true ∨ d.Var.isArgument = true)) →
          OUT[j]? = some true) ∧
        (¬ (d.Var ∈ Inst.operands ∧ (d.Var.isInstruction = true ∨ d.Var.isArgument = true)) →
          (d.Var = Inst.asValue → OUT[j]? = some false) ∧
          (d.Var ≠ Inst.asValue → OUT[j]? = some b)) := by
  rw [liveness_transferFunc_eq D Inst IN OV hD hIN]
  refine ⟨_, _, rfl, length_liveTransfer Inst D IN hIN, ?_⟩
  intro j d b hd hb
  unfold liveTransfer
  rw [getElem?_zipWith_some _ D IN j d b hd hb]
  have hgen : liveGen Inst d = true ↔
      (d.Var ∈ Inst.operands ∧ (d.Var.isInstruction = true ∨ d.Var.isArgument = true)) := by
    unfold liveGen
    simp only [List.any_eq_true, Bool.and_eq_true, Bool.or_eq_true, Variable.eq,
      decide_eq_true_eq]
    constructor
    · rintro ⟨v, hv, hk, e⟩
      subst e
      exact ⟨hv, hk⟩
    · rintro ⟨hv, hk⟩
      exact ⟨d.Var, hv, hk, rfl⟩
  have hkill : Variable.eq ⟨Inst.asValue⟩ d = true ↔ d.Var = Inst.asValue := by
    simp only [Variable.eq, decide_eq_true_eq]
    exact eq_comm
  refine ⟨fun hg => ?_, fun hg => ⟨fun hk => ?_, fun hk => ?_⟩⟩
  · rw [hgen.mpr hg]; rfl
  · have h2 : liveGen Inst d = false := by
      cases h : liveGen Inst d with
      | false => rfl
      | true => exact absurd (hgen.mp h) hg
    rw [h2, hkill.mpr hk]; rfl
  · have h2 : liveGen Inst d = false := by
      cases h : liveGen Inst d with
      | false => rfl
      | true => exact absurd (hgen.mp h) hg
    have h1 : Variable.eq ⟨Inst.asValue⟩ d = false := by
      cases h : Variable.eq ⟨Inst.asValue⟩ d with
      | false => rfl
      | true => exact absurd (hkill.mp h) hk
    rw [h2, h1]; rfl

/-- C7 on the domain `[a, b, t1, c, t2]` at `t2 = t1 + c` (instruction 1)
with only `t2` live after it: `t1` is generated, `t2` is killed, `a` is kept. -/
theorem transferFunc_liveness_witness :
    ∃ OUT isChanged,
      Liveness.transferFunc [⟨.arg 0⟩, ⟨.arg 1⟩, ⟨.inst 0⟩, ⟨.arg 2⟩, ⟨.inst 1⟩]
        (.binary 1 .Add (.inst 0) (.arg 2)) [false, false, false, false, true] []
        = Except.ok (OUT, isChanged) ∧
      OUT[2]? = some true ∧ OUT[4]? = some false ∧ OUT[0]? = some false := by
  obtain ⟨OUT, isChanged, h, -, hpt⟩ :=
    transferFunc_liveness (.binary 1 .Add (.inst 0) (.arg 2))
      [⟨.arg 0⟩, ⟨.arg 1⟩, ⟨.inst 0⟩, ⟨.arg 2⟩, ⟨.inst 1⟩] [false, false, false, false, true] []
      (by unfold Distinct; decide) rfl
  refine ⟨OUT, isChanged, h, ?_, ?_, ?_⟩
  · exact (hpt 2 ⟨.inst 0⟩ false rfl rfl).1 ⟨by decide, Or.inl rfl⟩
  · exact ((hpt 4 ⟨.inst 1⟩ true rfl rfl).2 (by decide)).1 rfl
  · exact ((hpt 0 ⟨.arg 0⟩ false rfl rfl).2 (by decide)).2 (by decide)

/-! ## Convergence -/

theorem availExpr_run_spec (F : Function) (hF : WellFormed F) :
    (∃ N, ∀ fuel, N ≤ fuel → ∃ fw,
      runOnFunction AvailExpr fuel Framework.fresh F = some (Except.ok fw)) ∧
    (∀ fuel fw, runOnFunction AvailExpr fuel Framework.fresh F = some (Except.ok fw) →
      fw.Domain = initializeDomain AvailExpr [] F ∧
      Good fw.Domain.length F fw.InstDomainValMap ∧
      FixedPoint AvailExpr fw.Domain F fw.InstDomainValMap) :=
  runOnFunction_spec Framework.fresh rfl
    (availExpr_sound _ F (availExpr_domain_distinct F)) hF

theorem antiExpr_run_spec (F : Function) (hF : WellFormed F) :
    (∃ N, ∀ fuel, N ≤ fuel → ∃ fw,
      runOnFunction AntiExprImpl fuel Framework.fresh F = some (Except.ok fw)) ∧
    (∀ fuel fw, runOnFunction AntiExprImpl fuel Framework.fresh F = some (Except.ok fw) →
      fw.Domain = initializeDomain AntiExprImpl [] F ∧
      Good fw.Domain.length F fw.InstDomainValMap ∧
      FixedPoint AntiExprImpl fw.Domain F fw.InstDomainValMap) :=
  runOnFunction_spec Framework.fresh rfl
    (antiExpr_sound _ F (antiExpr_domain_distinct F)) hF

theorem liveness_run_spec (F : Function) (hF : WellFormed F) :
    (∃ N, ∀ fuel, N ≤ fuel → ∃ fw,
      runOnFunction Liveness fuel Framework.fresh F = some (Except.ok fw)) ∧
    (∀ fuel fw, runOnFunction Liveness fuel Framework.fresh F = some (Except.ok fw) →
      fw.Domain = initializeDomain Liveness [] F ∧
      Good fw.Domain.length F fw.InstDomainValMap ∧
      FixedPoint Liveness fw.Domain F fw.InstDomainValMap) :=
  runOnFunction_spec Framework.fresh rfl
    (liveness_sound _ F (liveness_domain_distinct F)) hF

/-- What a finished Anticipated pass hands to the later stages. -/
theorem antiExpr_result (F : Function) (hF : WellFormed F) (fuel : Nat)
    (AntiExpr : Framework Expression)
    (h : AntiExprWrapperPass.runOnFunction fuel Framework.fresh F = some (Except.ok AntiExpr)) :
    Distinct Expression.eq AntiExpr.Domain ∧
    Good AntiExpr.Domain.length F AntiExpr.InstDomainValMap := by
  obtain ⟨e, hG, _⟩ := (antiExpr_run_spec F hF).2 fuel AntiExpr h
  exact ⟨e ▸ antiExpr_domain_distinct F, hG⟩

/-- C1: on a function with non-empty blocks, neighbours inside the function
and distinct instructions, each of `AvailExpr`, `AntiExprImpl`, `Liveness`
and (after a finished Anticipated pass) `WBAvailExprImpl`, run on a fresh
instance, returns, and the map it returns with is a fixed point of the
dataflow equations: the vector stored for every instruction is the output of
`transferFunc` on that instruction and its incoming vector, which is
`getBoundaryVal` of its block on the final map if the instruction is first in
the in-block traversal order and the stored vector of the previous
instruction otherwise. -/
theorem runOnFunction_fixed_point (F : Function) (hF : WellFormed F) :
    ((∃ fuel fw, runOnFunction AvailExpr fuel Framework.fresh F = some (Except.ok fw)) ∧
      ∀ fuel fw, runOnFunction AvailExpr fuel Framework.fresh F = some (Except.ok fw) →
        FixedPoint AvailExpr fw.Domain F fw.InstDomainValMap) ∧
    ((∃ fuel fw, runOnFunction AntiExprImpl fuel Framework.fresh F = some (Except.ok fw)) ∧
      ∀ fuel fw, runOnFunction AntiExprImpl fuel Framework.fresh F = some (Except.ok fw) →
        FixedPoint AntiExprImpl fw.Domain F fw.InstDomainValMap) ∧
    ((∃ fuel fw, runOnFunction Liveness fuel Framework.fresh F = some (Except.ok fw)) ∧
      ∀ fuel fw, runOnFunction Liveness fuel Framework.fresh F = some (Except.ok fw) →
        FixedPoint Liveness fw.Domain F fw.InstDomainValMap) ∧
    (∀ fuelA AntiExpr,
      AntiExprWrapperPass.runOnFunction fuelA Framework.fresh F = some (Except.ok AntiExpr) →
      (∃ fuel wb, WBAvailExprWrapperPass.runOnFunction fuel WBAvailExprState.fresh AntiExpr F
        = some (Except.ok wb)) ∧
      ∀ fuel wb, WBAvailExprWrapperPass.runOnFunction fuel WBAvailExprState.fresh AntiExpr F
          = some (Except.ok wb) →
        FixedPoint (WBAvailExprImpl wb.AntiExprInstDomainValMap) wb.base.Domain F
          wb.base.InstDomainValMap) := by
  refine ⟨?_, ?_, ?_, ?_⟩
  · obtain ⟨⟨N, hN⟩, h⟩ := availExpr_run_spec F hF
    exact ⟨⟨N, hN N (le_refl _)⟩, fun fuel fw hfw => (h fuel fw hfw).2.2⟩
  · obtain ⟨⟨N, hN⟩, h⟩ := antiExpr_run_spec F hF
    exact ⟨⟨N, hN N (le_refl _)⟩, fun fuel fw hfw => (h fuel fw hfw).2.2⟩
  · obtain ⟨⟨N, hN⟩, h⟩ := liveness_run_spec F hF
    exact ⟨⟨N, hN N (le_refl _)⟩, fun fuel fw hfw => (h fuel fw hfw).2.2⟩
  · intro fuelA AntiExpr hA
    obtain ⟨hD, hG⟩ := antiExpr_result F hF fuelA AntiExpr hA
    obtain ⟨⟨N, hN⟩, h⟩ := wbAvailExpr_run_spec AntiExpr F hF hD hG
    exact ⟨⟨N, hN N (le_refl _)⟩, fun fuel wb hwb => (h fuel wb hwb).2.2.2⟩

/-- C1 on `exLive`: the liveness run returns with a fixed point. -/
theorem runOnFunction_fixed_point_witness :
    WellFormed exLive ∧
    ∃ fuel fw, runOnFunction Liveness fuel Framework.fresh exLive = some (Except.ok fw) ∧
      FixedPoint Liveness fw.Domain exLive fw.InstDomainValMap := by
  have hF : WellFormed exLive := ⟨by decide, by decide, by decide, by decide⟩
  obtain ⟨fuel, fw, h⟩ := (runOnFunction_fixed_point exLive hF).2.2.1.1
  exact ⟨hF, fuel, fw, h, (runOnFunction_fixed_point exLive hF).2.2.1.2 fuel fw h⟩

/-- C2: on a function with non-empty blocks, neighbours inside the function
and distinct instructions, the loop `while (traverseCFG(F)) {}` of each of
the five analyses, started on a fresh instance, ends: from some amount of fuel
on `runOnFunction` returns, so `traverseCFG` has returned `false` after
finitely many sweeps. `WBAvailExprImpl` is initialised from a finished
Anticipated pass, `EPlaceImpl` from that and the finished Will-Be-Available
pass. -/
theorem runOnFunction_terminates (F : Function) (hF : WellFormed F) :
    (∃ N, ∀ fuel, N ≤ fuel → ∃ fw,
      runOnFunction AvailExpr fuel Framework.fresh F = some (Except.ok fw)) ∧
    (∃ N, ∀ fuel, N ≤ fuel → ∃ fw,
      AntiExprWrapperPass.runOnFunction fuel Framework.fresh F = some (Except.ok fw)) ∧
    (∃ N, ∀ fuel, N ≤ fuel → ∃ fw,
      runOnFunction Liveness fuel Framework.fresh F = some (Except.ok fw)) ∧
    (∀ fuelA AntiExpr,
      AntiExprWrapperPass.runOnFunction fuelA Framework.fresh F = some (Except.ok AntiExpr) →
      (∃ N, ∀ fuel, N ≤ fuel → ∃ wb,
        WBAvailExprWrapperPass.runOnFunction fuel WBAvailExprState.fresh AntiExpr F
          = some (Except.ok wb)) ∧
      ∀ fuelW WBAvailExpr,
        WBAvailExprWrapperPass.runOnFunction fuelW WBAvailExprState.fresh AntiExpr F
          = some (Except.ok WBAvailExpr) →
        ∃ N, ∀ fuel, N ≤ fuel → ∃ ep,
          EPlaceWrapperPass.runOnFunction fuel EPlaceState.fresh AntiExpr WBAvailExpr F
            = some (Except.ok ep)) := by
  refine ⟨(availExpr_run_spec F hF).1, (antiExpr_run_spec F hF).1,
    (liveness_run_spec F hF).1, ?_⟩
  intro fuelA AntiExpr hA
  obtain ⟨hD, hG⟩ := antiExpr_result F hF fuelA AntiExpr hA
  refine ⟨(wbAvailExpr_run_spec AntiExpr F hF hD hG).1, ?_⟩
  intro fuelW WBAvailExpr _
  refine ⟨1, fun fuel hfuel => ?_⟩
  obtain ⟨k, rfl⟩ : ∃ k, fuel = k + 1 := ⟨fuel - 1, by omega⟩
  exact ⟨_, ePlace_run_spec AntiExpr WBAvailExpr F hF k⟩

/-- C2 on `exLive`: the whole pipeline returns. -/
theorem runOnFunction_terminates_witness :
    WellFormed exLive ∧
    ∃ fuelA AntiExpr fuelW WBAvailExpr fuelE ep,
      AntiExprWrapperPass.runOnFunction fuelA Framework.fresh exLive
        = some (Except.ok AntiExpr) ∧
      WBAvailExprWrapperPass.runOnFunction fuelW WBAvailExprState.fresh AntiExpr exLive
        = some (Except.ok WBAvailExpr) ∧
      EPlaceWrapperPass.runOnFunction fuelE EPlaceState.fresh AntiExpr WBAvailExpr exLive
        = some (Except.ok ep) := by
  have hF : WellFormed exLive := ⟨by decide, by decide, by decide, by decide⟩
  obtain ⟨-, ⟨NA, hA⟩, -, hrest⟩ := runOnFunction_terminates exLive hF
  obtain ⟨AntiExpr, hAnti⟩ := hA NA (le_refl _)
  obtain ⟨⟨NW, hW⟩, hE⟩ := hrest NA AntiExpr hAnti
  obtain ⟨wb, hwb⟩ := hW NW (le_refl _)
  obtain ⟨NE, hE'⟩ := hE NW wb hwb
  obtain ⟨ep, hep⟩ := hE' NE (le_refl _)
  exact ⟨hF, NA, AntiExpr, NW, wb, NE, ep, hAnti, hwb, hep⟩

/-! ## The facts computed by the passes -/

theorem runSummary_some {E : Type} {A : Analysis E} {fuel : Nat} {F : Function}
    {ids : List Nat} {D : List E} {vs : List (Option DomainVal)}
    (h : runSummary A fuel F ids = some (D, vs)) :
    ∃ fw, runOnFunction A fuel Framework.fresh F = some (Except.ok fw) ∧ fw.Domain = D ∧
      fw.entries ids = vs := by
  unfold runSummary at h
  split at h
  · next fw hfw =>
    simp only [Option.some.injEq, Prod.mk.injEq] at h
    exact ⟨fw, hfw, h.1, h.2⟩
  · simp at h

theorem lcmSummary_some {fuel : Nat} {F : Function} {ids : List Nat} {D : List Expression}
    {as ws : List (Option DomainVal)} (h : lcmSummary fuel F ids = some (D, as, ws)) :
    ∃ AntiExpr wb,
      AntiExprWrapperPass.runOnFunction fuel Framework.fresh F = some (Except.ok AntiExpr) ∧
      WBAvailExprWrapperPass.runOnFunction fuel WBAvailExprState.fresh AntiExpr F
        = some (Except.ok wb) ∧
      wb.base.Domain = D ∧ AntiExpr.entries ids = as ∧ wb.base.entries ids = ws := by
  unfold lcmSummary at h
  split at h
  · next AntiExpr hA =>
    split at h
    · next wb hwb =>
      simp only [Option.some.injEq, Prod.mk.injEq] at h
      exact ⟨AntiExpr, wb, hA, hwb, h.1, h.2.1, h.2.2⟩
    · simp at h
  · simp at h

theorem exLive_summary :
    runSummary Liveness 2 exLive [0, 1, 2] =
      some ([⟨.arg 0⟩, ⟨.arg 1⟩, ⟨.inst 0⟩, ⟨.arg 2⟩, ⟨.inst 1⟩],
        [some [true, true, false, true, false], some [false, false, true, true, false],
          some [false, false, false, false, true]]) := by
  rfl

theorem exCarry_summary :
    lcmSummary 2 exCarry [0, 1] =
      some ([⟨.Add, .arg 0, .arg 1⟩], [some [true], some [false]], [some [true], some [true]]) := by
  rfl

theorem fixedAt_out {E : Type} {A : Analysis E} {D : List E} {F : Function} {t : Bool}
    {g : Instruction → DomainVal → DomainVal} (hS : Sound A D F t g) (hF : WellFormed F)
    {m : InstMap} (hG : Good D.length F m) {BB : BasicBlock} (hBB : BB ∈ F.blocks)
    {task : Option Instruction × Instruction} (htask : task ∈ blockTasks A.dir BB)
    (hfix : FixedAt A D F m BB task) :
    ∃ IN, incoming A D F m BB task.1 = Except.ok IN ∧ IN.length = D.length ∧
      m task.2.id = some (g task.2 IN) := by
  obtain ⟨IN, OUT, hin, hout, htf⟩ := hfix
  have hIF : task.2 ∈ instructions F := mem_instructions hBB (mem_blockTasks htask).1
  have hINlen : IN.length = D.length := by
    obtain ⟨v, _, h1, _, _, h4⟩ := incoming_mono hS hF hG hG (mle_refl t m) hBB htask
    rw [hin] at h1
    cases h1
    exact h4
  obtain ⟨v, hv, hvlen⟩ := hG task.2 hIF
  rw [hout] at hv
  cases hv
  rw [hS.tf_eq task.2 hIF IN OUT hINlen hvlen] at htf
  simp only [Except.ok.injEq, Prod.mk.injEq] at htf
  exact ⟨IN, hin, hINlen, by rw [hout, htf.1]⟩

theorem getElem?_of_length_eq {α : Type} {D : List α} {T : DomainVal}
    (hlen : T.length = D.length) {j : Nat} {e : α} (he : D[j]? = some e) :
    ∃ b, T[j]? = some b := by
  have hj : j < D.length := by
    by_contra h
    rw [List.getElem?_eq_none (not_lt.mp h)] at he
    cases he
  have hj2 : j < T.length := hlen ▸ hj
  exact ⟨T[j], List.getElem?_eq_getElem hj2⟩

theorem exprGen_iff (Inst : Instruction) (e : Expression) :
    exprGen Inst e = true ↔ ∃ Expr, Expression.ofInst Inst = some Expr ∧ e.eq Expr = true := by
  unfold exprGen
  cases Expression.ofInst Inst <;> simp

/-- C6, as amended: after the Anticipated pass and then the Will-Be-Available
pass have converged on `F`, the Will-Be-Available vector stored for an
instruction `I` has bit `j` set exactly when `Domain[j]` is not killed by `I`
and one of these holds: `Domain[j]` compares equal to the expression
generated by `I`, the Anticipated vector stored for `I` has bit `j` set, or
the incoming Will-Be-Available vector of `I` (the boundary value of its block
if `I` is first in it, the vector stored for the previous instruction
otherwise) has bit `j` set. -/
theorem wbavail_fact (F : Function) (hF : WellFormed F) (fuelA : Nat)
    (AntiExpr : Framework Expression)
    (hA : AntiExprWrapperPass.runOnFunction fuelA Framework.fresh F
      = some (Except.ok AntiExpr))
    (fuelW : Nat) (wb : WBAvailExprState)
    (hW : WBAvailExprWrapperPass.runOnFunction fuelW WBAvailExprState.fresh AntiExpr F
      = some (Except.ok wb))
    (BB : BasicBlock) (hBB : BB ∈ F.blocks) (prev : Option Instruction) (I : Instruction)
    (hI : (prev, I) ∈ blockTasks Direction.kForward BB) :
    ∃ IN W A,
      incoming (WBAvailExprImpl wb.AntiExprInstDomainValMap) wb.base.Domain F
        wb.base.InstDomainValMap BB prev = Except.ok IN ∧
      wb.base.InstDomainValMap I.id = some W ∧ AntiExpr.InstDomainValMap I.id = some A ∧
      W.length = wb.base.Domain.length ∧
      ∀ (j : Nat) (e : Expression), wb.base.Domain[j]? = some e →
        (W[j]? = some true ↔
          ((∃ Expr, Expression.ofInst I = some Expr ∧ e.eq Expr = true) ∨
            A[j]? = some true ∨ IN[j]? = some true) ∧
          ¬ (e.LHS = I.asValue ∨ e.RHS = I.asValue)) := by
  obtain ⟨hD, hG⟩ := antiExpr_result F hF fuelA AntiExpr hA
  obtain ⟨e1, e2, hGW, hfp⟩ :=
    (wbAvailExpr_run_spec AntiExpr F hF hD hG).2 fuelW wb hW
  rw [e1, e2] at hfp ⊢
  rw [e1] at hGW
  have hS := wbAvailExpr_sound AntiExpr.InstDomainValMap AntiExpr.Domain F hD hG
  obtain ⟨IN, hin, hINlen, hout⟩ := fixedAt_out hS hF hGW hBB hI (hfp BB hBB (prev, I) hI)
  simp only at hin hout
  have hIF : I ∈ instructions F := mem_instructions hBB (mem_blockTasks hI).1
  obtain ⟨A, hAI, hAlen⟩ := hG I hIF
  have hval : val AntiExpr.InstDomainValMap I.id = A := by simp [val, hAI]
  rw [hval] at hout
  refine ⟨IN, _, A, hin, hout, hAI, length_wbTransfer A I _ IN hINlen hAlen, ?_⟩
  intro j e he
  obtain ⟨b, hb⟩ := getElem?_of_length_eq hINlen he
  obtain ⟨a, ha⟩ := getElem?_of_length_eq hAlen he
  have hW : (wbTransfer A I AntiExpr.Domain IN)[j]?
      = some (!redefined I e && ((exprGen I e || b) || a)) := by
    unfold wbTransfer
    rw [getElem?_zipWith_some _ _ _ j e ((exprGen I e || b) || a) he]
    simp only [List.getElem?_zipWith, he, hb, ha]
  rw [hW, hb, ha, ← exprGen_iff, ← redefined_iff]
  cases redefined I e <;> cases exprGen I e <;> cases b <;> cases a <;> simp

/-- C6 on `exCarry`, at `x = a + b`: the bit of `a + b` is set. -/
theorem wbavail_fact_witness :
    WellFormed exCarry ∧
    ∃ AntiExpr wb W,
      AntiExprWrapperPass.runOnFunction 2 Framework.fresh exCarry = some (Except.ok AntiExpr) ∧
      WBAvailExprWrapperPass.runOnFunction 2 WBAvailExprState.fresh AntiExpr exCarry
        = some (Except.ok wb) ∧
      wb.base.Domain = [⟨.Add, .arg 0, .arg 1⟩] ∧
      wb.base.InstDomainValMap 0 = some W ∧ W[0]? = some true := by
  have hF : WellFormed exCarry := ⟨by decide, by decide, by decide, by decide⟩
  obtain ⟨AntiExpr, wb, hA, hW, hD, -, -⟩ := lcmSummary_some exCarry_summary
  obtain ⟨IN, W, A, -, hWI, -, -, hpt⟩ := wbavail_fact exCarry hF 2 AntiExpr hA 2 wb hW
    exCarryBlock (by decide) none (.binary 0 .Add (.arg 0) (.arg 1)) (by decide)
  refine ⟨hF, AntiExpr, wb, W, hA, hW, hD, hWI, ?_⟩
  refine (hpt 0 ⟨.Add, .arg 0, .arg 1⟩ (by rw [hD]; rfl)).mpr ⟨Or.inl ⟨_, rfl, by decide⟩, ?_⟩
  decide

/-- C6 as stated fails: on `exCarry` (`x = a + b; ret x`) the Will-Be-Available
vector stored for the `ret` has the bit of `a + b` set, although the `ret`
generates no expression and its Anticipated vector has that bit clear: the
bit comes in from the vector of `x`. -/
theorem wbavail_carries_incoming :
    ∃ AntiExpr wb,
      AntiExprWrapperPass.runOnFunction 2 Framework.fresh exCarry = some (Except.ok AntiExpr) ∧
      WBAvailExprWrapperPass.runOnFunction 2 WBAvailExprState.fresh AntiExpr exCarry
        = some (Except.ok wb) ∧
      wb.base.Domain = [⟨.Add, .arg 0, .arg 1⟩] ∧
      Expression.ofInst (.nonBinary 1 1 [.inst 0]) = none ∧
      AntiExpr.InstDomainValMap 1 = some [false] ∧
      wb.base.InstDomainValMap 1 = some [true] := by
  obtain ⟨AntiExpr, wb, hA, hW, hD, ha, hw⟩ := lcmSummary_some exCarry_summary
  simp only [Framework.entries, List.map_cons, List.map_nil, List.cons.injEq, and_true] at ha hw
  exact ⟨AntiExpr, wb, hA, hW, hD, rfl, ha.2, hw.2⟩

/-! ## Liveness on the example of the specification -/

/-- C8, as amended: on the block `t1 = a + b; t2 = t1 + c; ret t2` the
liveness run returns with the domain `[a, b, t1, c, t2]`; the boundary value
entering `ret t2` is all-false; the vector stored for `t2 = t1 + c` is
exactly `{t1, c}`; and the vector stored for `t1 = a + b` is exactly
`{a, b, c}`. -/
theorem liveness_example :
    ∃ fw, runOnFunction Liveness 2 Framework.fresh exLive = some (Except.ok fw) ∧
      fw.Domain = [⟨.arg 0⟩, ⟨.arg 1⟩, ⟨.inst 0⟩, ⟨.arg 2⟩, ⟨.inst 1⟩] ∧
      getBoundaryVal Liveness fw.Domain exLive fw.InstDomainValMap exLiveBlock
        = Except.ok [false, false, false, false, false] ∧
      fw.InstDomainValMap 1 = some [false, false, true, true, false] ∧
      fw.InstDomainValMap 0 = some [true, true, false, true, false] := by
  obtain ⟨fw, h, hD, hv⟩ := runSummary_some exLive_summary
  simp only [Framework.entries, List.map_cons, List.map_nil, List.cons.injEq, and_true] at hv
  refine ⟨fw, h, hD, ?_, hv.2.1, hv.1⟩
  rw [hD]
  rfl

/-- C8 as stated fails: the vector stored for `t1 = a + b` has the bit of `c`
(index 3 of the domain) set, so it is not exactly `{a, b}`. -/
theorem liveness_example_not_ab :
    ∃ fw v, runOnFunction Liveness 2 Framework.fresh exLive = some (Except.ok fw) ∧
      fw.Domain = [⟨.arg 0⟩, ⟨.arg 1⟩, ⟨.inst 0⟩, ⟨.arg 2⟩, ⟨.inst 1⟩] ∧
      fw.InstDomainValMap 0 = some v ∧ v[3]? = some true ∧
      v ≠ [true, true, false, false, false] := by
  obtain ⟨fw, h, hD, hv⟩ := runSummary_some exLive_summary
  simp only [Framework.entries, List.map_cons, List.map_nil, List.cons.injEq, and_true] at hv
  exact ⟨fw, _, h, hD, hv.1, rfl, by decide⟩

/-! ## Available expressions and redefinition -/

theorem mem_addIfAbsent {E : Type} (eq : E → E → Bool) (D : List E) (x d : E) (h : d ∈ D) :
    d ∈ addIfAbsent eq D x := by
  unfold addIfAbsent
  split
  · exact List.mem_append_left _ h
  · exact h

theorem addIfAbsent_has {E : Type} (eq : E → E → Bool) (D : List E) (x : E)
    (hrefl : eq x x = true) : ∃ d ∈ addIfAbsent eq D x, eq d x = true := by
  unfold addIfAbsent
  split
  · exact ⟨x, by simp, hrefl⟩
  · next h =>
    have hlt : D.findIdx (fun d => eq d x) < D.length :=
      lt_of_le_of_ne (List.findIdx_le_length _) h
    obtain ⟨d, hd, hp⟩ := List.findIdx_lt_length.mp hlt
    exact ⟨d, hd, hp⟩

theorem exprInitializeDomainFromInst_mem (D : List Expression) (Inst : Instruction)
    (d : Expression) (h : d ∈ D) : d ∈ exprInitializeDomainFromInst D Inst := by
  unfold exprInitializeDomainFromInst
  cases Expression.ofInst Inst with
  | none => exact h
  | some x => exact mem_addIfAbsent _ D x d h

theorem foldl_exprInitializeDomainFromInst_mem (l : List Instruction) :
    ∀ (D : List Expression) (d : Expression), d ∈ D →
      d ∈ l.foldl exprInitializeDomainFromInst D := by
  induction l with
  | nil => intro D d h; exact h
  | cons I rest ih =>
    intro D d h
    exact ih _ d (exprInitializeDomainFromInst_mem D I d h)

theorem foldl_exprInitializeDomainFromInst_has (l : List Instruction) :
    ∀ (D : List Expression) (I : Instruction) (Expr : Expression), I ∈ l →
      Expression.ofInst I = some Expr →
      ∃ d ∈ l.foldl exprInitializeDomainFromInst D, d.eq Expr = true := by
  induction l with
  | nil => intro D I Expr h; simp at h
  | cons J rest ih =>
    intro D I Expr hI hE
    rcases List.mem_cons.mp hI with rfl | hI
    · obtain ⟨d, hd, hde⟩ := addIfAbsent_has Expression.eq D Expr (Expression.eq_refl Expr)
      refine ⟨d, foldl_exprInitializeDomainFromInst_mem rest _ d ?_, hde⟩
      simp only [exprInitializeDomainFromInst, hE]
      exact hd
    · exact ih _ I Expr hI hE

theorem availExpr_domain_has (F : Function) (I : Instruction) (Expr : Expression)
    (hI : I ∈ instructions F) (hE : Expression.ofInst I = some Expr) :
    ∃ (j : Nat) (e : Expression),
      (initializeDomain AvailExpr [] F)[j]? = some e ∧ e.eq Expr = true := by
  obtain ⟨d, hd, hde⟩ := foldl_exprInitializeDomainFromInst_has (instructions F) [] I Expr hI hE
  obtain ⟨j, hj⟩ := List.mem_iff_getElem?.mp hd
  exact ⟨j, d, hj, hde⟩

theorem exprTransfer_getElem? (Inst : Instruction) (D : List Expression) (IN : DomainVal)
    (hlen : IN.length = D.length) {j : Nat} {e : Expression} (he : D[j]? = some e) :
    ∃ b, IN[j]? = some b ∧
      (exprTransfer Inst D IN)[j]? = some (!redefined Inst e && (exprGen Inst e || b)) := by
  obtain ⟨b, hb⟩ := getElem?_of_length_eq hlen he
  exact ⟨b, hb, getElem?_zipWith_some _ D IN j e b he hb⟩

/-- The vector that `AvailExpr` stores for an instruction has the bit of every
domain element with that instruction as an operand clear. -/
theorem availExpr_killed_clear (F : Function) (hF : WellFormed F) (fuel : Nat)
    (fw : Framework Expression)
    (h : runOnFunction AvailExpr fuel Framework.fresh F = some (Except.ok fw))
    (I : Instruction) (hI : I ∈ instructions F) (j : Nat) (e : Expression)
    (he : fw.Domain[j]? = some e) (hk : e.LHS = I.asValue ∨ e.RHS = I.asValue) :
    ∃ v, fw.InstDomainValMap I.id = some v ∧ v[j]? = some false := by
  obtain ⟨e1, hG, hfp⟩ := (availExpr_run_spec F hF).2 fuel fw h
  have hS := availExpr_sound fw.Domain F (e1 ▸ availExpr_domain_distinct F)
  unfold instructions at hI
  obtain ⟨BB, hBB, hIBB⟩ := List.mem_flatMap.mp hI
  have htask : ∃ prev, (prev, I) ∈ blockTasks AvailExpr.dir BB := by
    have : I ∈ (blockTasks AvailExpr.dir BB).map Prod.snd := by
      unfold blockTasks
      rw [tasksFrom_map_snd]
      exact mem_getInstTraversalOrder.mpr hIBB
    obtain ⟨⟨prev, I'⟩, hmem, rfl⟩ := List.mem_map.mp this
    exact ⟨prev, hmem⟩
  obtain ⟨prev, htask⟩ := htask
  obtain ⟨IN, _, hINlen, hout⟩ := fixedAt_out hS hF hG hBB htask (hfp BB hBB (prev, I) htask)
  simp only at hout
  obtain ⟨b, _, hb⟩ := exprTransfer_getElem? I fw.Domain IN hINlen he
  refine ⟨_, hout, ?_⟩
  rw [hb, (redefined_iff I e).mpr hk]
  rfl

/-- C9: in a straight-line block `x = a op b; mid; y = a op b` whose
operand `a` is the middle instruction, `AvailExpr` returns; the expression
`a op b` is in the domain; the vector stored for `x` has its bit set, the
vector stored for the middle instruction has it clear, and that vector is the
one entering `y`. More generally, on every function the vector stored for an
instruction `I` has the bit of every domain element with an operand identical
to `I` clear. -/
theorem availExpr_redefinition_kill :
    (∀ (x a y : Nat) (op : BinaryOps) (b : Value) (mid : Instruction),
      mid.id = a → x ≠ a → x ≠ y → a ≠ y → b ≠ Value.inst x →
      ∃ N, ∀ fuel, N ≤ fuel → ∃ fw vx va,
        runOnFunction AvailExpr fuel Framework.fresh
          ⟨[⟨[.binary x op (.inst a) b, mid, .binary y op (.inst a) b], [], []⟩]⟩
          = some (Except.ok fw) ∧
        fw.InstDomainValMap x = some vx ∧ fw.InstDomainValMap a = some va ∧
        incoming AvailExpr fw.Domain
          ⟨[⟨[.binary x op (.inst a) b, mid, .binary y op (.inst a) b], [], []⟩]⟩
          fw.InstDomainValMap ⟨[.binary x op (.inst a) b, mid, .binary y op (.inst a) b], [], []⟩
          (some mid) = Except.ok va ∧
        (∃ (j : Nat) (e : Expression), fw.Domain[j]? = some e ∧
          e.eq ⟨op, .inst a, b⟩ = true) ∧
        ∀ (j : Nat) (e : Expression), fw.Domain[j]? = some e →
          e.eq ⟨op, .inst a, b⟩ = true → vx[j]? = some true ∧ va[j]? = some false) ∧
    (∀ F : Function, WellFormed F →
      (∃ N, ∀ fuel, N ≤ fuel → ∃ fw,
        runOnFunction AvailExpr fuel Framework.fresh F = some (Except.ok fw)) ∧
      ∀ fuel fw, runOnFunction AvailExpr fuel Framework.fresh F = some (Except.ok fw) →
        ∀ I ∈ instructions F, ∀ (j : Nat) (e : Expression), fw.Domain[j]? = some e →
          (e.LHS = I.asValue ∨ e.RHS = I.asValue) →
          ∃ v, fw.InstDomainValMap I.id = some v ∧ v[j]? = some false) := by
  constructor
  · intro x a y op b mid hmid hxa hxy hay hbx
    subst hmid
    generalize hFdef : (⟨[⟨[.binary x op (.inst mid.id) b, mid,
      .binary y op (.inst mid.id) b], [], []⟩]⟩ : Function) = F
    have hF : WellFormed F := by
      subst hFdef
      refine ⟨?_, ?_, ?_, ?_⟩
      · intro BB hBB
        simp only [List.mem_singleton] at hBB
        subst hBB
        simp
      · intro BB hBB
        simp only [List.mem_singleton] at hBB
        subst hBB
        simp
      · intro BB hBB
        simp only [List.mem_singleton] at hBB
        subst hBB
        simp
      · show ([x, mid.id, y] : List Nat).Nodup
        simp [hxa, hxy, hay]
    obtain ⟨⟨N, hN⟩, hspec⟩ := availExpr_run_spec F hF
    refine ⟨N, fun fuel hfuel => ?_⟩
    obtain ⟨fw, hfw⟩ := hN fuel hfuel
    obtain ⟨e1, hG, hfp⟩ := hspec fuel fw hfw
    have hS := availExpr_sound fw.Domain F (e1 ▸ availExpr_domain_distinct F)
    have hBB : (⟨[.binary x op (.inst mid.id) b, mid, .binary y op (.inst mid.id) b], [], []⟩
        : BasicBlock) ∈ F.blocks := by subst hFdef; simp
    have ht0 : ((none : Option Instruction), Instruction.binary x op (.inst mid.id) b) ∈
        blockTasks AvailExpr.dir ⟨[.binary x op (.inst mid.id) b, mid,
          .binary y op (.inst mid.id) b], [], []⟩ := by
      simp [blockTasks, getInstTraversalOrder, AvailExpr, tasksFrom]
    have ht1 : (some (Instruction.binary x op (.inst mid.id) b), mid) ∈
        blockTasks AvailExpr.dir ⟨[.binary x op (.inst mid.id) b, mid,
          .binary y op (.inst mid.id) b], [], []⟩ := by
      simp [blockTasks, getInstTraversalOrder, AvailExpr, tasksFrom]
    obtain ⟨IN0, _, hIN0, hout0⟩ := fixedAt_out hS hF hG hBB ht0 (hfp _ hBB _ ht0)
    obtain ⟨IN1, _, hIN1, hout1⟩ := fixedAt_out hS hF hG hBB ht1 (hfp _ hBB _ ht1)
    have hout0' : fw.InstDomainValMap x
        = some (exprTransfer (.binary x op (.inst mid.id) b) fw.Domain IN0) := hout0
    have hout1' : fw.InstDomainValMap mid.id = some (exprTransfer mid fw.Domain IN1) := hout1
    have hmidF : mid ∈ instructions F := by subst hFdef; simp [instructions]
    have hxF : Instruction.binary x op (.inst mid.id) b ∈ instructions F := by
      subst hFdef; simp [instructions]
    refine ⟨fw, _, _, hfw, hout0', hout1', ?_, ?_, ?_⟩
    · simp only [incoming, InstMap.at, hout1']
    · rw [e1]
      exact availExpr_domain_has F _ _ hxF rfl
    · intro j e he heq
      obtain ⟨b0, _, hb0⟩ := exprTransfer_getElem? (.binary x op (.inst mid.id) b) fw.Domain
        IN0 hIN0 he
      obtain ⟨b1, _, hb1⟩ := exprTransfer_getElem? mid fw.Domain IN1 hIN1 he
      have hops := (Expression.eq_iff e ⟨op, .inst mid.id, b⟩).mp heq
      simp only at hops
      have hkill1 : redefined mid e = true := by
        rw [redefined_iff]
        unfold Instruction.asValue
        rcases hops.2 with ⟨h1, _⟩ | ⟨_, _, h2⟩
        · exact Or.inl h1
        · exact Or.inr h2
      have hkill0 : redefined (.binary x op (.inst mid.id) b) e = false := by
        cases hr : redefined (.binary x op (.inst mid.id) b) e with
        | false => rfl
        | true =>
          exfalso
          rw [redefined_iff] at hr
          simp only [Instruction.asValue, Instruction.id] at hr
          rcases hops.2 with ⟨h1, h2⟩ | ⟨_, h1, h2⟩
          · rcases hr with hr | hr
            · rw [h1] at hr; exact hxa (Value.inst.inj hr).symm
            · rw [h2] at hr; exact hbx hr
          · rcases hr with hr | hr
            · rw [h1] at hr; exact hbx hr
            · rw [h2] at hr; exact hxa (Value.inst.inj hr).symm
      have hgen0 : exprGen (.binary x op (.inst mid.id) b) e = true := by
        rw [exprGen_iff]
        exact ⟨_, rfl, heq⟩
      rw [hb0, hb1, hkill0, hkill1, hgen0]
      exact ⟨rfl, rfl⟩
  · intro F hF
    exact ⟨(availExpr_run_spec F hF).1,
      fun fuel fw h I hI j e he hk => availExpr_killed_clear F hF fuel fw h I hI j e he hk⟩

/-- C9 on `exKill` (`x = a + b; a = load p; y = a + b`): bit 0, the bit of
`a + b`, is set for `x`, clear for `a`, and clear in the vector entering `y`. -/
theorem availExpr_redefinition_kill_witness :
    ∃ fuel fw vx va,
      runOnFunction AvailExpr fuel Framework.fresh exKill = some (Except.ok fw) ∧
      fw.Domain[0]? = some ⟨.Add, .inst 1, .arg 1⟩ ∧
      fw.InstDomainValMap 0 = some vx ∧ fw.InstDomainValMap 1 = some va ∧
      vx[0]? = some true ∧ va[0]? = some false := by
  obtain ⟨N, hN⟩ := availExpr_redefinition_kill.1 0 1 2 .Add (.arg 1) (.nonBinary 1 32 [.arg 0])
    rfl (by decide) (by decide) (by decide) (by decide)
  obtain ⟨fw, vx, va, h, hx, ha, -, -, hpt⟩ := hN N (le_refl _)
  have hD : fw.Domain[0]? = some ⟨.Add, .inst 1, .arg 1⟩ := by
    have hF : WellFormed exKill := ⟨by decide, by decide, by decide, by decide⟩
    rw [((availExpr_run_spec exKill hF).2 N fw h).1]
    rfl
  exact ⟨N, fw, vx, va, h, hD, hx, ha, hpt 0 _ hD (by decide)⟩

/-! ## Algebra of the meet operators -/

theorem zipWith_self (f : Bool → Bool → Bool) (hf : ∀ a, f a a = a) (x : DomainVal) :
    List.zipWith f x x = x := by
  induction x with
  | nil => rfl
  | cons a x ih => simp [hf, ih]

theorem zipWith_comm_of (f : Bool → Bool → Bool) (hf : ∀ a b, f a b = f b a)
    (x y : DomainVal) : List.zipWith f x y = List.zipWith f y x := by
  induction x generalizing y with
  | nil => cases y <;> rfl
  | cons a x ih =>
    cases y with
    | nil => rfl
    | cons b y => simp only [List.zipWith_cons_cons, hf a b, ih y]

theorem zipWith_assoc_of (f : Bool → Bool → Bool) (hf : ∀ a b c, f (f a b) c = f a (f b c))
    (x y z : DomainVal) :
    List.zipWith f (List.zipWith f x y) z = List.zipWith f x (List.zipWith f y z) := by
  induction x generalizing y z with
  | nil => simp
  | cons a x ih =>
    cases y with
    | nil => simp
    | cons b y =>
      cases z with
      | nil => simp
      | cons c z => simp only [List.zipWith_cons_cons, hf a b c, ih y z]

theorem zipWith_replicate_right (f : Bool → Bool → Bool) (t : Bool) (hf : ∀ a, f a t = a)
    (x : DomainVal) : List.zipWith f x (List.replicate x.length t) = x := by
  induction x with
  | nil => rfl
  | cons a x ih => simp [List.replicate_succ, hf, ih]

/-- C11: for `Intersect` and for `Union`, on fact vectors `x`, `y`, `z` of one
common length the meet is idempotent (`combine(x, x) = x`), commutative
(`combine(x, y) = combine(y, x)`) and associative
(`combine(combine(x, y), z) = combine(x, combine(y, z))`); every one of these
calls returns a vector. -/
theorem meetOp_semilattice (x y z : DomainVal) (hxy : x.length = y.length)
    (hyz : y.length = z.length) :
    (Intersect.call x x = Except.ok x ∧ Union.call x x = Except.ok x) ∧
    ((∃ r, Intersect.call x y = Except.ok r ∧ Intersect.call y x = Except.ok r) ∧
      (∃ r, Union.call x y = Except.ok r ∧ Union.call y x = Except.ok r)) ∧
    ((∃ r, (Intersect.call x y >>= fun xy => Intersect.call xy z) = Except.ok r ∧
        (Intersect.call y z >>= fun yz => Intersect.call x yz) = Except.ok r) ∧
      (∃ r, (Union.call x y >>= fun xy => Union.call xy z) = Except.ok r ∧
        (Union.call y z >>= fun yz => Union.call x yz) = Except.ok r)) := by
  refine ⟨⟨?_, ?_⟩, ⟨?_, ?_⟩, ⟨?_, ?_⟩⟩
  · rw [Intersect_call_ok x x rfl, zipWith_self _ (fun a => by cases a <;> rfl)]
  · rw [Union_call_ok x x rfl, zipWith_self _ (fun a => by cases a <;> rfl)]
  · refine ⟨_, Intersect_call_ok x y hxy, ?_⟩
    rw [Intersect_call_ok y x hxy.symm,
      zipWith_comm_of _ (fun a b => by cases a <;> cases b <;> rfl)]
  · refine ⟨_, Union_call_ok x y hxy, ?_⟩
    rw [Union_call_ok y x hxy.symm,
      zipWith_comm_of _ (fun a b => by cases a <;> cases b <;> rfl)]
  · refine ⟨List.zipWith (fun a b => a && b) (List.zipWith (fun a b => a && b) x y) z, ?_, ?_⟩
    · rw [Intersect_call_ok x y hxy, ok_bind, Intersect_call_ok _ z (by simp [hxy, hyz])]
    · rw [Intersect_call_ok y z hyz, ok_bind, Intersect_call_ok x _ (by simp [hxy, hyz]),
        zipWith_assoc_of _ (fun a b c => by cases a <;> cases b <;> cases c <;> rfl)]
  · refine ⟨List.zipWith (fun a b => a || b) (List.zipWith (fun a b => a || b) x y) z, ?_, ?_⟩
    · rw [Union_call_ok x y hxy, ok_bind, Union_call_ok _ z (by simp [hxy, hyz])]
    · rw [Union_call_ok y z hyz, ok_bind, Union_call_ok x _ (by simp [hxy, hyz]),
        zipWith_assoc_of _ (fun a b c => by cases a <;> cases b <;> cases c <;> rfl)]

/-- C11 on the vectors `[true, false]`, `[false, false]`, `[true, true]`. -/
theorem meetOp_semilattice_witness :
    Intersect.call [true, false] [true, false] = Except.ok [true, false] ∧
    ∃ r, Union.call [true, false] [false, false] = Except.ok r ∧
      Union.call [false, false] [true, false] = Except.ok r :=
  ⟨(meetOp_semilattice [true, false] [false, false] [true, true] rfl rfl).1.1,
    (meetOp_semilattice [true, false] [false, false] [true, true] rfl rfl).2.1.2⟩

/-- C12: for every fact vector `x` of length `n`, the meet of `x` with
`top(n)`, on either side, is `x`, for `Intersect`, whose `top(n)` is the
all-true vector, and for `Union`, whose `top(n)` is the all-false vector. -/
theorem meetOp_top_identity (x : DomainVal) (n : Nat) (hn : x.length = n) :
    Intersect.call x (Intersect.top n) = Except.ok x ∧
    Intersect.call (Intersect.top n) x = Except.ok x ∧
    Union.call x (Union.top n) = Except.ok x ∧
    Union.call (Union.top n) x = Except.ok x ∧
    Intersect.top n = List.replicate n true ∧ Union.top n = List.replicate n false := by
  subst hn
  have hI : Intersect.top x.length = List.replicate x.length true := rfl
  have hU : Union.top x.length = List.replicate x.length false := rfl
  rw [hI, hU]
  refine ⟨?_, ?_, ?_, ?_, rfl, rfl⟩
  · rw [Intersect_call_ok _ _ (by simp),
      zipWith_replicate_right _ true (fun a => by cases a <;> rfl)]
  · rw [Intersect_call_ok _ _ (by simp),
      zipWith_comm_of _ (fun a b => by cases a <;> cases b <;> rfl),
      zipWith_replicate_right _ true (fun a => by cases a <;> rfl)]
  · rw [Union_call_ok _ _ (by simp),
      zipWith_replicate_right _ false (fun a => by cases a <;> rfl)]
  · rw [Union_call_ok _ _ (by simp),
      zipWith_comm_of _ (fun a b => by cases a <;> cases b <;> rfl),
      zipWith_replicate_right _ false (fun a => by cases a <;> rfl)]

/-- C12 on the vector `[true, false, true]`. -/
theorem meetOp_top_identity_witness :
    Intersect.call [true, false, true] (Intersect.top 3) = Except.ok [true, false, true] ∧
    Union.call (Union.top 3) [true, false, true] = Except.ok [true, false, true] :=
  ⟨(meetOp_top_identity [true, false, true] 3 rfl).1,
    (meetOp_top_identity [true, false, true] 3 rfl).2.2.2.1⟩

/-! ## Equality of expressions -/

/-- C13: `e1 == e2` is true exactly when the opcodes are equal and either the
operands are equal in order, or the opcode is commutative (`Add`, `FAdd`,
`Mul`, `FMul`, `And`, `Or`, `Xor`) and the operands are equal crosswise. So
`Expression(Add, a, b) == Expression(Add, b, a)` for all `a`, `b`, and
`Expression(Sub, a, b) != Expression(Sub, b, a)` when `a` and `b` differ. -/
theorem expression_eq_spec (e1 e2 : Expression) (a b : Value) :
    (e1.eq e2 = true ↔
      e1.Opcode = e2.Opcode ∧
        ((e1.LHS = e2.LHS ∧ e1.RHS = e2.RHS) ∨
          (e1.Opcode ∈ [BinaryOps.Add, BinaryOps.FAdd, BinaryOps.Mul, BinaryOps.FMul,
              BinaryOps.And, BinaryOps.Or, BinaryOps.Xor] ∧
            e1.LHS = e2.RHS ∧ e1.RHS = e2.LHS))) ∧
    Expression.eq ⟨BinaryOps.Add, a, b⟩ ⟨BinaryOps.Add, b, a⟩ = true ∧
    (a ≠ b → Expression.eq ⟨BinaryOps.Sub, a, b⟩ ⟨BinaryOps.Sub, b, a⟩ = false) := by
  have hcomm : ∀ op : BinaryOps, op.isCommutative = true ↔
      op ∈ [BinaryOps.Add, BinaryOps.FAdd, BinaryOps.Mul, BinaryOps.FMul,
        BinaryOps.And, BinaryOps.Or, BinaryOps.Xor] := by
    intro op
    cases op <;> simp [BinaryOps.isCommutative]
  refine ⟨?_, ?_, ?_⟩
  · rw [Expression.eq_iff, hcomm]
  · rw [Expression.eq_iff]
    exact ⟨rfl, Or.inr ⟨rfl, rfl, rfl⟩⟩
  · intro hab
    cases h : Expression.eq ⟨BinaryOps.Sub, a, b⟩ ⟨BinaryOps.Sub, b, a⟩ with
    | false => rfl
    | true =>
      rw [Expression.eq_iff] at h
      rcases h.2 with ⟨h1, _⟩ | ⟨h1, _⟩
      · exact absurd h1 hab
      · simp [BinaryOps.isCommutative] at h1

/-- C13 on `a + b` against `b + a` and `a - b` against `b - a`. -/
theorem expression_eq_spec_witness :
    Expression.eq ⟨.Add, .arg 0, .arg 1⟩ ⟨.Add, .arg 1, .arg 0⟩ = true ∧
    Expression.eq ⟨.Sub, .arg 0, .arg 1⟩ ⟨.Sub, .arg 1, .arg 0⟩ = false :=
  ⟨(expression_eq_spec ⟨.Add, .arg 0, .arg 1⟩ ⟨.Add, .arg 1, .arg 0⟩ (.arg 0) (.arg 1)).2.1,
    (expression_eq_spec ⟨.Add, .arg 0, .arg 1⟩ ⟨.Add, .arg 1, .arg 0⟩ (.arg 0) (.arg 1)).2.2
      (by decide)⟩

/-! ## The fold of the meet over the boundary contributors -/

theorem operandsLoop_forall₂ (pick : BasicBlock → Except Failure Instruction) (F : Function)
    (m : InstMap) :
    ∀ (nbs : List Nat) (ops : List DomainVal), operandsLoop pick F m nbs = Except.ok ops →
      List.Forall₂ (fun nb v => ∃ B I, F.block nb = Except.ok B ∧ pick B = Except.ok I ∧
        m I.id = some v) nbs ops := by
  intro nbs
  induction nbs with
  | nil =>
    intro ops h
    simp only [operandsLoop, Except.ok.injEq] at h
    subst h
    exact List.Forall₂.nil
  | cons nb rest ih =>
    intro ops h
    unfold operandsLoop at h
    cases hB : F.block nb with
    | error e => rw [hB] at h; cases h
    | ok B =>
      rw [hB, ok_bind] at h
      cases hI : pick B with
      | error e => rw [hI] at h; cases h
      | ok I =>
        rw [hI, ok_bind] at h
        cases hv : m I.id with
        | none => simp only [InstMap.at, hv] at h; cases h
        | some v =>
          simp only [InstMap.at, hv, ok_bind] at h
          cases hr : operandsLoop pick F m rest with
          | error e => rw [hr] at h; cases h
          | ok ops' =>
            rw [hr, ok_bind] at h
            simp only [pure_eq_ok, Except.ok.injEq] at h
            subst h
            exact List.Forall₂.cons ⟨B, I, hB, hI, hv⟩ (ih ops' hr)

theorem meetLoop_eq_foldl (MeetOp : MeetOp) (f : Bool → Bool → Bool) (n : Nat)
    (hcall : ∀ v w : DomainVal, v.length = w.length →
      MeetOp.call v w = Except.ok (List.zipWith f v w)) :
    ∀ (rest : List DomainVal) (v1 : DomainVal), v1.length = n →
      (∀ v ∈ rest, v.length = n) →
      meetLoop MeetOp v1 rest = Except.ok (rest.foldl (List.zipWith f) v1) := by
  intro rest
  induction rest with
  | nil => intro v1 _ _; rfl
  | cons v rest ih =>
    intro v1 h1 hall
    have hv : v.length = n := hall v (List.mem_cons_self _ _)
    simp only [meetLoop, hcall v1 v (by rw [h1, hv]), ok_bind, List.foldl_cons]
    exact ih _ (by simp [h1, hv]) (fun w hw => hall w (List.mem_cons_of_mem _ hw))

/-- C20: when `getMeetOperands` yields `k ≥ 1` contributors `v1, ..., vk`
(the stored vectors of the last instruction of each predecessor for a forward
analysis, of the first instruction of each successor for a backward one, in
enumeration order), `getBoundaryVal` is the left fold of the meet operator
over `v2, ..., vk` started at `v1`, without an identity element; with one
contributor it returns `v1` unchanged. For `Intersect` and `Union` on
contributors of length `|Domain|` the fold is the entrywise AND, respectively
OR. -/
theorem getBoundaryVal_fold {E : Type} (A : Analysis E) (Domain : List E) (F : Function)
    (m : InstMap) (BB : BasicBlock) (v1 : DomainVal) (rest : List DomainVal)
    (hops : getMeetOperands A.dir F m BB = Except.ok (v1 :: rest)) :
    (A.dir = Direction.kForward →
      List.Forall₂ (fun p v => ∃ P I, F.block p = Except.ok P ∧ P.back = Except.ok I ∧
        m I.id = some v) BB.preds (v1 :: rest)) ∧
    (A.dir = Direction.kBackward →
      List.Forall₂ (fun s v => ∃ S I, F.block s = Except.ok S ∧ S.front = Except.ok I ∧
        m I.id = some v) BB.succs (v1 :: rest)) ∧
    getBoundaryVal A Domain F m BB = meetLoop A.meetOp v1 rest ∧
    (rest = [] → getBoundaryVal A Domain F m BB = Except.ok v1) ∧
    ((∀ v ∈ v1 :: rest, v.length = Domain.length) →
      (A.meetOp = Intersect → getBoundaryVal A Domain F m BB
        = Except.ok (rest.foldl (List.zipWith (fun a b => a && b)) v1)) ∧
      (A.meetOp = Union → getBoundaryVal A Domain F m BB
        = Except.ok (rest.foldl (List.zipWith (fun a b => a || b)) v1))) := by
  have hgb : getBoundaryVal A Domain F m BB = meetLoop A.meetOp v1 rest := by
    simp only [getBoundaryVal, hops, ok_bind, meet]
  refine ⟨?_, ?_, hgb, ?_, ?_⟩
  · intro hdir
    rw [hdir] at hops
    simp only [getMeetOperands, getMeetOperandsForward_eq] at hops
    exact operandsLoop_forall₂ _ F m _ _ hops
  · intro hdir
    rw [hdir] at hops
    simp only [getMeetOperands, getMeetOperandsBackward_eq] at hops
    exact operandsLoop_forall₂ _ F m _ _ hops
  · intro hrest
    rw [hgb, hrest]
    rfl
  · intro hlen
    refine ⟨fun hI => ?_, fun hU => ?_⟩
    · rw [hgb, hI]
      exact meetLoop_eq_foldl Intersect _ Domain.length Intersect_call_ok rest v1
        (hlen v1 (List.mem_cons_self _ _)) (fun v hv => hlen v (List.mem_cons_of_mem _ hv))
    · rw [hgb, hU]
      exact meetLoop_eq_foldl Union _ Domain.length Union_call_ok rest v1
        (hlen v1 (List.mem_cons_self _ _)) (fun v hv => hlen v (List.mem_cons_of_mem _ hv))

/-- C20 at the join block of `exJoin`, whose predecessors end in instructions
0 and 2, with `[false]` stored for 0 and `[true]` for 2. -/
theorem getBoundaryVal_fold_witness :
    getMeetOperands AvailExpr.dir exJoin ((InstMap.empty.assign 0 [false]).assign 2 [true])
      exJoinBlock = Except.ok [[false], [true]] ∧
    getBoundaryVal AvailExpr [⟨.Add, .arg 0, .arg 1⟩] exJoin
      ((InstMap.empty.assign 0 [false]).assign 2 [true]) exJoinBlock = Except.ok [false] :=
  ⟨rfl, ((getBoundaryVal_fold AvailExpr [⟨.Add, .arg 0, .arg 1⟩] exJoin
      ((InstMap.empty.assign 0 [false]).assign 2 [true]) exJoinBlock [false] [[true]]
      rfl).2.2.2.2 (by decide)).1 rfl⟩

/-! ## The backward engine is the forward engine on the reversed function -/

theorem instLoop_congr {E : Type} (A B : Analysis E) (D : List E)
    (h : A.transferFunc = B.transferFunc) :
    ∀ (l : List Instruction) (m : InstMap) (IN : DomainVal) (ch : Bool),
      instLoop A D l m IN ch = instLoop B D l m IN ch := by
  intro l
  induction l with
  | nil => intro m IN ch; rfl
  | cons I rest ih =>
    intro m IN ch
    simp only [instLoop, h, ih]

theorem getElem?_reverse_map_revIndex {α β : Type} (f : α → β) (l : List α) (i : Nat) :
    (l.reverse.map f)[revIndex l.length i]? = (l[i]?).map f := by
  unfold revIndex
  by_cases h : i < l.length
  · rw [if_pos h, List.getElem?_map, List.getElem?_reverse (by omega)]
    congr 2
    omega
  · rw [if_neg h, List.getElem?_map, List.getElem?_eq_none (by simpa using h),
      List.getElem?_eq_none (by simpa using h)]

theorem block_rev (F : Function) (i : Nat) :
    F.rev.block (revIndex F.blocks.length i)
      = (F.block i).map (revBlock F.blocks.length) := by
  unfold Function.block Function.rev
  simp only [List.get?_eq_getElem?]
  rw [getElem?_reverse_map_revIndex]
  cases F.blocks[i]? <;> rfl

theorem back_revBlock (n : Nat) (B : BasicBlock) : (revBlock n B).back = B.front := by
  simp [BasicBlock.back, BasicBlock.front, revBlock, List.getLast?_reverse]

theorem operandsLoop_rev (F : Function) (m : InstMap) :
    ∀ nbs : List Nat,
      operandsLoop BasicBlock.back F.rev m (nbs.map (revIndex F.blocks.length))
        = operandsLoop BasicBlock.front F m nbs := by
  intro nbs
  induction nbs with
  | nil => rfl
  | cons s rest ih =>
    simp only [List.map_cons, operandsLoop, block_rev, ih]
    cases F.block s with
    | error e => rfl
    | ok B => simp only [Except.map, ok_bind, back_revBlock]

theorem getBoundaryVal_rev {E : Type} (A : Analysis E) (D : List E) (F : Function)
    (m : InstMap) (BB : BasicBlock) :
    getBoundaryVal (A.withDir Direction.kForward) D F.rev m (revBlock F.blocks.length BB)
      = getBoundaryVal (A.withDir Direction.kBackward) D F m BB := by
  simp only [getBoundaryVal, getMeetOperands, Analysis.withDir, getMeetOperandsForward_eq,
    getMeetOperandsBackward_eq, revBlock, operandsLoop_rev]

theorem bbLoop_rev {E : Type} (A : Analysis E) (D : List E) (F : Function) :
    ∀ (bl : List BasicBlock) (m : InstMap) (ch : Bool),
      bbLoop (A.withDir Direction.kForward) D F.rev (bl.map (revBlock F.blocks.length)) m ch
        = bbLoop (A.withDir Direction.kBackward) D F bl m ch := by
  intro bl
  induction bl with
  | nil => intro m ch; rfl
  | cons BB rest ih =>
    intro m ch
    simp only [List.map_cons, bbLoop, getBoundaryVal_rev, ih]
    have hl : getInstTraversalOrder (A.withDir Direction.kForward).dir
        (revBlock F.blocks.length BB)
        = getInstTraversalOrder (A.withDir Direction.kBackward).dir BB := rfl
    rw [hl]
    congr 1
    funext IN
    rw [instLoop_congr (A.withDir Direction.kForward) (A.withDir Direction.kBackward) D rfl]

theorem traverseCFG_rev {E : Type} (A : Analysis E) (D : List E) (F : Function) (m : InstMap) :
    traverseCFG (A.withDir Direction.kBackward) D F m
      = traverseCFG (A.withDir Direction.kForward) D F.rev m := by
  unfold traverseCFG
  have h1 : getBBTraversalOrder (A.withDir Direction.kForward).dir F.rev
      = F.blocks.reverse.map (revBlock F.blocks.length) := rfl
  have h2 : getBBTraversalOrder (A.withDir Direction.kBackward).dir F = F.blocks.reverse := rfl
  rw [h1, h2, bbLoop_rev]

theorem mem_instructions_rev (F : Function) (I : Instruction) :
    I ∈ instructions F.rev ↔ I ∈ instructions F := by
  simp only [instructions, Function.rev, List.mem_flatMap, List.mem_map, List.mem_reverse]
  constructor
  · rintro ⟨B, ⟨BB, hBB, rfl⟩, hI⟩
    exact ⟨BB, hBB, by simpa [revBlock] using hI⟩
  · rintro ⟨BB, hBB, hI⟩
    exact ⟨_, ⟨BB, hBB, rfl⟩, by simpa [revBlock] using hI⟩

/-- C19: for every meet operator, domain rule and transfer function (an
analysis `A`), every domain `D`, every function `F` and every map `m`, one
sweep of the backward engine on `F` and one sweep of the forward engine on the
reversed function `rev(F)` return the same map and the same flag, or fail
alike; so do the loops of sweeps for every fuel, hence with the same number of
sweeps; and the initial conditions are the same map. -/
theorem backward_eq_forward_rev {E : Type} (A : Analysis E) (D : List E) (F : Function)
    (m : InstMap) :
    traverseCFG (A.withDir Direction.kBackward) D F m
      = traverseCFG (A.withDir Direction.kForward) D F.rev m ∧
    (∀ fuel, whileTraverseCFG (A.withDir Direction.kBackward) D F fuel m
      = whileTraverseCFG (A.withDir Direction.kForward) D F.rev fuel m) ∧
    (∀ n, applyInitialConditions A.meetOp n F m = applyInitialConditions A.meetOp n F.rev m) := by
  refine ⟨traverseCFG_rev A D F m, ?_, ?_⟩
  · intro fuel
    induction fuel generalizing m with
    | zero => rfl
    | succ fuel ih =>
      simp only [whileTraverseCFG, traverseCFG_rev]
      split
      · rfl
      · exact ih _
      · rfl
  · intro n
    funext id
    unfold applyInitialConditions
    rw [applyInitialConditions_apply, applyInitialConditions_apply]
    have : id ∈ (instructions F).map Instruction.id ↔
        id ∈ (instructions F.rev).map Instruction.id := by
      simp only [List.mem_map, mem_instructions_rev]
    cases m id with
    | some v => rfl
    | none =>
      simp only
      by_cases h : id ∈ (instructions F).map Instruction.id
      · rw [if_pos h, if_pos (this.mp h)]
      · rw [if_neg h, if_neg (fun h' => h (this.mpr h'))]

/-! ## Distinctness of the domain -/

theorem reuseSummary_some {fuel : Nat} {F1 F2 : Function} {D1 D2 D3 : List Expression}
    {r : Option (Except Failure (List Expression))}
    (h : reuseSummary fuel F1 F2 = some (D1, D2, D3, r)) :
    ∃ anti1 wb1 anti2,
      AntiExprWrapperPass.runOnFunction fuel Framework.fresh F1 = some (Except.ok anti1) ∧
      WBAvailExprWrapperPass.runOnFunction fuel WBAvailExprState.fresh anti1 F1
        = some (Except.ok wb1) ∧
      AntiExprWrapperPass.runOnFunction fuel anti1 F2 = some (Except.ok anti2) ∧
      wb1.base.Domain = D1 ∧ anti2.Domain = D2 ∧
      ( WBAvailExprState.initialize wb1 anti2.Domain anti2.InstDomainValMap).base.Domain = D3 ∧
      (WBAvailExprWrapperPass.runOnFunction fuel wb1 anti2 F2).map
        (fun r => r.map (fun wb2 => wb2.base.Domain)) = r := by
  unfold reuseSummary at h
  split at h
  · next anti1 h1 =>
    split at h
    · next wb1 h2 =>
      split at h
      · next anti2 h3 =>
        simp only [Option.some.injEq, Prod.mk.injEq] at h
        exact ⟨anti1, wb1, anti2, h1, h2, h3, h.1, h.2.1, h.2.2.1, h.2.2.2⟩
      · simp at h
    · simp at h
  · simp at h

theorem exCarry_exSecond_summary :
    reuseSummary 2 exCarry exSecond =
      some ([⟨.Add, .arg 0, .arg 1⟩], [⟨.Add, .arg 0, .arg 1⟩, ⟨.Add, .arg 2, .arg 3⟩],
        [⟨.Add, .arg 0, .arg 1⟩, ⟨.Add, .arg 0, .arg 1⟩, ⟨.Add, .arg 2, .arg 3⟩],
        some (Except.error Failure.antiSize)) := by
  rfl

/-- C14, the part that holds and the input on which it fails.
`initializeDomainFromInst` of `AvailExpr`, `AntiExprImpl` and `Liveness` keeps
a pairwise-distinct domain pairwise distinct. `WBAvailExprImpl::initialize`
and `EPlaceImpl::initialize` append the supplied domain to `Domain`: when the
Anticipated and Will-Be-Available pass instances that have run on `exCarry`
run on a second function `exSecond`, the Will-Be-Available domain `[a + b]`
and the supplied Anticipated domain `[a + b, c + d]` are both pairwise
distinct, the domain after `initialize` is `[a + b, a + b, c + d]`, which is
not, and the run fails on the assertion that compares the sizes of the
Anticipated and the Will-Be-Available vector. -/
theorem initialize_appends_domain :
    (∀ (D : List Expression) (Inst : Instruction), Distinct Expression.eq D →
      Distinct Expression.eq (AvailExpr.initializeDomainFromInst D Inst) ∧
      Distinct Expression.eq (AntiExprImpl.initializeDomainFromInst D Inst)) ∧
    (∀ (D : List Variable) (Inst : Instruction), Distinct Variable.eq D →
      Distinct Variable.eq (Liveness.initializeDomainFromInst D Inst)) ∧
    (∀ (wb : WBAvailExprState) (ep : EPlaceState) (AntiExprDomain : List Expression)
        (m : InstMap) (b : Nat → Option DomainVal),
      ( WBAvailExprState.initialize wb AntiExprDomain m).base.Domain
        = wb.base.Domain ++ AntiExprDomain ∧
      ( EPlaceState.initialize ep AntiExprDomain m b).base.Domain
        = ep.base.Domain ++ AntiExprDomain) ∧
    (∃ anti1 wb1 anti2,
      AntiExprWrapperPass.runOnFunction 2 Framework.fresh exCarry = some (Except.ok anti1) ∧
      WBAvailExprWrapperPass.runOnFunction 2 WBAvailExprState.fresh anti1 exCarry
        = some (Except.ok wb1) ∧
      AntiExprWrapperPass.runOnFunction 2 anti1 exSecond = some (Except.ok anti2) ∧
      Distinct Expression.eq wb1.base.Domain ∧ Distinct Expression.eq anti2.Domain ∧
      ( WBAvailExprState.initialize wb1 anti2.Domain anti2.InstDomainValMap).base.Domain
        = [⟨.Add, .arg 0, .arg 1⟩, ⟨.Add, .arg 0, .arg 1⟩, ⟨.Add, .arg 2, .arg 3⟩] ∧
      ¬ Distinct Expression.eq
        ( WBAvailExprState.initialize wb1 anti2.Domain anti2.InstDomainValMap).base.Domain ∧
      ∃ e, WBAvailExprWrapperPass.runOnFunction 2 wb1 anti2 exSecond
        = some (Except.error e)) := by
  refine ⟨?_, ?_, ?_, ?_⟩
  · intro D Inst hD
    exact ⟨exprInitializeDomainFromInst_distinct D Inst hD,
      exprInitializeDomainFromInst_distinct D Inst hD⟩
  · intro D Inst hD
    exact liveness_initializeDomainFromInst_distinct D Inst hD
  · intro wb ep AntiExprDomain m b
    exact ⟨rfl, rfl⟩
  · obtain ⟨anti1, wb1, anti2, h1, h2, h3, hD1, hD2, hD3, hr⟩ :=
      reuseSummary_some exCarry_exSecond_summary
    refine ⟨anti1, wb1, anti2, h1, h2, h3, ?_, ?_, hD3, ?_, ?_⟩
    · rw [hD1]; unfold Distinct; decide
    · rw [hD2]; unfold Distinct; decide
    · rw [hD3]; unfold Distinct; decide
    · cases hw : WBAvailExprWrapperPass.runOnFunction 2 wb1 anti2 exSecond with
      | none => rw [hw] at hr; simp at hr
      | some r =>
        cases r with
        | error e => exact ⟨e, rfl⟩
        | ok wb2 => rw [hw] at hr; simp [Except.map] at hr

/-! ## Lengths and failures of the transfer functions -/

theorem setAt_length {V V' : DomainVal} {i : Nat} {b : Bool}
    (h : setAt V i b = Except.ok V') : V'.length = V.length := by
  unfold setAt at h
  split at h
  · simp only [Except.ok.injEq] at h
    subst h
    simp
  · cases h

theorem setIfFound_length {E : Type} {eq : E → E → Bool} {D : List E} {x : E}
    {T T' : DomainVal} (h : setIfFound eq D x T = Except.ok T') : T'.length = T.length := by
  unfold setIfFound at h
  simp only at h
  split at h
  · exact setAt_length h
  · simp only [Except.ok.injEq] at h
    subst h
    rfl

theorem generateExpr_length {D : List Expression} {Inst : Instruction} {T T' : DomainVal}
    (h : generateExpr D Inst T = Except.ok T') : T'.length = T.length := by
  unfold generateExpr at h
  split at h
  · exact setIfFound_length h
  · simp only [Except.ok.injEq] at h
    subst h
    rfl

theorem killLoop_length {E : Type} (killed : E → Bool) :
    ∀ (D : List E) (Idx : Nat) (T T' : DomainVal),
      killLoop killed D Idx T = Except.ok T' → T'.length = T.length := by
  intro D
  induction D with
  | nil =>
    intro Idx T T' h
    simp only [killLoop, Except.ok.injEq] at h
    subst h
    rfl
  | cons e D ih =>
    intro Idx T T' h
    unfold killLoop at h
    split at h
    · cases hs : setAt T Idx false with
      | error err => rw [hs] at h; cases h
      | ok T1 =>
        rw [hs, ok_bind] at h
        rw [ih _ _ _ h, setAt_length hs]
    · rw [ok_bind] at h
      exact ih _ _ _ h

theorem setIfFound_ok_of_le {E : Type} (eq : E → E → Bool) (D : List E) (x : E)
    (T : DomainVal) (hle : D.length ≤ T.length) :
    ∃ T', setIfFound eq D x T = Except.ok T' ∧ T'.length = T.length := by
  unfold setIfFound
  simp only
  split
  · next h =>
    refine ⟨T.set (D.findIdx (fun d => eq d x)) true, ?_, by simp⟩
    unfold setAt
    rw [if_pos (by omega)]
  · exact ⟨T, rfl, rfl⟩

theorem killLoop_ok_of_le {E : Type} (killed : E → Bool) :
    ∀ (D : List E) (Idx : Nat) (T : DomainVal), Idx + D.length ≤ T.length →
      ∃ T', killLoop killed D Idx T = Except.ok T' ∧ T'.length = T.length := by
  intro D
  induction D with
  | nil => intro Idx T _; exact ⟨T, rfl, rfl⟩
  | cons e D ih =>
    intro Idx T hle
    simp only [List.length_cons] at hle
    unfold killLoop
    split
    · have hs : setAt T Idx false = Except.ok (T.set Idx false) := by
        unfold setAt
        rw [if_pos (by omega)]
      obtain ⟨T', h1, h2⟩ := ih (Idx + 1) (T.set Idx false) (by simp; omega)
      exact ⟨T', by rw [hs, ok_bind]; exact h1, by rw [h2]; simp⟩
    · obtain ⟨T', h1, h2⟩ := ih (Idx + 1) T (by omega)
      exact ⟨T', by rw [ok_bind]; exact h1, h2⟩

theorem generateLoop_ok_of_le (D : List Variable) :
    ∀ (ops : List Value) (T : DomainVal), D.length ≤ T.length →
      ∃ T', Liveness.generateLoop D ops T = Except.ok T' ∧ T'.length = T.length := by
  intro ops
  induction ops with
  | nil => intro T _; exact ⟨T, rfl, rfl⟩
  | cons value rest ih =>
    intro T hle
    unfold Liveness.generateLoop
    split
    · obtain ⟨T1, h1, h2⟩ := setIfFound_ok_of_le Variable.eq D ⟨value⟩ T hle
      obtain ⟨T', h3, h4⟩ := ih T1 (by omega)
      exact ⟨T', by rw [h1, ok_bind]; exact h3, by rw [h4, h2]⟩
    · obtain ⟨T', h3, h4⟩ := ih T hle
      exact ⟨T', by rw [ok_bind]; exact h3, h4⟩

/-- C16, as amended: `AvailExpr::transferFunc` fails whenever the incoming
vector `IN` and the previous output `OV` differ in length, so whenever `OV`
has length `|D|` and `IN` has not; `WBAvailExprImpl::transferFunc` fails
whenever the instruction has no stored Anticipated vector of the length of
`IN`, so whenever that vector has length `|D|` and `IN` has not;
`AntiExprImpl::transferFunc` and `Liveness::transferFunc` make no check of
the length: on every `IN` at least as long as `D` they return an output, of
the length of `IN`. -/
theorem transferFunc_length_check (Inst : Instruction) (IN OV : DomainVal) :
    (∀ D : List Expression, IN.length ≠ OV.length →
      ∃ e, AvailExpr.transferFunc D Inst IN OV = Except.error e) ∧
    (∀ (AntiExprInstDomainValMap : InstMap) (D : List Expression),
      (∀ A, AntiExprInstDomainValMap Inst.id = some A → A.length ≠ IN.length) →
      ∃ e, WBAvailExprImpl.transferFunc AntiExprInstDomainValMap D Inst IN OV
        = Except.error e) ∧
    (∀ D : List Expression, D.length ≤ IN.length →
      ∃ OUT isChanged, AntiExprImpl.transferFunc D Inst IN OV = Except.ok (OUT, isChanged) ∧
        OUT.length = IN.length) ∧
    (∀ D : List Variable, D.length ≤ IN.length →
      ∃ OUT isChanged, Liveness.transferFunc D Inst IN OV = Except.ok (OUT, isChanged) ∧
        OUT.length = IN.length) := by
  refine ⟨?_, ?_, ?_, ?_⟩
  · intro D hne
    unfold AvailExpr.transferFunc
    cases h1 : generateExpr D Inst IN with
    | error e => exact ⟨e, rfl⟩
    | ok T1 =>
      rw [ok_bind]
      cases h2 : killLoop (redefined Inst) D 0 T1 with
      | error e => exact ⟨e, rfl⟩
      | ok T2 =>
        rw [ok_bind]
        have hlen : T2.length = IN.length := by
          rw [killLoop_length _ _ _ _ _ h2, generateExpr_length h1]
        refine ⟨Failure.diffSize, ?_⟩
        unfold diff
        rw [if_pos (by rw [hlen]; exact fun h => hne h.symm)]
        rfl
  · intro AntiMap D hA
    unfold WBAvailExprImpl.transferFunc
    cases h1 : generateExpr D Inst IN with
    | error e => exact ⟨e, rfl⟩
    | ok T1 =>
      rw [ok_bind]
      cases h2 : AntiMap Inst.id with
      | none => exact ⟨Failure.outOfRange, by simp [InstMap.at, h2]⟩
      | some A =>
        refine ⟨Failure.antiSize, ?_⟩
        simp only [InstMap.at, h2, ok_bind]
        rw [if_pos (by rw [generateExpr_length h1]; exact hA A h2)]
  · intro D hle
    unfold AntiExprImpl.transferFunc generateExpr
    have hgen : ∃ T1, (match Expression.ofInst Inst with
        | some Expr => setIfFound Expression.eq D Expr IN
        | none => Except.ok IN) = Except.ok T1 ∧ T1.length = IN.length := by
      cases Expression.ofInst Inst with
      | none => exact ⟨IN, rfl, rfl⟩
      | some x => exact setIfFound_ok_of_le Expression.eq D x IN hle
    obtain ⟨T1, h1, h1len⟩ := hgen
    obtain ⟨T2, h2, h2len⟩ := killLoop_ok_of_le (redefined Inst) D 0 T1 (by omega)
    refine ⟨T2, decide (T2 ≠ OV), ?_, by rw [h2len, h1len]⟩
    rw [h1, ok_bind, h2, ok_bind]
    rfl
  · intro D hle
    unfold Liveness.transferFunc
    obtain ⟨T1, h1, h1len⟩ := killLoop_ok_of_le
      (fun variableDom => Variable.eq ⟨Inst.asValue⟩ variableDom) D 0 IN (by omega)
    obtain ⟨T2, h2, h2len⟩ := generateLoop_ok_of_le D Inst.operands T1 (by omega)
    refine ⟨T2, decide (T2 ≠ OV), ?_, by rw [h2len, h1len]⟩
    rw [h1, ok_bind, h2, ok_bind]
    rfl

/-- C16 on the domain `[a + b]`, at the `ret` of `exCarry`, with an incoming
vector of length 2: `AvailExpr` and `WBAvailExprImpl` fail against a previous
output, respectively an Anticipated vector, of length 1, `AntiExprImpl`
returns. -/
theorem transferFunc_length_check_witness :
    (∃ e, AvailExpr.transferFunc [⟨.Add, .arg 0, .arg 1⟩] (.nonBinary 1 1 [.inst 0])
      [true, true] [true] = Except.error e) ∧
    (∃ e, WBAvailExprImpl.transferFunc (InstMap.empty.assign 1 [false])
      [⟨.Add, .arg 0, .arg 1⟩] (.nonBinary 1 1 [.inst 0]) [true, true] [true]
      = Except.error e) ∧
    (∃ OUT isChanged, AntiExprImpl.transferFunc [⟨.Add, .arg 0, .arg 1⟩]
      (.nonBinary 1 1 [.inst 0]) [true, true] [true] = Except.ok (OUT, isChanged) ∧
      OUT.length = 2) :=
  ⟨(transferFunc_length_check (.nonBinary 1 1 [.inst 0]) [true, true] [true]).1 _
      (by decide),
    (transferFunc_length_check (.nonBinary 1 1 [.inst 0]) [true, true] [true]).2.1
      (InstMap.empty.assign 1 [false]) _
      (by intro A hA; cases hA; decide),
    (transferFunc_length_check (.nonBinary 1 1 [.inst 0]) [true, true] [true]).2.2.1
      [⟨.Add, .arg 0, .arg 1⟩] (by decide)⟩

/-- C16 as stated fails: on the domain `[a + b]` (respectively `[a]`) and an
incoming vector of length 2, `AntiExprImpl::transferFunc` and
`Liveness::transferFunc` return an output, and so does
`AvailExpr::transferFunc` when the previous output has length 2 as well. -/
theorem transferFunc_returns_on_long_input :
    AntiExprImpl.transferFunc [⟨.Add, .arg 0, .arg 1⟩] (.nonBinary 1 1 [.inst 0])
      [true, true] [true] = Except.ok ([true, true], true) ∧
    Liveness.transferFunc [⟨.arg 0⟩] (.nonBinary 1 1 [.arg 5]) [true, true] [true]
      = Except.ok ([true, true], true) ∧
    AvailExpr.transferFunc [⟨.Add, .arg 0, .arg 1⟩] (.nonBinary 1 1 [.inst 0])
      [true, true] [true, false] = Except.ok ([true, true], true) :=
  ⟨rfl, rfl, rfl⟩

/-! ## Earliest placement -/

theorem pipelineSummary_some {fuel : Nat} {F : Function} {ids blocks : List Nat}
    {D : List Expression} {as bs es : List (Option DomainVal)}
    (h : pipelineSummary fuel F ids blocks = some (D, as, bs, es)) :
    ∃ AntiExpr wb ep,
      AntiExprWrapperPass.runOnFunction fuel Framework.fresh F = some (Except.ok AntiExpr) ∧
      WBAvailExprWrapperPass.runOnFunction fuel WBAvailExprState.fresh AntiExpr F
        = some (Except.ok wb) ∧
      EPlaceWrapperPass.runOnFunction fuel EPlaceState.fresh AntiExpr wb F
        = some (Except.ok ep) ∧
      ep.base.Domain = D ∧ AntiExpr.entries ids = as ∧
      blocks.map wb.BasicBlockBoundaryValMap = bs ∧ ep.base.entries ids = es := by
  unfold pipelineSummary at h
  split at h
  · next AntiExpr h1 =>
    split at h
    · next wb h2 =>
      split at h
      · next ep h3 =>
        simp only [Option.some.injEq, Prod.mk.injEq] at h
        exact ⟨AntiExpr, wb, ep, h1, h2, h3, h.1, h.2.1, h.2.2.1, h.2.2.2⟩
      · simp at h
    · simp at h
  · simp at h

theorem exLive_pipeline_summary :
    pipelineSummary 2 exLive [0] [0] =
      some ([⟨.Add, .arg 0, .arg 1⟩, ⟨.Add, .inst 0, .arg 2⟩], [some [true, false]],
        [some [false, false]], [some [true, true]]) := by
  rfl

/-- C17 does not hold of the code: after the pipeline has run on `exLive`
(`t1 = a + b; t2 = t1 + c; ret t2`, domain `[a + b, t1 + c]`), the
Earliest-Placement vector of the first instruction of the block is
`[true, true]`, although `t1 + c` is not anticipated at the entry of the block
(the Anticipated vector of the first instruction is `[true, false]`); the
Will-Be-Available boundary value of the block is `[false, false]`. -/
theorem eplace_fact_is_top :
    ∃ AntiExpr wb ep,
      AntiExprWrapperPass.runOnFunction 2 Framework.fresh exLive = some (Except.ok AntiExpr) ∧
      WBAvailExprWrapperPass.runOnFunction 2 WBAvailExprState.fresh AntiExpr exLive
        = some (Except.ok wb) ∧
      EPlaceWrapperPass.runOnFunction 2 EPlaceState.fresh AntiExpr wb exLive
        = some (Except.ok ep) ∧
      ep.base.Domain = [⟨.Add, .arg 0, .arg 1⟩, ⟨.Add, .inst 0, .arg 2⟩] ∧
      AntiExpr.InstDomainValMap 0 = some [true, false] ∧
      wb.BasicBlockBoundaryValMap 0 = some [false, false] ∧
      ep.base.InstDomainValMap 0 = some [true, true] := by
  obtain ⟨AntiExpr, wb, ep, h1, h2, h3, hD, ha, hb, he⟩ :=
    pipelineSummary_some exLive_pipeline_summary
  simp only [Framework.entries, List.map_cons, List.map_nil, List.cons.injEq, and_true]
    at ha hb he
  exact ⟨AntiExpr, wb, ep, h1, h2, h3, hD, ha, hb, he⟩

/-! ## The length invariant -/

theorem Sound.lenSound {E : Type} {A : Analysis E} {D : List E} {F : Function} {t : Bool}
    {g : Instruction → DomainVal → DomainVal} (hS : Sound A D F t g) : LenSound A D F t where
  call_eq := hS.call_eq
  top_eq := hS.top_eq
  tf_len := fun I hI IN OV hIN hOV =>
    ⟨g I IN, decide (g I IN ≠ OV), hS.tf_eq I hI IN OV hIN hOV, hS.g_len I hI IN hIN⟩

theorem ePlace_lenSound (D : List Expression) (F : Function) :
    LenSound EPlaceImpl D F true where
  call_eq := fun v w h => by rw [bitMeet_true]; exact Intersect_call_ok v w h
  top_eq := fun _ => rfl
  tf_len := fun _ _ _ OV _ hOV => ⟨OV, false, rfl, hOV⟩

theorem good_of_allLength {n : Nat} {F : Function} {m : InstMap}
    (h1 : ∀ I ∈ instructions F, ∃ v, m I.id = some v) (h2 : AllLength n m) : Good n F m := by
  intro I hI
  obtain ⟨v, hv⟩ := h1 I hI
  exact ⟨v, hv, h2 I.id v hv⟩

theorem instLoop_len {E : Type} {A : Analysis E} {D : List E} {F : Function} {t : Bool}
    (hL : LenSound A D F t) :
    ∀ (l : List Instruction) (m : InstMap) (IN : DomainVal) (ch : Bool),
      (∀ I ∈ l, I ∈ instructions F) → Good D.length F m → AllLength D.length m →
      IN.length = D.length →
      ∃ m' ch', instLoop A D l m IN ch = Except.ok (m', ch') ∧
        instLoop A.checked D l m IN ch = Except.ok (m', ch') ∧
        Good D.length F m' ∧ AllLength D.length m' := by
  intro l
  induction l with
  | nil => intro m IN ch _ hG hA _; exact ⟨m, ch, rfl, rfl, hG, hA⟩
  | cons I rest ih =>
    intro m IN ch hsub hG hA hIN
    have hIF := hsub I (List.mem_cons_self _ _)
    obtain ⟨OV, hOV, hOVlen⟩ := hG I hIF
    obtain ⟨OUT, c, htf, hOUT⟩ := hL.tf_len I hIF IN OV hIN hOVlen
    have hG' : Good D.length F (m.assign I.id OUT) := by
      intro J hJ
      by_cases e : J.id = I.id
      · exact ⟨OUT, by simp [InstMap.assign, e], hOUT⟩
      · obtain ⟨v, hv, hvlen⟩ := hG J hJ
        exact ⟨v, by simp [InstMap.assign, e, hv], hvlen⟩
    have hA' : AllLength D.length (m.assign I.id OUT) := by
      intro id v hv
      unfold InstMap.assign at hv
      split at hv
      · cases hv; exact hOUT
      · exact hA id v hv
    obtain ⟨m', ch', h1, h2, h3, h4⟩ := ih (m.assign I.id OUT) OUT (ch || c)
      (fun J hJ => hsub J (List.mem_cons_of_mem _ hJ)) hG' hA' hOUT
    refine ⟨m', ch', ?_, ?_, h3, h4⟩
    · simp only [instLoop, InstMap.at, hOV, htf, InstMap.store, ok_bind]
      exact h1
    · have hck : A.checked.transferFunc D I IN OV = Except.ok (OUT, c) := by
        simp only [Analysis.checked, hIN, hOVlen, ne_eq, not_true_eq_false, or_self, if_false,
          htf, hOUT]
      simp only [instLoop, InstMap.at, hOV, hck, InstMap.store, ok_bind]
      exact h2

theorem bbLoop_len {E : Type} {A : Analysis E} {D : List E} {F : Function} {t : Bool}
    (hL : LenSound A D F t) (hF : WellFormed F) :
    ∀ (bl : List BasicBlock) (m : InstMap) (ch : Bool), (∀ BB ∈ bl, BB ∈ F.blocks) →
      Good D.length F m → AllLength D.length m →
      ∃ m' ch', bbLoop A D F bl m ch = Except.ok (m', ch') ∧
        bbLoop A.checked D F bl m ch = Except.ok (m', ch') ∧
        Good D.length F m' ∧ AllLength D.length m' := by
  intro bl
  induction bl with
  | nil => intro m ch _ hG hA; exact ⟨m, ch, rfl, rfl, hG, hA⟩
  | cons BB rest ih =>
    intro m ch hsub hG hA
    have hBB := hsub BB (List.mem_cons_self _ _)
    obtain ⟨IN, _, hIN, _, _, hINlen⟩ :=
      getBoundaryVal_mono hL.call_eq hF hG hG (mle_refl t m) hBB
    obtain ⟨m1, ch1, a1, a2, a3, a4⟩ := instLoop_len hL (getInstTraversalOrder A.dir BB) m IN ch
      (fun I hI => mem_instructions hBB (mem_getInstTraversalOrder.mp hI)) hG hA hINlen
    obtain ⟨m2, ch2, b1, b2, b3, b4⟩ :=
      ih m1 ch1 (fun B hB => hsub B (List.mem_cons_of_mem _ hB)) a3 a4
    have hIN' : getBoundaryVal A.checked D F m BB = Except.ok IN := hIN
    have a2' : instLoop A.checked D (getInstTraversalOrder A.checked.dir BB) m IN ch
        = Except.ok (m1, ch1) := a2
    refine ⟨m2, ch2, ?_, ?_, b3, b4⟩
    · simp only [bbLoop, hIN, a1, ok_bind]
      exact b1
    · simp only [bbLoop, hIN', a2', ok_bind]
      exact b2

theorem traverseCFG_len {E : Type} {A : Analysis E} {D : List E} {F : Function} {t : Bool}
    (hL : LenSound A D F t) (hF : WellFormed F) (m : InstMap) (hG : Good D.length F m)
    (hA : AllLength D.length m) :
    ∃ m' ch', traverseCFG A D F m = Except.ok (m', ch') ∧
      traverseCFG A.checked D F m = Except.ok (m', ch') ∧
      Good D.length F m' ∧ AllLength D.length m' :=
  bbLoop_len hL hF (getBBTraversalOrder A.dir F) m false
    (fun _ h => mem_getBBTraversalOrder.mp h) hG hA

theorem whileTraverseCFG_len {E : Type} {A : Analysis E} {D : List E} {F : Function}
    {t : Bool} (hL : LenSound A D F t) (hF : WellFormed F) :
    ∀ (fuel : Nat) (m : InstMap), Good D.length F m → AllLength D.length m →
      whileTraverseCFG A.checked D F fuel m = whileTraverseCFG A D F fuel m ∧
      ∀ m', whileTraverseCFG A D F fuel m = some (Except.ok m') →
        Good D.length F m' ∧ AllLength D.length m' := by
  intro fuel
  induction fuel with
  | zero =>
    intro m _ _
    exact ⟨rfl, fun m' h => by simp [whileTraverseCFG] at h⟩
  | succ fuel ih =>
    intro m hG hA
    obtain ⟨m1, ch1, h1, h2, h3, h4⟩ := traverseCFG_len hL hF m hG hA
    cases ch1 with
    | true =>
      simp only [whileTraverseCFG, h1, h2]
      exact ih m1 h3 h4
    | false =>
      simp only [whileTraverseCFG, h1, h2, true_and]
      intro m' h
      simp only [Option.some.injEq, Except.ok.injEq] at h
      subst h
      exact ⟨h3, h4⟩

theorem allLength_init (MeetOp : MeetOp) (t : Bool) (n : Nat) (F : Function)
    (htop : ∀ k : Nat, MeetOp.top k = List.replicate k t) :
    AllLength n (applyInitialConditions MeetOp n F InstMap.empty) := by
  intro id v hv
  unfold applyInitialConditions at hv
  rw [applyInitialConditions_apply, htop] at hv
  simp only [InstMap.empty] at hv
  split at hv
  · cases hv; simp
  · cases hv

theorem lengthInvariant_of {E : Type} {A : Analysis E} {F : Function} {t : Bool}
    (this : Framework E) (hmap : this.InstDomainValMap = InstMap.empty)
    (hL : LenSound A (initializeDomain A this.Domain F) F t) (hF : WellFormed F)
    (hterm : ∃ N, ∀ fuel, N ≤ fuel → ∃ fw, runOnFunction A fuel this F = some (Except.ok fw)) :
    LengthInvariant A this F := by
  have hinit := good_init A.meetOp t (initializeDomain A this.Domain F).length F hL.top_eq
  have hG0 : Good (initializeDomain A this.Domain F).length F
      (applyInitialConditions A.meetOp (initializeDomain A this.Domain F).length F
        InstMap.empty) := fun I hI => ⟨_, hinit I hI, by simp⟩
  have hA0 := allLength_init A.meetOp t (initializeDomain A this.Domain F).length F hL.top_eq
  have hrun : ∀ fuel fw, runOnFunction A fuel this F = some (Except.ok fw) →
      fw.Domain = initializeDomain A this.Domain F ∧
      AllLength (initializeDomain A this.Domain F).length fw.InstDomainValMap := by
    intro fuel fw h
    simp only [runOnFunction, hmap] at h
    split at h
    · simp at h
    · simp at h
    · next m' hw =>
      split at h
      · simp at h
      · simp only [Option.some.injEq, Except.ok.injEq] at h
        subst h
        exact ⟨rfl, ((whileTraverseCFG_len hL hF fuel _ hG0 hA0).2 m' hw).2⟩
  refine ⟨?_, ?_, ?_, ?_, ?_⟩
  · intro I hI
    rw [hmap, hL.top_eq]
    exact hinit I hI
  · rw [hmap]
    exact hA0
  · intro m h1 h2
    have hG := good_of_allLength h1 h2
    refine ⟨?_, ?_⟩
    · intro BB hBB
      obtain ⟨v, _, hv, _, _, hvlen⟩ :=
        getBoundaryVal_mono hL.call_eq hF hG hG (mle_refl t m) hBB
      exact ⟨v, hv, hvlen⟩
    · obtain ⟨m', ch', a1, a2, a3, a4⟩ := traverseCFG_len hL hF m hG h2
      exact ⟨m', ch', a1, a2, fun I hI => (a3 I hI).imp (fun v hv => hv.1), a4⟩
  · intro fuel
    obtain ⟨hw, hres⟩ := whileTraverseCFG_len hL hF fuel _ hG0 hA0
    have hD : initializeDomain A.checked this.Domain F = initializeDomain A this.Domain F := rfl
    have hm : A.checked.meetOp = A.meetOp := rfl
    simp only [runOnFunction, hmap, hD, hm, hw]
    cases hwl : whileTraverseCFG A (initializeDomain A this.Domain F) F fuel
        (applyInitialConditions A.meetOp (initializeDomain A this.Domain F).length F
          InstMap.empty) with
    | none => rfl
    | some r =>
      cases r with
      | error e => rfl
      | ok m' =>
        have hG' := (hres m' hwl).1
        have hcall' : ∀ v w : DomainVal, v.length = w.length →
            A.checked.meetOp.call v w = Except.ok (List.zipWith (bitMeet t) v w) := hL.call_eq
        simp only [printInstDomainValMap_ok hL.call_eq hF hG',
          printInstDomainValMap_ok (A := A.checked) hcall' hF hG']
  · obtain ⟨N, hN⟩ := hterm
    refine ⟨N, fun fuel hfuel => ?_⟩
    obtain ⟨fw, hfw⟩ := hN fuel hfuel
    obtain ⟨e, hlen⟩ := hrun fuel fw hfw
    exact ⟨fw, hfw, by rw [e]; exact hlen⟩

/-- C15: on a function with non-empty blocks, neighbours inside the function
and distinct instructions, every analysis run on a fresh instance keeps the
length invariant `LengthInvariant`: right after the initial conditions every
instruction has the entry `top(|Domain|)`; from every state of the map in
which all vectors have length `|Domain|` every boundary value has that
length and a sweep leaves a map of the same kind; the run in which every call
of `transferFunc` checks that its incoming vector, its previous output and its
new output have length `|Domain|` is the run itself; and the run returns.
`WBAvailExprImpl` is initialised from a finished Anticipated pass,
`EPlaceImpl` from that pass and any Will-Be-Available boundary values. -/
theorem runOnFunction_lengths (F : Function) (hF : WellFormed F) :
    LengthInvariant AvailExpr Framework.fresh F ∧
    LengthInvariant AntiExprImpl Framework.fresh F ∧
    LengthInvariant Liveness Framework.fresh F ∧
    (∀ fuelA AntiExpr,
      AntiExprWrapperPass.runOnFunction fuelA Framework.fresh F = some (Except.ok AntiExpr) →
      LengthInvariant (WBAvailExprImpl AntiExpr.InstDomainValMap)
        ( WBAvailExprState.initialize WBAvailExprState.fresh AntiExpr.Domain
          AntiExpr.InstDomainValMap).base F ∧
      ∀ b : Nat → Option DomainVal,
        LengthInvariant EPlaceImpl
          ( EPlaceState.initialize EPlaceState.fresh AntiExpr.Domain
            AntiExpr.InstDomainValMap b).base F) := by
  refine ⟨?_, ?_, ?_, ?_⟩
  · exact lengthInvariant_of Framework.fresh rfl
      (availExpr_sound _ F (availExpr_domain_distinct F)).lenSound hF (availExpr_run_spec F hF).1
  · exact lengthInvariant_of Framework.fresh rfl
      (antiExpr_sound _ F (antiExpr_domain_distinct F)).lenSound hF (antiExpr_run_spec F hF).1
  · exact lengthInvariant_of Framework.fresh rfl
      (liveness_sound _ F (liveness_domain_distinct F)).lenSound hF (liveness_run_spec F hF).1
  · intro fuelA AntiExpr hA
    obtain ⟨hD, hG⟩ := antiExpr_result F hF fuelA AntiExpr hA
    constructor
    · have hdom : initializeDomain (WBAvailExprImpl AntiExpr.InstDomainValMap)
          ([] ++ AntiExpr.Domain) F = AntiExpr.Domain := by
        rw [initializeDomain_id _ (fun _ _ => rfl)]
        rfl
      have hS : Sound (WBAvailExprImpl AntiExpr.InstDomainValMap)
          (initializeDomain (WBAvailExprImpl AntiExpr.InstDomainValMap)
            (⟨[] ++ AntiExpr.Domain, InstMap.empty⟩ : Framework Expression).Domain F) F true
          (fun Inst IN => wbTransfer (val AntiExpr.InstDomainValMap Inst.id) Inst
            AntiExpr.Domain IN) := by
        simp only [hdom]
        exact wbAvailExpr_sound _ _ F hD hG
      exact lengthInvariant_of (⟨[] ++ AntiExpr.Domain, InstMap.empty⟩ : Framework Expression)
        rfl hS.lenSound hF (runOnFunction_spec _ rfl hS hF).1
    · intro b
      refine lengthInvariant_of (t := true)
        (⟨[] ++ AntiExpr.Domain, InstMap.empty⟩ : Framework Expression) rfl
        (ePlace_lenSound _ F) hF ?_
      refine ⟨1, fun fuel hfuel => ?_⟩
      obtain ⟨k, rfl⟩ : ∃ k, fuel = k + 1 := ⟨fuel - 1, by omega⟩
      have h := ePlace_run_spec AntiExpr ⟨Framework.fresh, InstMap.empty, b⟩ F hF k
      simp only [EPlaceWrapperPass.runOnFunction, EPlaceState.initialize, EPlaceState.fresh,
        Framework.fresh] at h
      split at h
      · simp at h
      · simp at h
      · next fw hfw => exact ⟨fw, hfw⟩

/-- C15 on `exLive`, for `Liveness`. -/
theorem runOnFunction_lengths_witness :
    WellFormed exLive ∧ LengthInvariant Liveness Framework.fresh exLive := by
  have hF : WellFormed exLive := ⟨by decide, by decide, by decide, by decide⟩
  exact ⟨hF, (runOnFunction_lengths exLive hF).2.2.1⟩

/-! ## The number of sweeps -/

theorem mle_trans {t : Bool} {m1 m2 m3 : InstMap} (h1 : MLe t m1 m2) (h2 : MLe t m2 m3) :
    MLe t m1 m3 := fun id => (h1 id).trans (h2 id)

theorem chainMap_outside (g : Instruction → DomainVal → DomainVal) (id : Nat) :
    ∀ (l : List Instruction) (m : InstMap) (IN : DomainVal), (∀ I ∈ l, I.id ≠ id) →
      chainMap g l m IN id = m id := by
  intro l
  induction l with
  | nil => intro m IN _; rfl
  | cons I rest ih =>
    intro m IN h
    simp only [chainMap]
    rw [ih _ _ (fun J hJ => h J (List.mem_cons_of_mem _ hJ))]
    have := h I (List.mem_cons_self _ _)
    simp [InstMap.assign, Ne.symm this]

theorem chain_chainMap (g : Instruction → DomainVal → DomainVal) :
    ∀ (l : List Instruction) (m : InstMap) (IN : DomainVal), (l.map Instruction.id).Nodup →
      Chain g (chainMap g l m IN) IN l := by
  intro l
  induction l with
  | nil => intro m IN _; trivial
  | cons I rest ih =>
    intro m IN h
    rw [List.map_cons, List.nodup_cons] at h
    refine ⟨?_, ih _ _ h.2⟩
    simp only [chainMap]
    rw [chainMap_outside g I.id rest _ _ (fun J hJ e => h.1 (e ▸ List.mem_map_of_mem _ hJ))]
    simp [InstMap.assign]

theorem chainMap_of_chain (g : Instruction → DomainVal → DomainVal) :
    ∀ (l : List Instruction) (m : InstMap) (IN : DomainVal), Chain g m IN l →
      chainMap g l m IN = m := by
  intro l
  induction l with
  | nil => intro m IN _; rfl
  | cons I rest ih =>
    intro m IN h
    simp only [chainMap]
    rw [assign_same m I.id _ h.1]
    exact ih m _ h.2

theorem chain_congr (g : Instruction → DomainVal → DomainVal) {m m' : InstMap} :
    ∀ (l : List Instruction) (IN : DomainVal), (∀ I ∈ l, m' I.id = m I.id) →
      Chain g m IN l → Chain g m' IN l := by
  intro l
  induction l with
  | nil => intro IN _ _; trivial
  | cons I rest ih =>
    intro IN h hc
    refine ⟨?_, ih _ (fun J hJ => h J (List.mem_cons_of_mem _ hJ)) hc.2⟩
    rw [h I (List.mem_cons_self _ _)]
    exact hc.1

theorem instLoop_chain {E : Type} {A : Analysis E} {D : List E} {F : Function} {t : Bool}
    {g : Instruction → DomainVal → DomainVal} (hS : Sound A D F t g) (hF : WellFormed F)
    {BB : BasicBlock} (hBB : BB ∈ F.blocks) :
    ∀ (l : List Instruction) (prev : Option Instruction) (m : InstMap) (IN : DomainVal)
      (ch : Bool), (∀ task ∈ tasksFrom prev l, task ∈ blockTasks A.dir BB) →
      Good D.length F m → PostFix A D F t g m →
      incoming A D F m BB prev = Except.ok IN →
      ∃ ch', instLoop A D l m IN ch = Except.ok (chainMap g l m IN, ch') ∧
        MLe t (chainMap g l m IN) m ∧ (Chain g m IN l → ch' = ch) := by
  intro l
  induction l with
  | nil =>
    intro prev m IN ch _ _ _ _
    exact ⟨ch, rfl, mle_refl t m, fun _ => rfl⟩
  | cons I rest ih =>
    intro prev m IN ch hsub hG hP hIN
    have htask : (prev, I) ∈ blockTasks A.dir BB :=
      hsub (prev, I) (by simp [tasksFrom])
    have hIF : I ∈ instructions F := mem_instructions hBB (mem_blockTasks htask).1
    obtain ⟨OUT, hOUT, hOUTlen⟩ := hG I hIF
    have hINlen : IN.length = D.length := by
      obtain ⟨v, _, h1, _, _, h4⟩ := incoming_mono hS hF hG hG (mle_refl t m) hBB htask
      rw [hIN] at h1
      cases h1
      exact h4
    have htf := hS.tf_eq I hIF IN OUT hINlen hOUTlen
    obtain ⟨hG', hP', _, _⟩ := step_spec hS hF hG hP hBB htask hIN
    simp only at hG' hP'
    have hle : MLe t (m.assign I.id (g I IN)) m := by
      intro id
      by_cases e : id = I.id
      · rw [e, val_assign_self]
        exact hP BB hBB (prev, I) htask IN hIN
      · rw [val_assign_ne m _ e]
        exact VLe.refl t _
    have hin' : incoming A D F (m.assign I.id (g I IN)) BB (some I) = Except.ok (g I IN) := by
      simp [incoming, InstMap.at, InstMap.assign]
    obtain ⟨ch', h1, h2, h3⟩ :=
      ih (some I) (m.assign I.id (g I IN)) (g I IN) (ch || decide (g I IN ≠ OUT))
        (fun task h => hsub task (by simp [tasksFrom, h])) hG' hP' hin'
    refine ⟨ch', ?_, mle_trans h2 hle, ?_⟩
    · simp only [instLoop, InstMap.at, hOUT, htf, InstMap.store, ok_bind]
      exact h1
    · intro hc
      have heq : OUT = g I IN := by
        have := hc.1
        rw [hOUT] at this
        exact Option.some.inj this
      have hsame : m.assign I.id (g I IN) = m := assign_same m I.id _ hc.1
      rw [hsame] at h3
      rw [h3 hc.2, heq]
      simp

theorem order_nodup {F : Function} (hF : WellFormed F) (dir : Direction) {BB : BasicBlock}
    (hBB : BB ∈ F.blocks) : ((getInstTraversalOrder dir BB).map Instruction.id).Nodup := by
  cases dir with
  | kForward => exact hF.block_nodup hBB
  | kBackward =>
    simp only [getInstTraversalOrder, List.map_reverse, List.nodup_reverse]
    exact hF.block_nodup hBB

/-- One block of a sweep: the block is left as the chain from its boundary
value, the rest of the map is untouched, and a block that already was that
chain flags no change. -/
theorem block_ghost {E : Type} {A : Analysis E} {D : List E} {F : Function} {t : Bool}
    {g : Instruction → DomainVal → DomainVal} (hS : Sound A D F t g) (hF : WellFormed F)
    {BB : BasicBlock} (hBB : BB ∈ F.blocks) (m : InstMap) (ch : Bool)
    (hG : Good D.length F m) (hP : PostFix A D F t g m) :
    ∃ b m1 ch1, getBoundaryVal A D F m BB = Except.ok b ∧
      instLoop A D (getInstTraversalOrder A.dir BB) m b ch = Except.ok (m1, ch1) ∧
      Good D.length F m1 ∧ PostFix A D F t g m1 ∧ MLe t m1 m ∧
      (∀ id, (∀ I ∈ BB.insts, I.id ≠ id) → m1 id = m id) ∧
      GhostAt A D F t g m1 BB b ∧
      (Chain g m b (getInstTraversalOrder A.dir BB) → ch1 = ch) := by
  obtain ⟨b, _, hb, _, _, hblen⟩ := getBoundaryVal_mono hS.call_eq hF hG hG (mle_refl t m) hBB
  obtain ⟨m1, ch1, a1, a2, a3, _, _, _⟩ :=
    instLoop_spec hS hF hBB (getInstTraversalOrder A.dir BB) none m b ch
      (fun task h => h) hG hP hb
  obtain ⟨ch1', c1, c2, c3⟩ :=
    instLoop_chain hS hF hBB (getInstTraversalOrder A.dir BB) none m b ch
      (fun task h => h) hG hP hb
  rw [a1] at c1
  simp only [Except.ok.injEq, Prod.mk.injEq] at c1
  obtain ⟨e1, e2⟩ := c1
  subst e1; subst e2
  obtain ⟨v, v', h1, h2, h3, _⟩ := getBoundaryVal_mono hS.call_eq hF hG a2 c2 hBB
  rw [hb] at h1
  cases h1
  refine ⟨b, _, ch1, hb, a1, a2, a3, c2, ?_, ⟨hblen, ?_, v', h2, h3⟩, c3⟩
  · intro id hid
    exact chainMap_outside g id _ m b
      (fun I hI => hid I (mem_getInstTraversalOrder.mp hI))
  · exact chain_chainMap g _ m b (order_nodup hF A.dir hBB)

theorem ghostAt_mono {E : Type} {A : Analysis E} {D : List E} {F : Function} {t : Bool}
    {g : Instruction → DomainVal → DomainVal} (hS : Sound A D F t g) (hF : WellFormed F)
    {BB : BasicBlock} (hBB : BB ∈ F.blocks) {m m' : InstMap} (hG : Good D.length F m)
    (hG' : Good D.length F m') (hle : MLe t m' m) (hsame : ∀ I ∈ BB.insts, m' I.id = m I.id)
    {β : DomainVal} (h : GhostAt A D F t g m BB β) : GhostAt A D F t g m' BB β := by
  obtain ⟨h1, h2, b, h3, h4⟩ := h
  obtain ⟨v, v', e1, e2, e3, _⟩ := getBoundaryVal_mono hS.call_eq hF hG hG' hle hBB
  rw [h3] at e1
  cases e1
  exact ⟨h1, chain_congr g _ β (fun I hI => hsame I (mem_getInstTraversalOrder.mp hI)) h2,
    v', e2, e3.trans h4⟩

theorem forall₂_imp_mem {α β : Type} {R S : α → β → Prop} :
    ∀ {l : List α} {bs : List β}, List.Forall₂ R l bs →
      (∀ a ∈ l, ∀ b, R a b → S a b) → List.Forall₂ S l bs := by
  intro l bs h
  induction h with
  | nil => intro _; exact List.Forall₂.nil
  | cons hab _ ih =>
    intro himp
    exact List.Forall₂.cons (himp _ (List.mem_cons_self _ _) _ hab)
      (ih (fun a ha b hR => himp a (List.mem_cons_of_mem _ ha) b hR))

theorem WellFormed.insts_disjoint {F : Function} (hF : WellFormed F) {BB BB' : BasicBlock}
    (hBB : BB ∈ F.blocks) (hBB' : BB' ∈ F.blocks) (hne : BB ≠ BB') :
    ∀ I ∈ BB.insts, ∀ J ∈ BB'.insts, J.id ≠ I.id :=
  fun _ hI _ hJ e => hne (hF.block_unique hBB hBB' hI hJ e.symm)

theorem WellFormed.blocks_nodup {F : Function} (hF : WellFormed F) : F.blocks.Nodup := by
  have h := hF.nodup
  unfold instructions at h
  rw [List.map_flatMap, List.nodup_flatMap] at h
  refine h.2.imp_of_mem ?_
  intro a b ha _ hdis e
  subst e
  simp only [Function.onFun] at hdis
  obtain ⟨I, hI⟩ := List.exists_mem_of_ne_nil _ (hF.nonempty a ha)
  exact hdis (List.mem_map_of_mem _ hI) (List.mem_map_of_mem _ hI)

theorem getBBTraversalOrder_nodup {F : Function} (hF : WellFormed F) (dir : Direction) :
    (getBBTraversalOrder dir F).Nodup := by
  cases dir with
  | kForward => exact hF.blocks_nodup
  | kBackward => exact List.nodup_reverse.mpr hF.blocks_nodup

theorem getBBTraversalOrder_length (dir : Direction) (F : Function) :
    (getBBTraversalOrder dir F).length = F.blocks.length := by
  cases dir <;> simp [getBBTraversalOrder]

/-- A sweep over the blocks `bl` from any map: afterwards every block of `bl`
is the chain from a boundary value above its present one. -/
theorem bbLoop_first {E : Type} {A : Analysis E} {D : List E} {F : Function} {t : Bool}
    {g : Instruction → DomainVal → DomainVal} (hS : Sound A D F t g) (hF : WellFormed F) :
    ∀ (bl : List BasicBlock), bl.Nodup → (∀ BB ∈ bl, BB ∈ F.blocks) →
      ∀ (m : InstMap) (ch : Bool), Good D.length F m → PostFix A D F t g m →
      ∃ m' ch' bs, bbLoop A D F bl m ch = Except.ok (m', ch') ∧
        Good D.length F m' ∧ PostFix A D F t g m' ∧ MLe t m' m ∧
        (∀ id, (∀ BB ∈ bl, ∀ I ∈ BB.insts, I.id ≠ id) → m' id = m id) ∧
        List.Forall₂ (GhostAt A D F t g m') bl bs := by
  intro bl
  induction bl with
  | nil =>
    intro _ _ m ch hG hP
    exact ⟨m, ch, [], rfl, hG, hP, mle_refl t m, fun _ _ => rfl, List.Forall₂.nil⟩
  | cons BB rest ih =>
    intro hnd hsub m ch hG hP
    rw [List.nodup_cons] at hnd
    have hBB : BB ∈ F.blocks := hsub BB (List.mem_cons_self _ _)
    obtain ⟨b, m1, ch1, a1, a2, a3, a4, a5, a6, a7, _⟩ := block_ghost hS hF hBB m ch hG hP
    obtain ⟨m', ch', bs, b1, b2, b3, b4, b5, b6⟩ :=
      ih hnd.2 (fun B h => hsub B (List.mem_cons_of_mem _ h)) m1 ch1 a3 a4
    refine ⟨m', ch', b :: bs, ?_, b2, b3, mle_trans b4 a5, ?_, List.Forall₂.cons ?_ b6⟩
    · simp only [bbLoop, a1, a2, ok_bind]
      exact b1
    · intro id hid
      rw [b5 id (fun B hB => hid B (List.mem_cons_of_mem _ hB)),
        a6 id (hid BB (List.mem_cons_self _ _))]
    · refine ghostAt_mono hS hF hBB a3 b2 b4 ?_ a7
      intro I hI
      refine b5 I.id (fun B hB J hJ => ?_)
      have hne : BB ≠ B := fun e => hnd.1 (e ▸ hB)
      exact hF.insts_disjoint hBB (hsub B (List.mem_cons_of_mem _ hB)) hne I hI J hJ

/-- A sweep over the blocks `bl`, each the chain from a boundary value of the
list `bs`: the new boundary values are below the old ones, and the sweep flags
a change only when one of them is new. -/
theorem bbLoop_later {E : Type} {A : Analysis E} {D : List E} {F : Function} {t : Bool}
    {g : Instruction → DomainVal → DomainVal} (hS : Sound A D F t g) (hF : WellFormed F) :
    ∀ (bl : List BasicBlock), bl.Nodup → (∀ BB ∈ bl, BB ∈ F.blocks) →
      ∀ (bs : List DomainVal) (m : InstMap) (ch : Bool), Good D.length F m →
      PostFix A D F t g m → List.Forall₂ (GhostAt A D F t g m) bl bs →
      ∃ m' ch' bs', bbLoop A D F bl m ch = Except.ok (m', ch') ∧
        Good D.length F m' ∧ PostFix A D F t g m' ∧ MLe t m' m ∧
        (∀ id, (∀ BB ∈ bl, ∀ I ∈ BB.insts, I.id ≠ id) → m' id = m id) ∧
        List.Forall₂ (GhostAt A D F t g m') bl bs' ∧ List.Forall₂ (VLe t) bs' bs ∧
        (ch' = true → ch = true ∨ bs' ≠ bs) := by
  intro bl
  induction bl with
  | nil =>
    intro _ _ bs m ch hG hP hgh
    cases hgh
    exact ⟨m, ch, [], rfl, hG, hP, mle_refl t m, fun _ _ => rfl, List.Forall₂.nil,
      List.Forall₂.nil, fun h => Or.inl h⟩
  | cons BB rest ih =>
    intro hnd hsub bs m ch hG hP hgh
    rw [List.nodup_cons] at hnd
    have hBB : BB ∈ F.blocks := hsub BB (List.mem_cons_self _ _)
    cases hgh with
    | @cons _ β _ bsr hβ hrest =>
    obtain ⟨b, m1, ch1, a1, a2, a3, a4, a5, a6, a7, a8⟩ := block_ghost hS hF hBB m ch hG hP
    have hbβ : VLe t b β := by
      obtain ⟨_, _, b0, e1, e2⟩ := hβ
      rw [a1] at e1
      cases e1
      exact e2
    have hrest1 : List.Forall₂ (GhostAt A D F t g m1) rest bsr := by
      refine forall₂_imp_mem hrest (fun B hB β' hgB => ?_)
      have hBF := hsub B (List.mem_cons_of_mem _ hB)
      refine ghostAt_mono hS hF hBF hG a3 a5 ?_ hgB
      intro J hJ
      refine a6 J.id (fun I hI => ?_)
      have hne : B ≠ BB := fun e => hnd.1 (e ▸ hB)
      exact hF.insts_disjoint hBF hBB hne J hJ I hI
    obtain ⟨m', ch', bs', b1, b2, b3, b4, b5, b6, b7, b8⟩ :=
      ih hnd.2 (fun B h => hsub B (List.mem_cons_of_mem _ h)) bsr m1 ch1 a3 a4 hrest1
    refine ⟨m', ch', b :: bs', ?_, b2, b3, mle_trans b4 a5, ?_, List.Forall₂.cons ?_ b6,
      List.Forall₂.cons hbβ b7, ?_⟩
    · simp only [bbLoop, a1, a2, ok_bind]
      exact b1
    · intro id hid
      rw [b5 id (fun B hB => hid B (List.mem_cons_of_mem _ hB)),
        a6 id (hid BB (List.mem_cons_self _ _))]
    · refine ghostAt_mono hS hF hBB a3 b2 b4 ?_ a7
      intro I hI
      refine b5 I.id (fun B hB J hJ => ?_)
      have hne : BB ≠ B := fun e => hnd.1 (e ▸ hB)
      exact hF.insts_disjoint hBB (hsub B (List.mem_cons_of_mem _ hB)) hne I hI J hJ
    · intro hch
      rcases b8 hch with h | h
      · by_cases e : b = β
        · left
          rw [← a8 (e ▸ hβ.2.1)]
          exact h
        · right
          intro e'
          exact e (List.cons.inj e').1
      · right
        intro e'
        exact h (List.cons.inj e').2

theorem ghostBits_le {t : Bool} {bs' bs : List DomainVal} (h : List.Forall₂ (VLe t) bs' bs) :
    ghostBits t bs' ≤ ghostBits t bs := by
  induction h with
  | nil => exact le_refl _
  | cons hab _ ih =>
    simp only [ghostBits, List.map_cons, List.sum_cons] at ih ⊢
    exact Nat.add_le_add hab.count_le ih

theorem ghostBits_lt {t : Bool} {bs' bs : List DomainVal} (h : List.Forall₂ (VLe t) bs' bs)
    (hne : bs' ≠ bs) : ghostBits t bs' < ghostBits t bs := by
  induction h with
  | nil => exact absurd rfl hne
  | @cons a b l l' hab hrest ih =>
    have hle := ghostBits_le hrest
    simp only [ghostBits, List.map_cons, List.sum_cons] at ih hle ⊢
    by_cases e : a = b
    · subst e
      have := ih (fun e' => hne (by rw [e']))
      omega
    · have := hab.count_lt e
      omega

theorem ghostBits_bound {E : Type} {A : Analysis E} {D : List E} {F : Function} {t : Bool}
    {g : Instruction → DomainVal → DomainVal} {m : InstMap} {bl : List BasicBlock}
    {bs : List DomainVal} (h : List.Forall₂ (GhostAt A D F t g m) bl bs) :
    ghostBits t bs ≤ D.length * bl.length := by
  induction h with
  | nil => simp [ghostBits]
  | @cons BB β l l' hab _ ih =>
    simp only [ghostBits, List.map_cons, List.sum_cons, List.length_cons] at ih ⊢
    have h1 : β.count t ≤ D.length := hab.1 ▸ List.count_le_length t β
    rw [Nat.mul_succ]
    omega

theorem whileTraverseCFG_later {E : Type} {A : Analysis E} {D : List E} {F : Function}
    {t : Bool} {g : Instruction → DomainVal → DomainVal} (hS : Sound A D F t g)
    (hF : WellFormed F) :
    ∀ (fuel : Nat) (m : InstMap) (bs : List DomainVal), Good D.length F m →
      PostFix A D F t g m →
      List.Forall₂ (GhostAt A D F t g m) (getBBTraversalOrder A.dir F) bs →
      ghostBits t bs < fuel →
      ∃ m', whileTraverseCFG A D F fuel m = some (Except.ok m') ∧ Good D.length F m' := by
  intro fuel
  induction fuel with
  | zero => intro m bs _ _ _ h; omega
  | succ fuel ih =>
    intro m bs hG hP hgh hlt
    obtain ⟨m', ch', bs', h1, h2, h3, _, _, h6, h7, h8⟩ :=
      bbLoop_later hS hF (getBBTraversalOrder A.dir F) (getBBTraversalOrder_nodup hF A.dir)
        (fun BB h => mem_getBBTraversalOrder.mp h) bs m false hG hP hgh
    have h1' : traverseCFG A D F m = Except.ok (m', ch') := h1
    cases ch' with
    | false => exact ⟨m', by simp [whileTraverseCFG, h1'], h2⟩
    | true =>
      have hne : bs' ≠ bs := by
        rcases h8 rfl with h | h
        · exact absurd h (by simp)
        · exact h
      have := ghostBits_lt h7 hne
      obtain ⟨m'', e1, e2⟩ := ih m' bs' h2 h3 h6 (by omega)
      exact ⟨m'', by simp [whileTraverseCFG, h1', e1], e2⟩

/-- The loop of sweeps ends within `|D| * B + 2` sweeps, `B` the number of
blocks. -/
theorem whileTraverseCFG_bound {E : Type} {A : Analysis E} {D : List E} {F : Function}
    {t : Bool} {g : Instruction → DomainVal → DomainVal} (hS : Sound A D F t g)
    (hF : WellFormed F) (m : InstMap) (hG : Good D.length F m) (hP : PostFix A D F t g m)
    (fuel : Nat) (hfuel : D.length * F.blocks.length + 2 ≤ fuel) :
    ∃ m', whileTraverseCFG A D F fuel m = some (Except.ok m') ∧ Good D.length F m' := by
  obtain ⟨fuel, rfl⟩ : ∃ k, fuel = k + 1 := ⟨fuel - 1, by omega⟩
  obtain ⟨m', ch', bs, h1, h2, h3, _, _, h6⟩ :=
    bbLoop_first hS hF (getBBTraversalOrder A.dir F) (getBBTraversalOrder_nodup hF A.dir)
      (fun BB h => mem_getBBTraversalOrder.mp h) m false hG hP
  have h1' : traverseCFG A D F m = Except.ok (m', ch') := h1
  cases ch' with
  | false => exact ⟨m', by simp [whileTraverseCFG, h1'], h2⟩
  | true =>
    have hb := ghostBits_bound h6
    rw [getBBTraversalOrder_length] at hb
    obtain ⟨m'', e1, e2⟩ := whileTraverseCFG_later hS hF fuel m' bs h2 h3 h6 (by omega)
    exact ⟨m'', by simp [whileTraverseCFG, h1', e1], e2⟩

theorem runOnFunction_bound {E : Type} {A : Analysis E} {F : Function} {t : Bool}
    {g : Instruction → DomainVal → DomainVal} (this : Framework E)
    (hmap : this.InstDomainValMap = InstMap.empty)
    (hS : Sound A (initializeDomain A this.Domain F) F t g) (hF : WellFormed F) (fuel : Nat)
    (hfuel : (initializeDomain A this.Domain F).length * F.blocks.length + 2 ≤ fuel) :
    ∃ fw, runOnFunction A fuel this F = some (Except.ok fw) := by
  obtain ⟨hG, hP⟩ := init_inv hS hF
  obtain ⟨m', h1, h2⟩ := whileTraverseCFG_bound hS hF _ hG hP fuel hfuel
  refine ⟨⟨initializeDomain A this.Domain F, m'⟩, ?_⟩
  simp only [runOnFunction, hmap, h1, printInstDomainValMap_ok hS.call_eq hF h2]

/-- C18, the claim as stated fails: on `x = a + b; ret x`, one block and a
domain of one expression, `AntiExprImpl` is not done after `|D| * B = 1`
sweep (the run with fuel 1 is out of fuel) and is done after 2; on `exLoop`,
one block and one expression, `AvailExpr` is not done after 2 sweeps and is
done after `|D| * B + 2 = 3`. -/
theorem sweeps_exceed_height_times_blocks :
    (initializeDomain AntiExprImpl [] exCarry).length * exCarry.blocks.length = 1 ∧
    runOnFunction AntiExprImpl 1 Framework.fresh exCarry = none ∧
    (runOnFunction AntiExprImpl 2 Framework.fresh exCarry).isSome = true ∧
    (initializeDomain AvailExpr [] exLoop).length * exLoop.blocks.length = 1 ∧
    runOnFunction AvailExpr 2 Framework.fresh exLoop = none ∧
    (runOnFunction AvailExpr 3 Framework.fresh exLoop).isSome = true :=
  ⟨rfl, rfl, rfl, rfl, rfl, rfl⟩

/-- C18, amended: on a function with `B` non-empty blocks, neighbours inside
the function and distinct instructions, each of `AvailExpr`, `AntiExprImpl`,
`Liveness` and `WBAvailExprImpl` (initialised from a finished Anticipated
pass), run on a fresh instance with finished domain `D`, returns without a
failure whenever `|D| * B + 2` sweeps or more are allowed: the number of calls
of `traverseCFG`, the last one included, is at most `|D| * B + 2`. -/
theorem sweeps_le_height_times_blocks_add_two (F : Function) (hF : WellFormed F) :
    (∀ fuel, (initializeDomain AvailExpr [] F).length * F.blocks.length + 2 ≤ fuel →
      ∃ fw, runOnFunction AvailExpr fuel Framework.fresh F = some (Except.ok fw)) ∧
    (∀ fuel, (initializeDomain AntiExprImpl [] F).length * F.blocks.length + 2 ≤ fuel →
      ∃ fw, runOnFunction AntiExprImpl fuel Framework.fresh F = some (Except.ok fw)) ∧
    (∀ fuel, (initializeDomain Liveness [] F).length * F.blocks.length + 2 ≤ fuel →
      ∃ fw, runOnFunction Liveness fuel Framework.fresh F = some (Except.ok fw)) ∧
    (∀ fuelA AntiExpr,
      AntiExprWrapperPass.runOnFunction fuelA Framework.fresh F = some (Except.ok AntiExpr) →
      ∀ fuel, AntiExpr.Domain.length * F.blocks.length + 2 ≤ fuel →
      ∃ fw, runOnFunction (WBAvailExprImpl AntiExpr.InstDomainValMap) fuel
        ( WBAvailExprState.initialize WBAvailExprState.fresh AntiExpr.Domain
          AntiExpr.InstDomainValMap).base F = some (Except.ok fw)) := by
  refine ⟨?_, ?_, ?_, ?_⟩
  · exact fun fuel h => runOnFunction_bound Framework.fresh rfl
      (availExpr_sound _ F (availExpr_domain_distinct F)) hF fuel h
  · exact fun fuel h => runOnFunction_bound Framework.fresh rfl
      (antiExpr_sound _ F (antiExpr_domain_distinct F)) hF fuel h
  · exact fun fuel h => runOnFunction_bound Framework.fresh rfl
      (liveness_sound _ F (liveness_domain_distinct F)) hF fuel h
  · intro fuelA AntiExpr hA fuel hfuel
    obtain ⟨hD, hG⟩ := antiExpr_result F hF fuelA AntiExpr hA
    have hdom : initializeDomain (WBAvailExprImpl AntiExpr.InstDomainValMap)
        ([] ++ AntiExpr.Domain) F = AntiExpr.Domain := by
      rw [initializeDomain_id _ (fun _ _ => rfl)]
      rfl
    have hS : Sound (WBAvailExprImpl AntiExpr.InstDomainValMap)
        (initializeDomain (WBAvailExprImpl AntiExpr.InstDomainValMap)
          (⟨[] ++ AntiExpr.Domain, InstMap.empty⟩ : Framework Expression).Domain F) F true
        (fun Inst IN => wbTransfer (val AntiExpr.InstDomainValMap Inst.id) Inst
          AntiExpr.Domain IN) := by
      simp only [hdom]
      exact wbAvailExpr_sound _ _ F hD hG
    refine runOnFunction_bound (⟨[] ++ AntiExpr.Domain, InstMap.empty⟩ : Framework Expression)
      rfl hS hF fuel ?_
    simp only [hdom]
    exact hfuel

/-- C18 amended, on `exLive`. -/
theorem sweeps_le_height_times_blocks_add_two_witness :
    WellFormed exLive ∧
    ∀ fuel, (initializeDomain Liveness [] exLive).length * exLive.blocks.length + 2 ≤ fuel →
      ∃ fw, runOnFunction Liveness fuel Framework.fresh exLive = some (Except.ok fw) := by
  have hF : WellFormed exLive := ⟨by decide, by decide, by decide, by decide⟩
  exact ⟨hF, (sweeps_le_height_times_blocks_add_two exLive hF).2.2.1⟩

/-! ## The seeded fold, the equivalence of expressions, the Earliest-Placement run -/

theorem zipWith_replicate_left (f : Bool → Bool → Bool) (t : Bool) (hf : ∀ a, f t a = a)
    (x : DomainVal) : List.zipWith f (List.replicate x.length t) x = x := by
  induction x with
  | nil => rfl
  | cons a x ih => simp [List.replicate_succ, hf, ih]

/-- C25: for `Intersect` and for `Union` and every non-empty list of operands
`v1, ..., vk` of one common length `n`, `Framework::meet`, the left fold over
`v2, ..., vk` started at `v1`, returns what the left fold over `v1, ..., vk`
started at `top(n)` returns; both return a vector, the entrywise AND,
respectively OR, of the operands. -/
theorem meet_seeded_with_top (v1 : DomainVal) (rest : List DomainVal) (n : Nat)
    (hlen : ∀ v ∈ v1 :: rest, v.length = n) :
    meet Intersect (v1 :: rest) = meetLoop Intersect (Intersect.top n) (v1 :: rest) ∧
    meet Union (v1 :: rest) = meetLoop Union (Union.top n) (v1 :: rest) ∧
    meet Intersect (v1 :: rest)
      = Except.ok ((v1 :: rest).foldl (List.zipWith (fun a b => a && b))
          (List.replicate n true)) ∧
    meet Union (v1 :: rest)
      = Except.ok ((v1 :: rest).foldl (List.zipWith (fun a b => a || b))
          (List.replicate n false)) := by
  have h1 : v1.length = n := hlen v1 (List.mem_cons_self _ _)
  have hrest : ∀ v ∈ rest, v.length = n := fun v hv => hlen v (List.mem_cons_of_mem _ hv)
  have hI : Intersect.call (Intersect.top n) v1 = Except.ok v1 := by
    have := Intersect_call_ok (List.replicate n true) v1 (by simp [h1])
    rw [← h1, zipWith_replicate_left _ true (fun a => by cases a <;> rfl)] at this
    rw [← h1]
    exact this
  have hU : Union.call (Union.top n) v1 = Except.ok v1 := by
    have := Union_call_ok (List.replicate n false) v1 (by simp [h1])
    rw [← h1, zipWith_replicate_left _ false (fun a => by cases a <;> rfl)] at this
    rw [← h1]
    exact this
  have eI : meetLoop Intersect (Intersect.top n) (v1 :: rest) = meetLoop Intersect v1 rest := by
    simp only [meetLoop, hI, ok_bind]
  have eU : meetLoop Union (Union.top n) (v1 :: rest) = meetLoop Union v1 rest := by
    simp only [meetLoop, hU, ok_bind]
  refine ⟨eI.symm, eU.symm, ?_, ?_⟩
  · show meetLoop Intersect v1 rest = _
    rw [← eI]
    exact meetLoop_eq_foldl Intersect _ n Intersect_call_ok (v1 :: rest) _ (by simp [Intersect])
      hlen
  · show meetLoop Union v1 rest = _
    rw [← eU]
    exact meetLoop_eq_foldl Union _ n Union_call_ok (v1 :: rest) _ (by simp [Union]) hlen

/-- C25 on three operands of length 2. -/
theorem meet_seeded_with_top_witness :
    meet Intersect [[true, true], [true, false], [true, true]]
      = meetLoop Intersect (Intersect.top 2) [[true, true], [true, false], [true, true]] ∧
    meet Intersect [[true, true], [true, false], [true, true]] = Except.ok [true, false] := by
  have h := meet_seeded_with_top [true, true] [[true, false], [true, true]] 2
    (by intro v hv; simp at hv; rcases hv with rfl | rfl | rfl <;> rfl)
  exact ⟨h.1, h.2.2.1⟩

theorem findIdx_eq_of_forall₂ (e : Expression) {D1 D2 : List Expression}
    (h : List.Forall₂ (fun d1 d2 : Expression => d1.eq d2 = true) D1 D2) :
    D1.findIdx (fun d => d.eq e) = D2.findIdx (fun d => d.eq e) := by
  induction h with
  | nil => rfl
  | @cons d1 d2 l1 l2 hd _ ih =>
    have hb : d1.eq e = d2.eq e := by
      rw [Bool.eq_iff_iff]
      exact ⟨fun h1 => Expression.eq_trans (Expression.eq_symm hd) h1,
        fun h2 => Expression.eq_trans hd h2⟩
    simp only [List.findIdx_cons, hb, ih]

/-- C28: `Expression::operator==` is reflexive, symmetric and transitive, for
all opcodes and operand references. So two expressions that compare equal are
found by `std::find` at the same position of every domain, and adding either
to a domain by `initializeDomainFromInst` gives a domain of the same length;
and in two domains whose elements compare equal position by position,
whichever representatives were inserted, `std::find` finds every expression
at the same position. -/
theorem expression_eq_equivalence :
    (∀ e : Expression, e.eq e = true) ∧
    (∀ e1 e2 : Expression, e1.eq e2 = true → e2.eq e1 = true) ∧
    (∀ e1 e2 e3 : Expression, e1.eq e2 = true → e2.eq e3 = true → e1.eq e3 = true) ∧
    (∀ (Domain : List Expression) (e1 e2 : Expression), e1.eq e2 = true →
      Domain.findIdx (fun d => d.eq e1) = Domain.findIdx (fun d => d.eq e2) ∧
      (addIfAbsent Expression.eq Domain e1).length
        = (addIfAbsent Expression.eq Domain e2).length ∧
      ∀ TEMP, setIfFound Expression.eq Domain e1 TEMP
        = setIfFound Expression.eq Domain e2 TEMP) ∧
    (∀ (D1 D2 : List Expression) (e : Expression),
      List.Forall₂ (fun d1 d2 : Expression => d1.eq d2 = true) D1 D2 →
      D1.findIdx (fun d => d.eq e) = D2.findIdx (fun d => d.eq e)) := by
  refine ⟨Expression.eq_refl, fun _ _ h => Expression.eq_symm h,
    fun _ _ _ h h' => Expression.eq_trans h h', ?_, fun _ _ e h => findIdx_eq_of_forall₂ e h⟩
  intro Domain e1 e2 h
  have hfun : (fun d : Expression => d.eq e1) = (fun d : Expression => d.eq e2) := by
    funext d
    rw [Bool.eq_iff_iff]
    exact ⟨fun hd => Expression.eq_trans hd h,
      fun hd => Expression.eq_trans hd (Expression.eq_symm h)⟩
  have hidx : Domain.findIdx (fun d => d.eq e1) = Domain.findIdx (fun d => d.eq e2) := by
    rw [hfun]
  refine ⟨hidx, ?_, ?_⟩
  · unfold addIfAbsent
    rw [hidx]
    split <;> simp
  · intro TEMP
    unfold setIfFound
    simp only [hidx]

/-- C30: on a function with non-empty blocks, neighbours inside the function
and distinct instructions, whatever Anticipated domain, Anticipated map and
Will-Be-Available boundary values are passed to `EPlaceImpl::initialize` on a
fresh instance: the first call of `traverseCFG` returns `false` and leaves the
map as it is, so `runOnFunction` returns after exactly one sweep (with fuel 1,
and with the same result for every greater fuel), and in the result every
instruction of `F` has the all-true vector of length `|Domain|`. -/
theorem eplace_one_sweep (F : Function) (hF : WellFormed F) (AntiExprDomain : List Expression)
    (AntiExprInstDomainValMap : InstMap) (WBAvailExprBoundaryVals : Nat → Option DomainVal) :
    traverseCFG EPlaceImpl AntiExprDomain F
        (applyInitialConditions Intersect AntiExprDomain.length F InstMap.empty)
      = Except.ok (applyInitialConditions Intersect AntiExprDomain.length F InstMap.empty,
          false) ∧
    ∃ fw, (∀ fuel, runOnFunction EPlaceImpl (fuel + 1)
        ( EPlaceState.initialize EPlaceState.fresh AntiExprDomain AntiExprInstDomainValMap
          WBAvailExprBoundaryVals).base F = some (Except.ok fw)) ∧
      fw.Domain = AntiExprDomain ∧
      ∀ I ∈ instructions F,
        fw.InstDomainValMap I.id = some (List.replicate AntiExprDomain.length true) := by
  have hdom : initializeDomain EPlaceImpl ([] ++ AntiExprDomain) F = AntiExprDomain := by
    rw [initializeDomain_id _ (fun _ _ => rfl)]
    rfl
  have hinit := good_init Intersect true AntiExprDomain.length F (fun _ => rfl)
  have hG : Good AntiExprDomain.length F
      (applyInitialConditions Intersect AntiExprDomain.length F InstMap.empty) :=
    fun I hI => ⟨_, hinit I hI, by simp⟩
  have ht := ePlace_bbLoop_eq AntiExprDomain F hF _ hG
    (getBBTraversalOrder EPlaceImpl.dir F) false (fun BB h => mem_getBBTraversalOrder.mp h)
  have hcall : ∀ v w : DomainVal, v.length = w.length →
      EPlaceImpl.meetOp.call v w = Except.ok (List.zipWith (bitMeet true) v w) :=
    fun v w h => by rw [bitMeet_true]; exact Intersect_call_ok v w h
  have hp := printInstDomainValMap_ok (A := EPlaceImpl) hcall hF hG
  have hm : EPlaceImpl.meetOp = Intersect := rfl
  refine ⟨ht, ⟨AntiExprDomain, applyInitialConditions Intersect AntiExprDomain.length F
    InstMap.empty⟩, ?_, rfl, hinit⟩
  intro fuel
  simp only [ EPlaceState.initialize, EPlaceState.fresh, Framework.fresh, runOnFunction, hdom,
    whileTraverseCFG, traverseCFG, hm, ht, hp]

/-- C30 on `exLive`, with an empty Anticipated map and no boundary values. -/
theorem eplace_one_sweep_witness :
    WellFormed exLive ∧
    ∃ fw, (∀ fuel, runOnFunction EPlaceImpl (fuel + 1)
        ( EPlaceState.initialize EPlaceState.fresh
          [⟨.Add, .arg 0, .arg 1⟩, ⟨.Add, .inst 0, .arg 2⟩] InstMap.empty
          (fun _ => none)).base exLive = some (Except.ok fw)) ∧
      fw.InstDomainValMap 0 = some [true, true] := by
  have hF : WellFormed exLive := ⟨by decide, by decide, by decide, by decide⟩
  obtain ⟨_, fw, h1, _, h3⟩ := eplace_one_sweep exLive hF
    [⟨.Add, .arg 0, .arg 1⟩, ⟨.Add, .inst 0, .arg 2⟩] InstMap.empty (fun _ => none)
  exact ⟨hF, fw, h1, h3 (.binary 0 .Add (.arg 0) (.arg 1)) (by decide)⟩

/-! ## The flag and the monotonicity of the transfer functions, on any domain -/

theorem VLe.set {t : Bool} {v w : DomainVal} (h : VLe t v w) (i : Nat) (b : Bool) :
    VLe t (v.set i b) (w.set i b) := by
  unfold VLe at *
  induction h generalizing i with
  | nil => simp
  | @cons a c l l' hac _ ih =>
    cases i with
    | zero => exact List.Forall₂.cons (fun hb => hb) (by assumption)
    | succ i => exact List.Forall₂.cons hac (ih i)

theorem setAt_mono {t : Bool} {v w : DomainVal} (h : VLe t v w) (i : Nat) (b : Bool)
    (hi : i < v.length) :
    ∃ v' w', setAt v i b = Except.ok v' ∧ setAt w i b = Except.ok w' ∧ VLe t v' w' ∧
      v'.length = v.length := by
  refine ⟨v.set i b, w.set i b, ?_, ?_, h.set i b, by simp⟩
  · unfold setAt; rw [if_pos hi]
  · unfold setAt; rw [if_pos (h.length_eq ▸ hi)]

theorem setIfFound_mono {E : Type} {t : Bool} (eq : E → E → Bool) (D : List E) (x : E)
    {v w : DomainVal} (h : VLe t v w) (hle : D.length ≤ v.length) :
    ∃ v' w', setIfFound eq D x v = Except.ok v' ∧ setIfFound eq D x w = Except.ok w' ∧
      VLe t v' w' ∧ v'.length = v.length := by
  unfold setIfFound
  simp only
  split
  · next hidx => exact setAt_mono h _ true (by omega)
  · exact ⟨v, w, rfl, rfl, h, rfl⟩

theorem generateExpr_mono {t : Bool} (D : List Expression) (Inst : Instruction)
    {v w : DomainVal} (h : VLe t v w) (hle : D.length ≤ v.length) :
    ∃ v' w', generateExpr D Inst v = Except.ok v' ∧ generateExpr D Inst w = Except.ok w' ∧
      VLe t v' w' ∧ v'.length = v.length := by
  unfold generateExpr
  split
  · exact setIfFound_mono Expression.eq D _ h hle
  · exact ⟨v, w, rfl, rfl, h, rfl⟩

theorem killLoop_mono {E : Type} {t : Bool} (killed : E → Bool) :
    ∀ (D : List E) (Idx : Nat) (v w : DomainVal), VLe t v w → Idx + D.length ≤ v.length →
      ∃ v' w', killLoop killed D Idx v = Except.ok v' ∧ killLoop killed D Idx w = Except.ok w' ∧
        VLe t v' w' ∧ v'.length = v.length := by
  intro D
  induction D with
  | nil => intro Idx v w h _; exact ⟨v, w, rfl, rfl, h, rfl⟩
  | cons e D ih =>
    intro Idx v w h hle
    simp only [List.length_cons] at hle
    by_cases hk : killed e = true
    · obtain ⟨v1, w1, a1, a2, a3, a4⟩ := setAt_mono h Idx false (by omega)
      obtain ⟨v', w', b1, b2, b3, b4⟩ := ih (Idx + 1) v1 w1 a3 (by omega)
      refine ⟨v', w', ?_, ?_, b3, by rw [b4, a4]⟩
      · simp only [killLoop, hk, if_true, a1, ok_bind]; exact b1
      · simp only [killLoop, hk, if_true, a2, ok_bind]; exact b2
    · obtain ⟨v', w', b1, b2, b3, b4⟩ := ih (Idx + 1) v w h (by omega)
      refine ⟨v', w', ?_, ?_, b3, b4⟩
      · simp only [killLoop, hk, ok_bind]; exact b1
      · simp only [killLoop, hk, ok_bind]; exact b2

theorem generateLoop_mono {t : Bool} (D : List Variable) :
    ∀ (ops : List Value) (v w : DomainVal), VLe t v w → D.length ≤ v.length →
      ∃ v' w', Liveness.generateLoop D ops v = Except.ok v' ∧
        Liveness.generateLoop D ops w = Except.ok w' ∧ VLe t v' w' ∧ v'.length = v.length := by
  intro ops
  induction ops with
  | nil => intro v w h _; exact ⟨v, w, rfl, rfl, h, rfl⟩
  | cons value rest ih =>
    intro v w h hle
    by_cases hc : (value.isInstruction || value.isArgument) = true
    · obtain ⟨v1, w1, a1, a2, a3, a4⟩ := setIfFound_mono Variable.eq D ⟨value⟩ h hle
      obtain ⟨v', w', b1, b2, b3, b4⟩ := ih v1 w1 a3 (by omega)
      refine ⟨v', w', ?_, ?_, b3, by rw [b4, a4]⟩
      · simp only [Liveness.generateLoop, hc, if_true, a1, ok_bind]; exact b1
      · simp only [Liveness.generateLoop, hc, if_true, a2, ok_bind]; exact b2
    · obtain ⟨v', w', b1, b2, b3, b4⟩ := ih v w h hle
      refine ⟨v', w', ?_, ?_, b3, b4⟩
      · simp only [Liveness.generateLoop, hc, ok_bind]; exact b1
      · simp only [Liveness.generateLoop, hc, ok_bind]; exact b2

theorem availExpr_transferFunc_mono (D : List Expression) (Inst : Instruction)
    {IN1 IN2 : DomainVal} (OV1 OV2 : DomainVal) (h : VLe true IN1 IN2)
    (h1 : IN1.length = D.length) (ho1 : OV1.length = D.length) (ho2 : OV2.length = D.length) :
    ∃ OUT1 OUT2, AvailExpr.transferFunc D Inst IN1 OV1 = Except.ok (OUT1, decide (OUT1 ≠ OV1)) ∧
      AvailExpr.transferFunc D Inst IN2 OV2 = Except.ok (OUT2, decide (OUT2 ≠ OV2)) ∧
      VLe true OUT1 OUT2 ∧ OUT1.length = D.length := by
  obtain ⟨a, a', e1, e2, e3, e4⟩ := generateExpr_mono D Inst h (by omega)
  obtain ⟨b, b', f1, f2, f3, f4⟩ := killLoop_mono (redefined Inst) D 0 a a' e3 (by omega)
  have hb : b.length = D.length := by rw [f4, e4, h1]
  have hb' : b'.length = D.length := by rw [← f3.length_eq, hb]
  refine ⟨b, b', ?_, ?_, f3, hb⟩
  · simp only [AvailExpr.transferFunc, e1, f1, ok_bind, diff_eq OV1 b (by rw [ho1, hb])]
    rfl
  · simp only [AvailExpr.transferFunc, e2, f2, ok_bind, diff_eq OV2 b' (by rw [ho2, hb'])]
    rfl

theorem antiExpr_transferFunc_mono (D : List Expression) (Inst : Instruction)
    {IN1 IN2 : DomainVal} (OV1 OV2 : DomainVal) (h : VLe true IN1 IN2)
    (h1 : IN1.length = D.length) :
    ∃ OUT1 OUT2,
      AntiExprImpl.transferFunc D Inst IN1 OV1 = Except.ok (OUT1, decide (OUT1 ≠ OV1)) ∧
      AntiExprImpl.transferFunc D Inst IN2 OV2 = Except.ok (OUT2, decide (OUT2 ≠ OV2)) ∧
      VLe true OUT1 OUT2 ∧ OUT1.length = D.length := by
  obtain ⟨a, a', e1, e2, e3, e4⟩ := generateExpr_mono D Inst h (by omega)
  obtain ⟨b, b', f1, f2, f3, f4⟩ := killLoop_mono (redefined Inst) D 0 a a' e3 (by omega)
  refine ⟨b, b', ?_, ?_, f3, by rw [f4, e4, h1]⟩
  · simp only [AntiExprImpl.transferFunc, e1, f1, ok_bind]; rfl
  · simp only [AntiExprImpl.transferFunc, e2, f2, ok_bind]; rfl

theorem wbAvailExpr_transferFunc_mono (AntiExprInstDomainValMap : InstMap)
    (D : List Expression) (Inst : Instruction) {IN1 IN2 : DomainVal} (OV1 OV2 : DomainVal)
    (h : VLe true IN1 IN2) (h1 : IN1.length = D.length) {A : DomainVal}
    (hA : AntiExprInstDomainValMap Inst.id = some A) (hAlen : A.length = D.length) :
    ∃ OUT1 OUT2,
      WBAvailExprImpl.transferFunc AntiExprInstDomainValMap D Inst IN1 OV1
        = Except.ok (OUT1, decide (OUT1 ≠ OV1)) ∧
      WBAvailExprImpl.transferFunc AntiExprInstDomainValMap D Inst IN2 OV2
        = Except.ok (OUT2, decide (OUT2 ≠ OV2)) ∧
      VLe true OUT1 OUT2 ∧ OUT1.length = D.length := by
  obtain ⟨a, a', e1, e2, e3, e4⟩ := generateExpr_mono D Inst h (by omega)
  have ha : A.length = a.length := by rw [hAlen, e4, h1]
  have ha' : A.length = a'.length := by rw [← e3.length_eq, ha]
  have hu : VLe true (unionLoop a A) (unionLoop a' A) := by
    rw [unionLoop_eq_zipWith a A ha, unionLoop_eq_zipWith a' A ha']
    exact VLe.zipWith_left _ (fun c x y hxy hx => by
      cases x <;> cases y <;> cases c <;> simp_all) A e3
  have hul : (unionLoop a A).length = D.length := by
    rw [unionLoop_eq_zipWith a A ha]
    simp [← ha, hAlen]
  obtain ⟨b, b', f1, f2, f3, f4⟩ := killLoop_mono (redefined Inst) D 0 _ _ hu (by omega)
  refine ⟨b, b', ?_, ?_, f3, by rw [f4, hul]⟩
  · simp only [WBAvailExprImpl.transferFunc, e1, InstMap.at, hA, ok_bind, ne_eq, ha,
      not_true_eq_false, if_false, f1]
    rfl
  · simp only [WBAvailExprImpl.transferFunc, e2, InstMap.at, hA, ok_bind, ne_eq, ha',
      not_true_eq_false, if_false, f2]
    rfl

theorem liveness_transferFunc_mono (D : List Variable) (Inst : Instruction)
    {IN1 IN2 : DomainVal} (OV1 OV2 : DomainVal) (h : VLe true IN1 IN2)
    (h1 : IN1.length = D.length) :
    ∃ OUT1 OUT2, Liveness.transferFunc D Inst IN1 OV1 = Except.ok (OUT1, decide (OUT1 ≠ OV1)) ∧
      Liveness.transferFunc D Inst IN2 OV2 = Except.ok (OUT2, decide (OUT2 ≠ OV2)) ∧
      VLe true OUT1 OUT2 ∧ OUT1.length = D.length := by
  obtain ⟨a, a', e1, e2, e3, e4⟩ := killLoop_mono
    (fun variableDom => Variable.eq ⟨Inst.asValue⟩ variableDom) D 0 IN1 IN2 h (by omega)
  obtain ⟨b, b', f1, f2, f3, f4⟩ := generateLoop_mono D Inst.operands a a' e3 (by omega)
  refine ⟨b, b', ?_, ?_, f3, by rw [f4, e4, h1]⟩
  · simp only [Liveness.transferFunc, e1, f1, ok_bind]; rfl
  · simp only [Liveness.transferFunc, e2, f2, ok_bind]; rfl

theorem monotoneOnSequences_of {E : Type} {pre : List E → Instruction → Prop}
    {transferFunc : List E → Instruction → DomainVal → DomainVal →
      Except Failure (DomainVal × Bool)}
    (h : MonotoneTransfer pre transferFunc) : MonotoneOnSequences pre transferFunc := by
  intro D Inst IN OV hpre hIN hOV
  have hex : ∀ k, ∃ OUT c, transferFunc D Inst (IN k) (OV k) = Except.ok (OUT, c) := by
    intro k
    obtain ⟨OUT1, c1, _, _, e1, _, _⟩ := h D Inst (IN k) (IN k) (OV k) (OV k) hpre (hIN k)
      (hIN k) (hOV k) (hOV k) (VLe.refl true _)
    exact ⟨OUT1, c1, e1⟩
  choose OUT c hOUT using hex
  refine ⟨OUT, fun k => ⟨c k, hOUT k⟩, ?_, ?_⟩
  · intro hdec k
    obtain ⟨OUT1, c1, OUT2, c2, e1, e2, e3⟩ := h D Inst (IN (k + 1)) (IN k) (OV (k + 1)) (OV k)
      hpre (hIN _) (hIN _) (hOV _) (hOV _) (hdec k)
    rw [hOUT] at e1 e2
    cases e1
    cases e2
    exact e3
  · intro hinc k
    obtain ⟨OUT1, c1, OUT2, c2, e1, e2, e3⟩ := h D Inst (IN k) (IN (k + 1)) (OV k) (OV (k + 1))
      hpre (hIN _) (hIN _) (hOV _) (hOV _) (hinc k)
    rw [hOUT] at e1 e2
    cases e1
    cases e2
    exact e3

/-- C22: for every instruction, incoming vector `IN` and previous output `OV`
of length `|Domain|`, the transfer function of `AvailExpr`, of `AntiExprImpl`,
of `WBAvailExprImpl` (the Anticipated vector stored for the instruction having
length `|Domain|`, as its assertion requires) and of `Liveness` returns, and
its flag is `true` exactly when the new value of `OV` differs from the
previous one; `EPlaceImpl::transferFunc` returns `false` and leaves `OV` as it
was. -/
theorem transferFunc_flag_iff_changed (Inst : Instruction) (IN OV : DomainVal) :
    (∀ D : List Expression, IN.length = D.length → OV.length = D.length →
      ∃ OUT isChanged, AvailExpr.transferFunc D Inst IN OV = Except.ok (OUT, isChanged) ∧
        (isChanged = true ↔ OUT ≠ OV)) ∧
    (∀ D : List Expression, IN.length = D.length → OV.length = D.length →
      ∃ OUT isChanged, AntiExprImpl.transferFunc D Inst IN OV = Except.ok (OUT, isChanged) ∧
        (isChanged = true ↔ OUT ≠ OV)) ∧
    (∀ (AntiExprInstDomainValMap : InstMap) (D : List Expression) (AntiExprIN : DomainVal),
      AntiExprInstDomainValMap Inst.id = some AntiExprIN → AntiExprIN.length = D.length →
      IN.length = D.length → OV.length = D.length →
      ∃ OUT isChanged, WBAvailExprImpl.transferFunc AntiExprInstDomainValMap D Inst IN OV
          = Except.ok (OUT, isChanged) ∧
        (isChanged = true ↔ OUT ≠ OV)) ∧
    (∀ D : List Variable, IN.length = D.length → OV.length = D.length →
      ∃ OUT isChanged, Liveness.transferFunc D Inst IN OV = Except.ok (OUT, isChanged) ∧
        (isChanged = true ↔ OUT ≠ OV)) ∧
    (∀ D : List Expression, EPlaceImpl.transferFunc D Inst IN OV = Except.ok (OV, false)) := by
  refine ⟨?_, ?_, ?_, ?_, fun _ => rfl⟩
  · intro D hIN hOV
    obtain ⟨OUT, _, e, _, _, _⟩ :=
      availExpr_transferFunc_mono D Inst OV OV (VLe.refl true IN) hIN hOV hOV
    exact ⟨OUT, _, e, by simp⟩
  · intro D hIN _
    obtain ⟨OUT, _, e, _, _, _⟩ := antiExpr_transferFunc_mono D Inst OV OV (VLe.refl true IN) hIN
    exact ⟨OUT, _, e, by simp⟩
  · intro AntiMap D A hA hAlen hIN _
    obtain ⟨OUT, _, e, _, _, _⟩ :=
      wbAvailExpr_transferFunc_mono AntiMap D Inst OV OV (VLe.refl true IN) hIN hA hAlen
    exact ⟨OUT, _, e, by simp⟩
  · intro D hIN _
    obtain ⟨OUT, _, e, _, _, _⟩ := liveness_transferFunc_mono D Inst OV OV (VLe.refl true IN) hIN
    exact ⟨OUT, _, e, by simp⟩

/-- C22 at `ret x` on the domain `[a + b]`: a changed output is flagged, an
unchanged one is not. -/
theorem transferFunc_flag_iff_changed_witness :
    AvailExpr.transferFunc [⟨.Add, .arg 0, .arg 1⟩] (.nonBinary 1 1 [.inst 0]) [false] [true]
      = Except.ok ([false], true) ∧
    AvailExpr.transferFunc [⟨.Add, .arg 0, .arg 1⟩] (.nonBinary 1 1 [.inst 0]) [false] [false]
      = Except.ok ([false], false) ∧
    ∃ OUT isChanged, Liveness.transferFunc [⟨.inst 0⟩] (.nonBinary 1 1 [.inst 0]) [false] [true]
      = Except.ok (OUT, isChanged) ∧ (isChanged = true ↔ OUT ≠ [true]) :=
  ⟨rfl, rfl, (transferFunc_flag_iff_changed (.nonBinary 1 1 [.inst 0]) [false] [true]).2.2.2.1
    [⟨.inst 0⟩] rfl rfl⟩

/-- C23: the transfer functions of `AvailExpr`, `AntiExprImpl`,
`WBAvailExprImpl` (with the Anticipated map held fixed and holding a vector of
length `|D|` for the instruction) and `Liveness` are monotone in the incoming
vector, on every domain `D`, pairwise distinct or not: for `IN1`, `IN2` of
length `|D|` with `IN1[j]` implying `IN2[j]` for every `j`, the outputs
satisfy `OUT1[j]` implies `OUT2[j]` for every `j`. Hence a non-increasing
sequence of inputs yields a non-increasing sequence of outputs and a
non-decreasing one a non-decreasing one. -/
theorem transferFunc_monotone :
    (MonotoneTransfer (fun _ _ => True) AvailExpr.transferFunc ∧
      MonotoneTransfer (fun _ _ => True) AntiExprImpl.transferFunc ∧
      (∀ AntiExprInstDomainValMap : InstMap,
        MonotoneTransfer
          (fun D Inst => ∃ A, AntiExprInstDomainValMap Inst.id = some A ∧ A.length = D.length)
          (WBAvailExprImpl.transferFunc AntiExprInstDomainValMap)) ∧
      MonotoneTransfer (fun _ _ => True) Liveness.transferFunc) ∧
    (MonotoneOnSequences (fun _ _ => True) AvailExpr.transferFunc ∧
      MonotoneOnSequences (fun _ _ => True) AntiExprImpl.transferFunc ∧
      (∀ AntiExprInstDomainValMap : InstMap,
        MonotoneOnSequences
          (fun D Inst => ∃ A, AntiExprInstDomainValMap Inst.id = some A ∧ A.length = D.length)
          (WBAvailExprImpl.transferFunc AntiExprInstDomainValMap)) ∧
      MonotoneOnSequences (fun _ _ => True) Liveness.transferFunc) := by
  have h1 : MonotoneTransfer (fun _ _ => True) AvailExpr.transferFunc := by
    intro D Inst IN1 IN2 OV1 OV2 _ hIN1 _ hOV1 hOV2 hle
    obtain ⟨OUT1, OUT2, e1, e2, e3, _⟩ :=
      availExpr_transferFunc_mono D Inst OV1 OV2 hle hIN1 hOV1 hOV2
    exact ⟨OUT1, _, OUT2, _, e1, e2, e3⟩
  have h2 : MonotoneTransfer (fun _ _ => True) AntiExprImpl.transferFunc := by
    intro D Inst IN1 IN2 OV1 OV2 _ hIN1 _ _ _ hle
    obtain ⟨OUT1, OUT2, e1, e2, e3, _⟩ := antiExpr_transferFunc_mono D Inst OV1 OV2 hle hIN1
    exact ⟨OUT1, _, OUT2, _, e1, e2, e3⟩
  have h3 : ∀ AntiExprInstDomainValMap : InstMap,
      MonotoneTransfer
        (fun D Inst => ∃ A, AntiExprInstDomainValMap Inst.id = some A ∧ A.length = D.length)
        (WBAvailExprImpl.transferFunc AntiExprInstDomainValMap) := by
    intro AntiMap D Inst IN1 IN2 OV1 OV2 hpre hIN1 _ _ _ hle
    obtain ⟨A, hA, hAlen⟩ := hpre
    obtain ⟨OUT1, OUT2, e1, e2, e3, _⟩ :=
      wbAvailExpr_transferFunc_mono AntiMap D Inst OV1 OV2 hle hIN1 hA hAlen
    exact ⟨OUT1, _, OUT2, _, e1, e2, e3⟩
  have h4 : MonotoneTransfer (fun _ _ => True) Liveness.transferFunc := by
    intro D Inst IN1 IN2 OV1 OV2 _ hIN1 _ _ _ hle
    obtain ⟨OUT1, OUT2, e1, e2, e3, _⟩ := liveness_transferFunc_mono D Inst OV1 OV2 hle hIN1
    exact ⟨OUT1, _, OUT2, _, e1, e2, e3⟩
  exact ⟨⟨h1, h2, h3, h4⟩, monotoneOnSequences_of h1, monotoneOnSequences_of h2,
    fun m => monotoneOnSequences_of (h3 m), monotoneOnSequences_of h4⟩

/-- C23 at `ret x` on the domain `[a + b, a + b]`, which is not pairwise
distinct: `[false, false]` is below `[false, true]`, and so are the outputs. -/
theorem transferFunc_monotone_witness :
    ∃ OUT1 c1 OUT2 c2,
      AvailExpr.transferFunc [⟨.Add, .arg 0, .arg 1⟩, ⟨.Add, .arg 0, .arg 1⟩]
        (.binary 0 .Add (.arg 0) (.arg 1)) [false, false] [true, true]
        = Except.ok (OUT1, c1) ∧
      AvailExpr.transferFunc [⟨.Add, .arg 0, .arg 1⟩, ⟨.Add, .arg 0, .arg 1⟩]
        (.binary 0 .Add (.arg 0) (.arg 1)) [false, true] [true, true]
        = Except.ok (OUT2, c2) ∧
      VLe true OUT1 OUT2 :=
  transferFunc_monotone.1.1 [⟨.Add, .arg 0, .arg 1⟩, ⟨.Add, .arg 0, .arg 1⟩]
    (.binary 0 .Add (.arg 0) (.arg 1)) [false, false] [false, true] [true, true] [true, true]
    trivial rfl rfl rfl rfl
    (List.Forall₂.cons (fun h => h) (List.Forall₂.cons (fun h => by cases h) List.Forall₂.nil))

/-! ## The domain is the list of first occurrences -/

theorem foldl_exprInitializeDomainFromInst_eq (l : List Instruction) :
    ∀ (D seen : List Expression),
      (∀ x : Expression, seen.any (fun y => y.eq x) = D.any (fun d => d.eq x)) →
      l.foldl exprInitializeDomainFromInst D
        = D ++ firstOccurrencesFrom Expression.eq seen (l.filterMap Expression.ofInst) := by
  induction l with
  | nil => intro D seen _; simp [firstOccurrencesFrom]
  | cons I rest ih =>
    intro D seen hrep
    cases hE : Expression.ofInst I with
    | none =>
      simp only [List.foldl_cons, exprInitializeDomainFromInst, hE, List.filterMap_cons]
      exact ih D seen hrep
    | some x =>
      simp only [List.foldl_cons, exprInitializeDomainFromInst, hE, List.filterMap_cons,
        firstOccurrencesFrom]
      by_cases hidx : D.findIdx (fun d => d.eq x) = D.length
      · have hD : D.any (fun d => d.eq x) = false := by
          rw [List.any_eq_false]
          intro d hd
          simp [findIdx_eq_length hidx d hd]
        have hseen : seen.any (fun y => y.eq x) = false := by rw [hrep, hD]
        have hadd : addIfAbsent Expression.eq D x = D ++ [x] := by
          unfold addIfAbsent; rw [if_pos hidx]
        rw [hadd, hseen]
        simp only [Bool.false_eq_true, if_false]
        rw [ih (D ++ [x]) (seen ++ [x])
          (fun z => by simp only [List.any_append, hrep z])]
        simp
      · have hlt : D.findIdx (fun d => d.eq x) < D.length :=
          lt_of_le_of_ne (List.findIdx_le_length _) hidx
        obtain ⟨d, hd, hdx⟩ := List.findIdx_lt_length.mp hlt
        have hD : D.any (fun d => d.eq x) = true := List.any_eq_true.mpr ⟨d, hd, hdx⟩
        have hseen : seen.any (fun y => y.eq x) = true := by rw [hrep, hD]
        have hadd : addIfAbsent Expression.eq D x = D := by
          unfold addIfAbsent; rw [if_neg hidx]
        rw [hadd, hseen]
        simp only [if_true]
        refine ih D (seen ++ [x]) (fun z => ?_)
        simp only [List.any_append, hrep z, List.any_cons, List.any_nil, Bool.or_false]
        cases hxz : x.eq z with
        | false => simp
        | true =>
          have : D.any (fun d => d.eq z) = true :=
            List.any_eq_true.mpr ⟨d, hd, Expression.eq_trans hdx hxz⟩
          simp [this]

theorem countP_le_one_of_atMostOne {E : Type} (p : E → Bool) :
    ∀ D : List E, AtMostOne p D → D.countP p ≤ 1 := by
  intro D
  induction D with
  | nil => intro _; simp
  | cons a l ih =>
    intro h
    unfold AtMostOne at h
    rw [List.pairwise_cons] at h
    by_cases ha : p a = true
    · have hl : l.countP p = 0 := by
        rw [List.countP_eq_zero]
        intro b hb hpb
        exact h.1 b hb ⟨ha, hpb⟩
      rw [List.countP_cons_of_pos _ _ ha, hl]
    · rw [List.countP_cons_of_neg _ _ ha]
      exact ih h.2

/-- C24: on a fresh `AvailExpr` or `AntiExprImpl`, `initializeDomain(F)`
produces the first occurrences, in program order, of the expressions of the
binary operators of `F` modulo `Expression::operator==`. So for every binary
operator of `F` exactly one element of the domain compares equal to its
expression, `std::find` finds it, and the generate step sets that bit of any
vector that has the length of the domain. -/
theorem initializeDomain_first_occurrences (F : Function) :
    initializeDomain AvailExpr [] F = firstOccurrences Expression.eq (expressionsOf F) ∧
    initializeDomain AntiExprImpl [] F = firstOccurrences Expression.eq (expressionsOf F) ∧
    ∀ I ∈ instructions F, ∀ Expr, Expression.ofInst I = some Expr →
      (firstOccurrences Expression.eq (expressionsOf F)).countP (fun d => d.eq Expr) = 1 ∧
      (firstOccurrences Expression.eq (expressionsOf F)).findIdx (fun d => d.eq Expr)
        < (firstOccurrences Expression.eq (expressionsOf F)).length ∧
      ∀ TEMP : DomainVal,
        TEMP.length = (firstOccurrences Expression.eq (expressionsOf F)).length →
        generateExpr (firstOccurrences Expression.eq (expressionsOf F)) I TEMP
          = Except.ok (TEMP.set
              ((firstOccurrences Expression.eq (expressionsOf F)).findIdx
                (fun d => d.eq Expr)) true) := by
  have hD : initializeDomain AvailExpr [] F
      = firstOccurrences Expression.eq (expressionsOf F) := by
    have := foldl_exprInitializeDomainFromInst_eq (instructions F) [] [] (fun _ => rfl)
    simpa using this
  refine ⟨hD, hD, ?_⟩
  intro I hI Expr hE
  rw [← hD]
  obtain ⟨d, hd, hde⟩ :=
    foldl_exprInitializeDomainFromInst_has (instructions F) [] I Expr hI hE
  have hd' : d ∈ initializeDomain AvailExpr [] F := hd
  have hidx : (initializeDomain AvailExpr [] F).findIdx (fun d => d.eq Expr)
      < (initializeDomain AvailExpr [] F).length :=
    List.findIdx_lt_length.mpr ⟨d, hd', hde⟩
  refine ⟨?_, hidx, ?_⟩
  · have hle := countP_le_one_of_atMostOne (fun d : Expression => d.eq Expr) _
      ((availExpr_domain_distinct F).atMostOne_expr Expr)
    have hpos : 0 < (initializeDomain AvailExpr [] F).countP (fun d => d.eq Expr) :=
      List.countP_pos_iff.mpr ⟨d, hd', hde⟩
    omega
  · intro TEMP hlen
    simp only [generateExpr, hE, setIfFound, hidx, if_true, setAt, hlen]

/-- An example for C24, `t1 = a + b; t2 = b + a; t3 = a - b; t4 = a + b`: the domain is
`[a + b, a - b]`. -/
theorem initializeDomain_first_occurrences_example :
    initializeDomain AvailExpr [] ⟨[⟨[.binary 0 .Add (.arg 0) (.arg 1),
        .binary 1 .Add (.arg 1) (.arg 0), .binary 2 .Sub (.arg 0) (.arg 1),
        .binary 3 .Add (.arg 0) (.arg 1)], [], []⟩]⟩
      = [⟨.Add, .arg 0, .arg 1⟩, ⟨.Sub, .arg 0, .arg 1⟩] ∧
    firstOccurrences Expression.eq (expressionsOf ⟨[⟨[.binary 0 .Add (.arg 0) (.arg 1),
        .binary 1 .Add (.arg 1) (.arg 0), .binary 2 .Sub (.arg 0) (.arg 1),
        .binary 3 .Add (.arg 0) (.arg 1)], [], []⟩]⟩)
      = [⟨.Add, .arg 0, .arg 1⟩, ⟨.Sub, .arg 0, .arg 1⟩] :=
  ⟨by decide, by decide⟩

/-! ## No failure in the Will-Be-Available run -/

theorem whileTraverseCFG_no_error {E : Type} {A : Analysis E} {D : List E} {F : Function}
    {t : Bool} {g : Instruction → DomainVal → DomainVal} (hS : Sound A D F t g)
    (hF : WellFormed F) :
    ∀ (fuel : Nat) (m : InstMap), Good D.length F m → PostFix A D F t g m →
      ∀ e, whileTraverseCFG A D F fuel m ≠ some (Except.error e) := by
  intro fuel
  induction fuel with
  | zero => intro m _ _ e h; simp [whileTraverseCFG] at h
  | succ fuel ih =>
    intro m hG hP e h
    obtain ⟨m1, ch1, h1, h2, h3, _, _⟩ := traverseCFG_spec hS hF hG hP
    cases ch1 with
    | true =>
      simp only [whileTraverseCFG, h1] at h
      exact ih m1 h2 h3 e h
    | false =>
      simp only [whileTraverseCFG, h1] at h
      cases h

theorem runOnFunction_no_error {E : Type} {A : Analysis E} {F : Function} {t : Bool}
    {g : Instruction → DomainVal → DomainVal} (this : Framework E)
    (hmap : this.InstDomainValMap = InstMap.empty)
    (hS : Sound A (initializeDomain A this.Domain F) F t g) (hF : WellFormed F) :
    ∀ fuel e, runOnFunction A fuel this F ≠ some (Except.error e) := by
  intro fuel e h
  obtain ⟨hG, hP⟩ := init_inv hS hF
  simp only [runOnFunction, hmap] at h
  split at h
  · cases h
  · next e' hw => exact whileTraverseCFG_no_error hS hF fuel _ hG hP e' hw
  · next m' hw =>
    obtain ⟨hG', _⟩ := whileTraverseCFG_fixed hS hF fuel _ m' hG hP hw
    rw [printInstDomainValMap_ok hS.call_eq hF hG'] at h
    cases h

/-- C29: on a function with non-empty blocks, neighbours inside the function
and distinct instructions, when a fresh `AntiExprImpl` has converged and a
fresh `WBAvailExprImpl` is initialised with its domain and map and run: the
Anticipated map holds a vector of the length of the domain for every
instruction; `WBAvailExprImpl::transferFunc` returns, with an output of that
length, on every instruction of `F` and all vectors of that length; for no
fuel does the run end in a failure (a missing key, the size assertion, an
index out of range or a meet of vectors of different lengths); and with
enough fuel it returns. -/
theorem wbAvailExpr_no_failure (F : Function) (hF : WellFormed F) (fuelA : Nat)
    (AntiExpr : Framework Expression)
    (hA : AntiExprWrapperPass.runOnFunction fuelA Framework.fresh F
      = some (Except.ok AntiExpr)) :
    (∀ I ∈ instructions F, ∃ AntiExprIN, AntiExpr.InstDomainValMap I.id = some AntiExprIN ∧
      AntiExprIN.length = AntiExpr.Domain.length) ∧
    (∀ I ∈ instructions F, ∀ IN OV : DomainVal, IN.length = AntiExpr.Domain.length →
      OV.length = AntiExpr.Domain.length →
      ∃ OUT isChanged,
        WBAvailExprImpl.transferFunc AntiExpr.InstDomainValMap AntiExpr.Domain I IN OV
          = Except.ok (OUT, isChanged) ∧ OUT.length = AntiExpr.Domain.length) ∧
    (∀ fuel e, WBAvailExprWrapperPass.runOnFunction fuel WBAvailExprState.fresh AntiExpr F
      ≠ some (Except.error e)) ∧
    (∃ N, ∀ fuel, N ≤ fuel → ∃ wb,
      WBAvailExprWrapperPass.runOnFunction fuel WBAvailExprState.fresh AntiExpr F
        = some (Except.ok wb)) := by
  obtain ⟨hD, hG⟩ := antiExpr_result F hF fuelA AntiExpr hA
  have hdom : initializeDomain (WBAvailExprImpl AntiExpr.InstDomainValMap)
      ([] ++ AntiExpr.Domain) F = AntiExpr.Domain := by
    rw [initializeDomain_id _ (fun _ _ => rfl)]
    rfl
  have hS0 := wbAvailExpr_sound AntiExpr.InstDomainValMap AntiExpr.Domain F hD hG
  have hS : Sound (WBAvailExprImpl AntiExpr.InstDomainValMap)
      (initializeDomain (WBAvailExprImpl AntiExpr.InstDomainValMap)
        (⟨[] ++ AntiExpr.Domain, InstMap.empty⟩ : Framework Expression).Domain F) F true
      (fun Inst IN => wbTransfer (val AntiExpr.InstDomainValMap Inst.id) Inst AntiExpr.Domain
        IN) := by
    simp only [hdom]
    exact hS0
  refine ⟨hG, ?_, ?_, (wbAvailExpr_run_spec AntiExpr F hF hD hG).1⟩
  · intro I hI IN OV hIN hOV
    exact ⟨_, _, hS0.tf_eq I hI IN OV hIN hOV, hS0.g_len I hI IN hIN⟩
  · intro fuel e h
    simp only [WBAvailExprWrapperPass.runOnFunction, WBAvailExprState.initialize,
      WBAvailExprState.fresh, Framework.fresh] at h
    split at h
    · cases h
    · next e' hw =>
      exact runOnFunction_no_error
        (⟨[] ++ AntiExpr.Domain, InstMap.empty⟩ : Framework Expression) rfl hS hF fuel e' hw
    · next fw hfw =>
      obtain ⟨_, hGfw, _⟩ := (runOnFunction_spec
        (⟨[] ++ AntiExpr.Domain, InstMap.empty⟩ : Framework Expression) rfl hS hF).2
          fuel fw hfw
      obtain ⟨bmap, hb⟩ := constructBoundaryLoop_ok
        (A := WBAvailExprImpl AntiExpr.InstDomainValMap) (t := true) hS.call_eq hF hGfw
        F.blocks 0 (fun _ => none) (fun _ h => h)
      rw [hb] at h
      cases h

/-- C29 on `exCarry`. -/
theorem wbAvailExpr_no_failure_witness :
    WellFormed exCarry ∧
    ∃ AntiExpr,
      AntiExprWrapperPass.runOnFunction 2 Framework.fresh exCarry = some (Except.ok AntiExpr) ∧
      (∀ fuel e, WBAvailExprWrapperPass.runOnFunction fuel WBAvailExprState.fresh AntiExpr
        exCarry ≠ some (Except.error e)) ∧
      ∃ wb, WBAvailExprWrapperPass.runOnFunction 2 WBAvailExprState.fresh AntiExpr exCarry
        = some (Except.ok wb) := by
  have hF : WellFormed exCarry := ⟨by decide, by decide, by decide, by decide⟩
  obtain ⟨AntiExpr, wb, hA, hW, -, -, -⟩ := lcmSummary_some exCarry_summary
  exact ⟨hF, AntiExpr, hA, (wbAvailExpr_no_failure exCarry hF 2 AntiExpr hA).2.2.1, wb, hW⟩

/-! ## The run computes the extremal solution -/

theorem block_mem {F : Function} {i : Nat} {B : BasicBlock}
    (h : F.block i = Except.ok B) : B ∈ F.blocks := by
  unfold Function.block at h
  split at h
  · next BB hBB =>
    cases h
    rw [List.get?_eq_getElem?] at hBB
    exact List.getElem?_mem hBB
  · cases h

theorem back_mem {B : BasicBlock} {I : Instruction} (h : B.back = Except.ok I) :
    I ∈ B.insts := by
  unfold BasicBlock.back at h
  split at h
  · next J hJ =>
    cases h
    exact List.mem_of_getLast?_eq_some hJ
  · cases h

theorem front_mem {B : BasicBlock} {I : Instruction} (h : B.front = Except.ok I) :
    I ∈ B.insts := by
  unfold BasicBlock.front at h
  split at h
  · next J hJ =>
    cases h
    exact List.mem_of_mem_head? hJ
  · cases h

theorem operandsLoop_congr {F : Function} {m m' : InstMap}
    (pick : BasicBlock → Except Failure Instruction)
    (hpick : ∀ B I, pick B = Except.ok I → I ∈ B.insts)
    (hagree : ∀ I ∈ instructions F, m' I.id = m I.id) :
    ∀ nbs : List Nat, operandsLoop pick F m' nbs = operandsLoop pick F m nbs := by
  intro nbs
  induction nbs with
  | nil => rfl
  | cons i nbs ih =>
    cases hB : F.block i with
    | error e => simp only [operandsLoop, hB, error_bind]
    | ok B =>
      cases hI : pick B with
      | error e => simp only [operandsLoop, hB, hI, ok_bind, error_bind]
      | ok I =>
        have hIF : I ∈ instructions F := mem_instructions (block_mem hB) (hpick B I hI)
        simp only [operandsLoop, hB, hI, ok_bind, InstMap.at, hagree I hIF, ih]

theorem getBoundaryVal_congr {E : Type} (A : Analysis E) (D : List E) {F : Function}
    {m m' : InstMap} (hagree : ∀ I ∈ instructions F, m' I.id = m I.id) (BB : BasicBlock) :
    getBoundaryVal A D F m' BB = getBoundaryVal A D F m BB := by
  unfold getBoundaryVal getMeetOperands
  cases A.dir with
  | kForward =>
    simp only [getMeetOperandsForward_eq,
      operandsLoop_congr BasicBlock.back (fun _ _ => back_mem) hagree]
  | kBackward =>
    simp only [getMeetOperandsBackward_eq,
      operandsLoop_congr BasicBlock.front (fun _ _ => front_mem) hagree]

theorem fixedPoint_congr {E : Type} {A : Analysis E} {D : List E} {F : Function}
    {m m' : InstMap} (hagree : ∀ I ∈ instructions F, m' I.id = m I.id)
    (h : FixedPoint A D F m) : FixedPoint A D F m' := by
  intro BB hBB task htask
  obtain ⟨IN, OUT, h1, h2, h3⟩ := h BB hBB task htask
  refine ⟨IN, OUT, ?_, ?_, h3⟩
  · rcases (mem_blockTasks htask).2 with hp | ⟨J, hJ, hp⟩
    · rw [hp] at h1 ⊢
      simp only [incoming] at h1 ⊢
      rw [getBoundaryVal_congr A D hagree]
      exact h1
    · rw [hp] at h1 ⊢
      simp only [incoming, InstMap.at] at h1 ⊢
      rw [hagree J (mem_instructions hBB hJ)]
      exact h1
  · rw [hagree task.2 (mem_instructions hBB (mem_blockTasks htask).1)]
    exact h2

/-- At a solution the stored vector is what `g` makes of the incoming one. -/
theorem fixedPoint_val {E : Type} {A : Analysis E} {D : List E} {F : Function} {t : Bool}
    {g : Instruction → DomainVal → DomainVal} (hS : Sound A D F t g) (hF : WellFormed F)
    {S : InstMap} (hG : Good D.length F S) (hfix : FixedPoint A D F S) {BB : BasicBlock}
    (hBB : BB ∈ F.blocks) {task : Option Instruction × Instruction}
    (htask : task ∈ blockTasks A.dir BB) {IN : DomainVal}
    (hIN : incoming A D F S BB task.1 = Except.ok IN) : val S task.2.id = g task.2 IN := by
  obtain ⟨IN', OUT, h1, h2, h3⟩ := hfix BB hBB task htask
  rw [hIN] at h1
  cases h1
  have hIF : task.2 ∈ instructions F := mem_instructions hBB (mem_blockTasks htask).1
  have hINlen : IN.length = D.length := by
    obtain ⟨v, _, e1, _, _, e4⟩ := incoming_mono hS hF hG hG (mle_refl t S) hBB htask
    rw [hIN] at e1
    cases e1
    exact e4
  obtain ⟨w, hw, hwlen⟩ := hG task.2 hIF
  rw [h2] at hw
  cases hw
  rw [hS.tf_eq task.2 hIF IN OUT hINlen hwlen] at h3
  simp only [Except.ok.injEq, Prod.mk.injEq] at h3
  simp only [val, h2, Option.getD_some]
  exact h3.1.symm

theorem instLoop_above {E : Type} {A : Analysis E} {D : List E} {F : Function} {t : Bool}
    {g : Instruction → DomainVal → DomainVal} (hS : Sound A D F t g) (hF : WellFormed F)
    {S : InstMap} (hGS : Good D.length F S) (hfix : FixedPoint A D F S)
    {BB : BasicBlock} (hBB : BB ∈ F.blocks) :
    ∀ (l : List Instruction) (prev : Option Instruction) (m : InstMap) (IN : DomainVal)
      (ch : Bool), (∀ task ∈ tasksFrom prev l, task ∈ blockTasks A.dir BB) →
      Good D.length F m → MLe t S m → incoming A D F m BB prev = Except.ok IN →
      ∃ m' ch', instLoop A D l m IN ch = Except.ok (m', ch') ∧ Good D.length F m' ∧
        MLe t S m' := by
  intro l
  induction l with
  | nil => intro prev m IN ch _ hG hle _; exact ⟨m, ch, rfl, hG, hle⟩
  | cons I rest ih =>
    intro prev m IN ch hsub hG hle hIN
    have htask : (prev, I) ∈ blockTasks A.dir BB := hsub (prev, I) (by simp [tasksFrom])
    have hIF : I ∈ instructions F := mem_instructions hBB (mem_blockTasks htask).1
    obtain ⟨OUT, hOUT, hOUTlen⟩ := hG I hIF
    obtain ⟨v, v', e1, e2, e3, e4⟩ := incoming_mono hS hF hG hGS hle hBB htask
    simp only at e1 e2
    rw [hIN] at e1
    cases e1
    have htf := hS.tf_eq I hIF IN OUT e4 hOUTlen
    have hG' : Good D.length F (m.assign I.id (g I IN)) := by
      intro J hJ
      by_cases e : J.id = I.id
      · exact ⟨g I IN, by simp [InstMap.assign, e], hS.g_len I hIF IN e4⟩
      · obtain ⟨w, hw, hwlen⟩ := hG J hJ
        exact ⟨w, by simp [InstMap.assign, e, hw], hwlen⟩
    have hle' : MLe t S (m.assign I.id (g I IN)) := by
      intro id
      by_cases e : id = I.id
      · rw [e, val_assign_self]
        have := fixedPoint_val hS hF hGS hfix hBB htask e2
        simp only at this
        rw [this]
        exact hS.g_mono I hIF v' IN e3
      · rw [val_assign_ne m _ e]
        exact hle id
    have hin' : incoming A D F (m.assign I.id (g I IN)) BB (some I) = Except.ok (g I IN) := by
      simp [incoming, InstMap.at, InstMap.assign]
    obtain ⟨m', ch', a1, a2, a3⟩ :=
      ih (some I) (m.assign I.id (g I IN)) (g I IN) (ch || decide (g I IN ≠ OUT))
        (fun task h => hsub task (by simp [tasksFrom, h])) hG' hle' hin'
    refine ⟨m', ch', ?_, a2, a3⟩
    simp only [instLoop, InstMap.at, hOUT, htf, InstMap.store, ok_bind]
    exact a1

theorem bbLoop_above {E : Type} {A : Analysis E} {D : List E} {F : Function} {t : Bool}
    {g : Instruction → DomainVal → DomainVal} (hS : Sound A D F t g) (hF : WellFormed F)
    {S : InstMap} (hGS : Good D.length F S) (hfix : FixedPoint A D F S) :
    ∀ (bl : List BasicBlock) (m : InstMap) (ch : Bool), (∀ BB ∈ bl, BB ∈ F.blocks) →
      Good D.length F m → MLe t S m →
      ∃ m' ch', bbLoop A D F bl m ch = Except.ok (m', ch') ∧ Good D.length F m' ∧
        MLe t S m' := by
  intro bl
  induction bl with
  | nil => intro m ch _ hG hle; exact ⟨m, ch, rfl, hG, hle⟩
  | cons BB rest ih =>
    intro m ch hsub hG hle
    have hBB : BB ∈ F.blocks := hsub BB (List.mem_cons_self _ _)
    obtain ⟨IN, _, hIN, _, _, _⟩ := getBoundaryVal_mono hS.call_eq hF hG hG (mle_refl t m) hBB
    obtain ⟨m1, ch1, a1, a2, a3⟩ :=
      instLoop_above hS hF hGS hfix hBB (getInstTraversalOrder A.dir BB) none m IN ch
        (fun task h => h) hG hle hIN
    obtain ⟨m2, ch2, b1, b2, b3⟩ :=
      ih m1 ch1 (fun B h => hsub B (List.mem_cons_of_mem _ h)) a2 a3
    refine ⟨m2, ch2, ?_, b2, b3⟩
    simp only [bbLoop, hIN, a1, ok_bind]
    exact b1

theorem whileTraverseCFG_above {E : Type} {A : Analysis E} {D : List E} {F : Function}
    {t : Bool} {g : Instruction → DomainVal → DomainVal} (hS : Sound A D F t g)
    (hF : WellFormed F) {S : InstMap} (hGS : Good D.length F S) (hfix : FixedPoint A D F S) :
    ∀ (fuel : Nat) (m m' : InstMap), Good D.length F m → MLe t S m →
      whileTraverseCFG A D F fuel m = some (Except.ok m') → MLe t S m' := by
  intro fuel
  induction fuel with
  | zero => intro m m' _ _ h; simp [whileTraverseCFG] at h
  | succ fuel ih =>
    intro m m' hG hle h
    obtain ⟨m1, ch1, h1, h2, h3⟩ :=
      bbLoop_above hS hF hGS hfix (getBBTraversalOrder A.dir F) m false
        (fun BB hB => mem_getBBTraversalOrder.mp hB) hG hle
    have h1' : traverseCFG A D F m = Except.ok (m1, ch1) := h1
    cases ch1 with
    | true =>
      simp only [whileTraverseCFG, h1'] at h
      exact ih m1 m' h2 h3 h
    | false =>
      simp only [whileTraverseCFG, h1', Option.some.injEq, Except.ok.injEq] at h
      subst h
      exact h3

/-- Every solution of the dataflow equations is below the map the run
returns, in the order of the lattice. -/
theorem runOnFunction_above {E : Type} {A : Analysis E} {F : Function} {t : Bool}
    {g : Instruction → DomainVal → DomainVal} (this : Framework E)
    (hmap : this.InstDomainValMap = InstMap.empty)
    (hS : Sound A (initializeDomain A this.Domain F) F t g) (hF : WellFormed F)
    (S : InstMap) (hGS : Good (initializeDomain A this.Domain F).length F S)
    (hfix : FixedPoint A (initializeDomain A this.Domain F) F S) (fuel : Nat)
    (fw : Framework E) (h : runOnFunction A fuel this F = some (Except.ok fw)) :
    ∀ I ∈ instructions F, VLe t (val S I.id) (val fw.InstDomainValMap I.id) := by
  have hinit := good_init A.meetOp t (initializeDomain A this.Domain F).length F hS.top_eq
  have hG0 : Good (initializeDomain A this.Domain F).length F
      (applyInitialConditions A.meetOp (initializeDomain A this.Domain F).length F
        InstMap.empty) := fun I hI => ⟨_, hinit I hI, by simp⟩
  have hagree : ∀ I ∈ instructions F,
      (fun id => if id ∈ (instructions F).map Instruction.id then S id else none) I.id
        = S I.id := fun I hI => by simp only [List.mem_map_of_mem _ hI, if_true]
  have hGS' : Good (initializeDomain A this.Domain F).length F
      (fun id => if id ∈ (instructions F).map Instruction.id then S id else none) := by
    intro I hI
    obtain ⟨v, hv, hvlen⟩ := hGS I hI
    exact ⟨v, by rw [hagree I hI]; exact hv, hvlen⟩
  have hfix' : FixedPoint A (initializeDomain A this.Domain F) F
      (fun id => if id ∈ (instructions F).map Instruction.id then S id else none) :=
    fixedPoint_congr hagree hfix
  have hle0 : MLe t (fun id => if id ∈ (instructions F).map Instruction.id then S id else none)
      (applyInitialConditions A.meetOp (initializeDomain A this.Domain F).length F
        InstMap.empty) := by
    intro id
    unfold applyInitialConditions
    simp only [val]
    rw [applyInitialConditions_apply]
    simp only [InstMap.empty]
    by_cases hid : id ∈ (instructions F).map Instruction.id
    · simp only [hid, if_true, Option.getD_some]
      obtain ⟨I, hI, rfl⟩ := List.mem_map.mp hid
      obtain ⟨v, hv, hvlen⟩ := hGS I hI
      rw [hv, hS.top_eq, ← hvlen]
      exact VLe.top t v
    · simp only [hid, if_false, Option.getD_none]
      exact VLe.refl t []
  simp only [runOnFunction, hmap] at h
  split at h
  · simp at h
  · simp at h
  · next m' hw =>
    split at h
    · simp at h
    · simp only [Option.some.injEq, Except.ok.injEq] at h
      subst h
      have hle := whileTraverseCFG_above hS hF hGS' hfix' fuel _ m' hG0 hle0 hw
      intro I hI
      have := hle I.id
      simp only [val] at this ⊢
      rw [if_pos (List.mem_map_of_mem _ hI)] at this
      exact this

theorem VLe.getElem?_true {v w : DomainVal} (h : VLe true v w) (j : Nat)
    (hj : v[j]? = some true) : w[j]? = some true := by
  unfold VLe at h
  induction h generalizing j with
  | nil => simp at hj
  | @cons a b l l' hab _ ih =>
    cases j with
    | zero =>
      simp only [List.getElem?_cons_zero, Option.some.injEq] at hj ⊢
      exact hab hj
    | succ j =>
      simp only [List.getElem?_cons_succ] at hj ⊢
      exact ih j hj

theorem VLe.getElem?_false {v w : DomainVal} (h : VLe false v w) (j : Nat)
    (hj : w[j]? = some true) : v[j]? = some true := by
  unfold VLe at h
  induction h generalizing j with
  | nil => simp at hj
  | @cons a b l l' hab _ ih =>
    cases j with
    | zero =>
      simp only [List.getElem?_cons_zero, Option.some.injEq] at hj ⊢
      cases a with
      | true => rfl
      | false => rw [hab rfl] at hj; cases hj
    | succ j =>
      simp only [List.getElem?_cons_succ] at hj ⊢
      exact ih j hj

/-- C26: on a function with non-empty blocks, neighbours inside the function
and distinct instructions, let `S` assign a vector of length `|Domain|` to
every instruction and solve the equations of `AvailExpr` (`FixedPoint`: the
vector of every instruction is the output of `transferFunc` on the incoming
vector computed from `S`, the boundary value of the block for its first
instruction and the vector of the preceding instruction otherwise). Then
`AvailExpr::runOnFunction` on a fresh instance returns, the map it returns is
such a solution itself, and it is the greatest: `S[I][j]` implies
`result[I][j]` for every instruction `I` and index `j`. -/
theorem availExpr_greatest_solution (F : Function) (hF : WellFormed F) (S : InstMap)
    (hGood : Good (initializeDomain AvailExpr [] F).length F S)
    (hfix : FixedPoint AvailExpr (initializeDomain AvailExpr [] F) F S) :
    (∃ N, ∀ fuel, N ≤ fuel →
      ∃ fw, runOnFunction AvailExpr fuel Framework.fresh F = some (Except.ok fw)) ∧
    ∀ fuel fw, runOnFunction AvailExpr fuel Framework.fresh F = some (Except.ok fw) →
      fw.Domain = initializeDomain AvailExpr [] F ∧
      Good fw.Domain.length F fw.InstDomainValMap ∧
      FixedPoint AvailExpr fw.Domain F fw.InstDomainValMap ∧
      ∀ I ∈ instructions F, ∀ s r : DomainVal, S I.id = some s →
        fw.InstDomainValMap I.id = some r → ∀ j : Nat, s[j]? = some true → r[j]? = some true := by
  have hS := availExpr_sound (initializeDomain AvailExpr [] F) F (availExpr_domain_distinct F)
  obtain ⟨hterm, hres⟩ := runOnFunction_spec (A := AvailExpr) Framework.fresh rfl hS hF
  refine ⟨hterm, ?_⟩
  intro fuel fw hfw
  obtain ⟨h1, h2, h3⟩ := hres fuel fw hfw
  refine ⟨h1, h2, h3, ?_⟩
  intro I hI s r hs hr j hj
  have := runOnFunction_above (A := AvailExpr) Framework.fresh rfl hS hF S hGood hfix fuel fw
    hfw I hI
  simp only [val, hs, hr, Option.getD_some] at this
  exact this.getElem?_true j hj

/-- C26 on `exCarry`, with the solution `exCarrySolution`. -/
theorem availExpr_greatest_solution_witness :
    WellFormed exCarry ∧
    Good (initializeDomain AvailExpr [] exCarry).length exCarry exCarrySolution ∧
    FixedPoint AvailExpr (initializeDomain AvailExpr [] exCarry) exCarry exCarrySolution ∧
    ∀ fuel fw, runOnFunction AvailExpr fuel Framework.fresh exCarry = some (Except.ok fw) →
      ∀ r, fw.InstDomainValMap 1 = some r → r[0]? = some true := by
  have hF : WellFormed exCarry := ⟨by decide, by decide, by decide, by decide⟩
  have hG : Good (initializeDomain AvailExpr [] exCarry).length exCarry exCarrySolution := by
    intro I hI
    simp only [instructions, exCarry, exCarryBlock, List.flatMap_cons, List.flatMap_nil,
      List.append_nil, List.mem_cons, List.mem_singleton, List.not_mem_nil, or_false] at hI
    rcases hI with rfl | rfl
    · exact ⟨[true], rfl, rfl⟩
    · exact ⟨[true], rfl, rfl⟩
  have hfix : FixedPoint AvailExpr (initializeDomain AvailExpr [] exCarry) exCarry
      exCarrySolution := by
    intro BB hBB task htask
    simp only [exCarry, List.mem_singleton] at hBB
    subst hBB
    have ht : task = (none, .binary 0 .Add (.arg 0) (.arg 1)) ∨
        task = (some (.binary 0 .Add (.arg 0) (.arg 1)), .nonBinary 1 1 [.inst 0]) := by
      simpa [blockTasks, tasksFrom, getInstTraversalOrder, AvailExpr, exCarryBlock] using htask
    rcases ht with rfl | rfl
    · exact ⟨[false], [true], rfl, rfl, rfl⟩
    · exact ⟨[true], [true], rfl, rfl, rfl⟩
  refine ⟨hF, hG, hfix, ?_⟩
  intro fuel fw hfw r hr
  exact (availExpr_greatest_solution exCarry hF exCarrySolution hG hfix).2 fuel fw hfw
    |>.2.2.2 (.nonBinary 1 1 [.inst 0]) (by decide) [true] r rfl hr 0 rfl

/-- C27: on a function with non-empty blocks, neighbours inside the function
and distinct instructions, let `S` assign a vector of length `|Domain|` to
every instruction and solve the liveness equations (`FixedPoint`: the vector
of every instruction is the output of `transferFunc` on the incoming vector
computed from `S`: for the last instruction of a block the union of `S` over
the first instructions of the successor blocks, all-false without successors,
and the vector of the following instruction otherwise). Then
`Liveness::runOnFunction` on a fresh instance returns, the map it returns is
such a solution itself, and it is the least: `result[I][j]` implies `S[I][j]`
for every instruction `I` and index `j`. -/
theorem liveness_least_solution (F : Function) (hF : WellFormed F) (S : InstMap)
    (hGood : Good (initializeDomain Liveness [] F).length F S)
    (hfix : FixedPoint Liveness (initializeDomain Liveness [] F) F S) :
    (∃ N, ∀ fuel, N ≤ fuel →
      ∃ fw, runOnFunction Liveness fuel Framework.fresh F = some (Except.ok fw)) ∧
    ∀ fuel fw, runOnFunction Liveness fuel Framework.fresh F = some (Except.ok fw) →
      fw.Domain = initializeDomain Liveness [] F ∧
      Good fw.Domain.length F fw.InstDomainValMap ∧
      FixedPoint Liveness fw.Domain F fw.InstDomainValMap ∧
      ∀ I ∈ instructions F, ∀ s r : DomainVal, S I.id = some s →
        fw.InstDomainValMap I.id = some r → ∀ j : Nat, r[j]? = some true → s[j]? = some true := by
  have hS := liveness_sound (initializeDomain Liveness [] F) F (liveness_domain_distinct F)
  obtain ⟨hterm, hres⟩ := runOnFunction_spec (A := Liveness) Framework.fresh rfl hS hF
  refine ⟨hterm, ?_⟩
  intro fuel fw hfw
  obtain ⟨h1, h2, h3⟩ := hres fuel fw hfw
  refine ⟨h1, h2, h3, ?_⟩
  intro I hI s r hs hr j hj
  have := runOnFunction_above (A := Liveness) Framework.fresh rfl hS hF S hGood hfix fuel fw
    hfw I hI
  simp only [val, hs, hr, Option.getD_some] at this
  exact this.getElem?_false j hj

/-- C27 on `exLive`, with the solution `exLiveSolution`. -/
theorem liveness_least_solution_witness :
    WellFormed exLive ∧
    Good (initializeDomain Liveness [] exLive).length exLive exLiveSolution ∧
    FixedPoint Liveness (initializeDomain Liveness [] exLive) exLive exLiveSolution ∧
    ∀ fuel fw, runOnFunction Liveness fuel Framework.fresh exLive = some (Except.ok fw) →
      ∀ r, fw.InstDomainValMap 0 = some r → r[2]? ≠ some true := by
  have hF : WellFormed exLive := ⟨by decide, by decide, by decide, by decide⟩
  have hG : Good (initializeDomain Liveness [] exLive).length exLive exLiveSolution := by
    intro I hI
    simp only [instructions, exLive, exLiveBlock, List.flatMap_cons, List.flatMap_nil,
      List.append_nil, List.mem_cons, List.mem_singleton, List.not_mem_nil, or_false] at hI
    rcases hI with rfl | rfl | rfl
    · exact ⟨_, rfl, rfl⟩
    · exact ⟨_, rfl, rfl⟩
    · exact ⟨_, rfl, rfl⟩
  have hfix : FixedPoint Liveness (initializeDomain Liveness [] exLive) exLive
      exLiveSolution := by
    intro BB hBB task htask
    simp only [exLive, List.mem_singleton] at hBB
    subst hBB
    have ht : task = (none, .nonBinary 2 1 [.inst 1]) ∨
        task = (some (.nonBinary 2 1 [.inst 1]), .binary 1 .Add (.inst 0) (.arg 2)) ∨
        task = (some (.binary 1 .Add (.inst 0) (.arg 2)), .binary 0 .Add (.arg 0) (.arg 1)) := by
      simpa [blockTasks, tasksFrom, getInstTraversalOrder, Liveness, exLiveBlock] using htask
    rcases ht with rfl | rfl | rfl
    · exact ⟨[false, false, false, false, false], [false, false, false, false, true],
        rfl, rfl, rfl⟩
    · exact ⟨[false, false, false, false, true], [false, false, true, true, false],
        rfl, rfl, rfl⟩
    · exact ⟨[false, false, true, true, false], [true, true, false, true, false],
        rfl, rfl, rfl⟩
  refine ⟨hF, hG, hfix, ?_⟩
  intro fuel fw hfw r hr hj
  have := (liveness_least_solution exLive hF exLiveSolution hG hfix).2 fuel fw hfw
    |>.2.2.2 (.binary 0 .Add (.arg 0) (.arg 1)) (by decide)
      [true, true, false, true, false] r rfl hr 2 hj
  cases this

/-! ## Convergence is a predicate of the whole sweep -/

theorem bind_ok_inv {α β : Type} {x : Except Failure α} {f : α → Except Failure β} {b : β}
    (h : (x >>= f) = Except.ok b) : ∃ a, x = Except.ok a ∧ f a = Except.ok b := by
  cases x with
  | error e => cases h
  | ok a => exact ⟨a, rfl, h⟩

theorem instLoopLog_erase {E : Type} (A : Analysis E) (D : List E) :
    ∀ (l : List Instruction) (m : InstMap) (IN : DomainVal) (ch : Bool)
      (calls : List Instruction),
      (instLoopLog A D l m IN ch calls).map (fun r => (r.1, r.2.1)) = instLoop A D l m IN ch := by
  intro l
  induction l with
  | nil => intro m IN ch calls; rfl
  | cons I rest ih =>
    intro m IN ch calls
    simp only [instLoopLog, instLoop]
    cases m.at I.id with
    | error e => rfl
    | ok OUT =>
      simp only [ok_bind]
      cases A.transferFunc D I IN OUT with
      | error e => rfl
      | ok r =>
        obtain ⟨OUT', c⟩ := r
        simp only [ok_bind]
        cases m.store I.id OUT' with
        | error e => rfl
        | ok m1 =>
          simp only [ok_bind]
          exact ih m1 OUT' (ch || c) (calls ++ [I])

theorem bbLoopLog_erase {E : Type} (A : Analysis E) (D : List E) (F : Function) :
    ∀ (bl : List BasicBlock) (m : InstMap) (ch : Bool) (calls : List Instruction),
      (bbLoopLog A D F bl m ch calls).map (fun r => (r.1, r.2.1)) = bbLoop A D F bl m ch := by
  intro bl
  induction bl with
  | nil => intro m ch calls; rfl
  | cons BB rest ih =>
    intro m ch calls
    simp only [bbLoopLog, bbLoop]
    cases getBoundaryVal A D F m BB with
    | error e => rfl
    | ok IN =>
      simp only [ok_bind]
      have h := instLoopLog_erase A D (getInstTraversalOrder A.dir BB) m IN ch calls
      cases hl : instLoopLog A D (getInstTraversalOrder A.dir BB) m IN ch calls with
      | error e =>
        rw [hl] at h
        rw [← h]
        rfl
      | ok r =>
        obtain ⟨m1, ch1, calls1⟩ := r
        rw [hl] at h
        rw [← h]
        simp only [ok_bind, Except.map]
        exact ih m1 ch1 calls1

theorem instLoopLog_spec {E : Type} {A : Analysis E} (D : List E) (hflag : FlagExact A) :
    ∀ (l : List Instruction) (m : InstMap) (IN : DomainVal) (ch : Bool)
      (calls : List Instruction) (m' : InstMap) (ch' : Bool) (calls' : List Instruction),
      (l.map Instruction.id).Nodup →
      instLoopLog A D l m IN ch calls = Except.ok (m', ch', calls') →
      calls' = calls ++ l ∧ (∀ id, id ∉ l.map Instruction.id → m' id = m id) ∧
      (ch' = true ↔ ch = true ∨ ∃ I ∈ l, m' I.id ≠ m I.id) := by
  intro l
  induction l with
  | nil =>
    intro m IN ch calls m' ch' calls' _ h
    simp only [instLoopLog, Except.ok.injEq, Prod.mk.injEq] at h
    obtain ⟨rfl, rfl, rfl⟩ := h
    simp
  | cons I rest ih =>
    intro m IN ch calls m' ch' calls' hnd h
    rw [List.map_cons, List.nodup_cons] at hnd
    simp only [instLoopLog] at h
    obtain ⟨OUT, h1, h⟩ := bind_ok_inv h
    obtain ⟨⟨OUT', c⟩, h2, h⟩ := bind_ok_inv h
    obtain ⟨m1, h3, h⟩ := bind_ok_inv h
    have hOUT : m I.id = some OUT := by
      unfold InstMap.at at h1
      split at h1
      · next v hv => cases h1; exact hv
      · cases h1
    have hm1 : m1 = m.assign I.id OUT' := by
      unfold InstMap.store at h3
      rw [hOUT] at h3
      cases h3
      rfl
    subst hm1
    obtain ⟨e1, e2, e3⟩ := ih _ _ _ _ _ _ _ hnd.2 h
    have hI : m' I.id = some OUT' := by
      rw [e2 I.id hnd.1]
      simp [InstMap.assign]
    have hc : c = true ↔ m' I.id ≠ m I.id := by
      rw [hflag D I IN OUT OUT' c h2, hI, hOUT]
      simp
    have hrest : ∀ J ∈ rest, (m.assign I.id OUT') J.id = m J.id := by
      intro J hJ
      have : J.id ≠ I.id := fun e => hnd.1 (e ▸ List.mem_map_of_mem _ hJ)
      simp [InstMap.assign, this]
    refine ⟨by rw [e1]; simp, ?_, ?_⟩
    · intro id hid
      simp only [List.map_cons, List.mem_cons, not_or] at hid
      rw [e2 id hid.2]
      simp [InstMap.assign, hid.1]
    · rw [e3, Bool.or_eq_true, hc]
      constructor
      · rintro (⟨h | h⟩ | ⟨J, hJ, hne⟩)
        · exact Or.inl h
        · exact Or.inr ⟨I, List.mem_cons_self _ _, h⟩
        · exact Or.inr ⟨J, List.mem_cons_of_mem _ hJ, by rw [← hrest J hJ]; exact hne⟩
      · rintro (h | ⟨J, hJ, hne⟩)
        · exact Or.inl (Or.inl h)
        · rcases List.mem_cons.mp hJ with rfl | hJ
          · exact Or.inl (Or.inr hne)
          · exact Or.inr ⟨J, hJ, by rw [hrest J hJ]; exact hne⟩

theorem bbLoopLog_spec {E : Type} {A : Analysis E} (D : List E) (F : Function)
    (hflag : FlagExact A) :
    ∀ (bl : List BasicBlock) (m : InstMap) (ch : Bool) (calls : List Instruction)
      (m' : InstMap) (ch' : Bool) (calls' : List Instruction),
      ((bl.flatMap (getInstTraversalOrder A.dir)).map Instruction.id).Nodup →
      bbLoopLog A D F bl m ch calls = Except.ok (m', ch', calls') →
      calls' = calls ++ bl.flatMap (getInstTraversalOrder A.dir) ∧
      (∀ id, id ∉ (bl.flatMap (getInstTraversalOrder A.dir)).map Instruction.id →
        m' id = m id) ∧
      (ch' = true ↔
        ch = true ∨ ∃ I ∈ bl.flatMap (getInstTraversalOrder A.dir), m' I.id ≠ m I.id) := by
  intro bl
  induction bl with
  | nil =>
    intro m ch calls m' ch' calls' _ h
    simp only [bbLoopLog, Except.ok.injEq, Prod.mk.injEq] at h
    obtain ⟨rfl, rfl, rfl⟩ := h
    simp
  | cons BB rest ih =>
    intro m ch calls m' ch' calls' hnd h
    simp only [List.flatMap_cons, List.map_append] at hnd
    rw [List.nodup_append] at hnd
    obtain ⟨hnd1, hnd2, hdis⟩ := hnd
    simp only [bbLoopLog] at h
    obtain ⟨IN, _, h⟩ := bind_ok_inv h
    obtain ⟨⟨m1, ch1, calls1⟩, h2, h⟩ := bind_ok_inv h
    obtain ⟨a1, a2, a3⟩ := instLoopLog_spec D hflag _ _ _ _ _ _ _ _ hnd1 h2
    have h' : bbLoopLog A D F rest m1 ch1 calls1 = Except.ok (m', ch', calls') := h
    obtain ⟨b1, b2, b3⟩ := ih _ _ _ _ _ _ hnd2 h'
    have hfirst : ∀ I ∈ getInstTraversalOrder A.dir BB, m' I.id = m1 I.id :=
      fun I hI => b2 I.id (fun hmem => hdis (List.mem_map_of_mem _ hI) hmem)
    have hsecond : ∀ I ∈ rest.flatMap (getInstTraversalOrder A.dir), m1 I.id = m I.id :=
      fun I hI => a2 I.id (fun hmem => hdis hmem (List.mem_map_of_mem _ hI))
    refine ⟨by rw [b1, a1]; simp, ?_, ?_⟩
    · intro id hid
      simp only [List.flatMap_cons, List.map_append, List.mem_append, not_or] at hid
      rw [b2 id hid.2, a2 id hid.1]
    · rw [b3, a3]
      simp only [List.flatMap_cons, List.mem_append]
      constructor
      · rintro ((h | ⟨I, hI, hne⟩) | ⟨I, hI, hne⟩)
        · exact Or.inl h
        · exact Or.inr ⟨I, Or.inl hI, by rw [hfirst I hI]; exact hne⟩
        · exact Or.inr ⟨I, Or.inr hI, by rw [← hsecond I hI]; exact hne⟩
      · rintro (h | ⟨I, hI | hI, hne⟩)
        · exact Or.inl (Or.inl h)
        · exact Or.inl (Or.inr ⟨I, hI, by rw [← hfirst I hI]; exact hne⟩)
        · exact Or.inr ⟨I, hI, by rw [hsecond I hI]; exact hne⟩

theorem traversal_perm (dir : Direction) (F : Function) :
    ((getBBTraversalOrder dir F).flatMap (getInstTraversalOrder dir)).Perm (instructions F) := by
  cases dir with
  | kForward => exact List.Perm.refl _
  | kBackward =>
    have : (getBBTraversalOrder Direction.kBackward F).flatMap
        (getInstTraversalOrder Direction.kBackward) = (instructions F).reverse := by
      simp only [getBBTraversalOrder, instructions]
      induction F.blocks with
      | nil => rfl
      | cons BB rest ih =>
        simp only [List.reverse_cons, List.flatMap_append, List.flatMap_cons, List.flatMap_nil,
          List.append_nil, List.reverse_append, ih, getInstTraversalOrder]
    rw [this]
    exact List.reverse_perm _

theorem wholeSweep_of {E : Type} {A : Analysis E} {D : List E} {F : Function} {t : Bool}
    (hL : LenSound A D F t) (hflag : FlagExact A) (hF : WellFormed F) : WholeSweep A D F := by
  intro m
  have herase : (traverseCFGLog A D F m).map (fun r => (r.1, r.2.1)) = traverseCFG A D F m :=
    bbLoopLog_erase A D F _ m false []
  refine ⟨herase, ?_, ?_⟩
  · intro h1 h2
    obtain ⟨m', ch', a1, _⟩ := traverseCFG_len hL hF m (good_of_allLength h1 h2) h2
    exact ⟨m', ch', a1⟩
  · intro m' ch calls h
    have hperm := traversal_perm A.dir F
    have hnd : (((getBBTraversalOrder A.dir F).flatMap (getInstTraversalOrder A.dir)).map
        Instruction.id).Nodup := (hperm.map _).nodup_iff.mpr hF.nodup
    obtain ⟨a1, _, a3⟩ := bbLoopLog_spec D F hflag _ m false [] m' ch calls hnd h
    simp only [List.nil_append] at a1
    refine ⟨a1, a1 ▸ hperm, ?_⟩
    rw [a3]
    simp only [Bool.false_eq_true, false_or]
    constructor
    · rintro ⟨I, hI, hne⟩
      exact ⟨I, hperm.mem_iff.mp hI, hne⟩
    · rintro ⟨I, hI, hne⟩
      exact ⟨I, hperm.mem_iff.mpr hI, hne⟩

theorem availExpr_flagExact : FlagExact AvailExpr := by
  intro D I IN OV OUT c h
  simp only [AvailExpr, AvailExpr.transferFunc] at h
  obtain ⟨T1, _, h⟩ := bind_ok_inv h
  obtain ⟨T2, _, h⟩ := bind_ok_inv h
  obtain ⟨c', hd, h⟩ := bind_ok_inv h
  simp only [pure_eq_ok, Except.ok.injEq, Prod.mk.injEq] at h
  obtain ⟨rfl, rfl⟩ := h
  have hlen : OV.length = T2.length := by
    by_contra hne
    unfold diff at hd
    rw [if_pos hne] at hd
    cases hd
  rw [diff_eq OV T2 hlen] at hd
  simp only [Except.ok.injEq] at hd
  rw [← hd]
  simp

theorem antiExpr_flagExact : FlagExact AntiExprImpl := by
  intro D I IN OV OUT c h
  simp only [AntiExprImpl, AntiExprImpl.transferFunc] at h
  obtain ⟨T1, _, h⟩ := bind_ok_inv h
  obtain ⟨T2, _, h⟩ := bind_ok_inv h
  simp only [pure_eq_ok, Except.ok.injEq, Prod.mk.injEq] at h
  obtain ⟨rfl, rfl⟩ := h
  simp

theorem wbAvailExpr_flagExact (AntiExprInstDomainValMap : InstMap) :
    FlagExact (WBAvailExprImpl AntiExprInstDomainValMap) := by
  intro D I IN OV OUT c h
  simp only [WBAvailExprImpl, WBAvailExprImpl.transferFunc] at h
  obtain ⟨T1, _, h⟩ := bind_ok_inv h
  obtain ⟨A, _, h⟩ := bind_ok_inv h
  split at h
  · cases h
  · obtain ⟨T2, _, h⟩ := bind_ok_inv h
    simp only [pure_eq_ok, Except.ok.injEq, Prod.mk.injEq] at h
    obtain ⟨rfl, rfl⟩ := h
    simp

theorem liveness_flagExact : FlagExact Liveness := by
  intro D I IN OV OUT c h
  simp only [Liveness, Liveness.transferFunc] at h
  obtain ⟨T1, _, h⟩ := bind_ok_inv h
  obtain ⟨T2, _, h⟩ := bind_ok_inv h
  simp only [pure_eq_ok, Except.ok.injEq, Prod.mk.injEq] at h
  obtain ⟨rfl, rfl⟩ := h
  simp

theorem ePlace_flagExact : FlagExact EPlaceImpl := by
  intro D I IN OV OUT c h
  simp only [EPlaceImpl, EPlaceImpl.transferFunc, Except.ok.injEq, Prod.mk.injEq] at h
  obtain ⟨rfl, rfl⟩ := h
  simp

theorem intersect_call_eq (v w : DomainVal) (h : v.length = w.length) :
    Intersect.call v w = Except.ok (List.zipWith (bitMeet true) v w) := by
  rw [bitMeet_true]; exact Intersect_call_ok v w h

theorem union_call_eq (v w : DomainVal) (h : v.length = w.length) :
    Union.call v w = Except.ok (List.zipWith (bitMeet false) v w) := by
  rw [bitMeet_false]; exact Union_call_ok v w h

theorem availExpr_lenSound (D : List Expression) (F : Function) :
    LenSound AvailExpr D F true where
  call_eq := intersect_call_eq
  top_eq := fun _ => rfl
  tf_len := fun I _ IN OV hIN hOV => by
    obtain ⟨OUT, _, e, _, _, hlen⟩ :=
      availExpr_transferFunc_mono D I OV OV (VLe.refl true IN) hIN hOV hOV
    exact ⟨OUT, _, e, hlen⟩

theorem antiExpr_lenSound (D : List Expression) (F : Function) :
    LenSound AntiExprImpl D F true where
  call_eq := intersect_call_eq
  top_eq := fun _ => rfl
  tf_len := fun I _ IN OV hIN _ => by
    obtain ⟨OUT, _, e, _, _, hlen⟩ :=
      antiExpr_transferFunc_mono D I OV OV (VLe.refl true IN) hIN
    exact ⟨OUT, _, e, hlen⟩

theorem wbAvailExpr_lenSound (AntiExprInstDomainValMap : InstMap) (D : List Expression)
    (F : Function) (hA : Good D.length F AntiExprInstDomainValMap) :
    LenSound (WBAvailExprImpl AntiExprInstDomainValMap) D F true where
  call_eq := intersect_call_eq
  top_eq := fun _ => rfl
  tf_len := fun I hI IN OV hIN _ => by
    obtain ⟨A, hA1, hA2⟩ := hA I hI
    obtain ⟨OUT, _, e, _, _, hlen⟩ := wbAvailExpr_transferFunc_mono AntiExprInstDomainValMap
      D I OV OV (VLe.refl true IN) hIN hA1 hA2
    exact ⟨OUT, _, e, hlen⟩

theorem liveness_lenSound (D : List Variable) (F : Function) :
    LenSound Liveness D F false where
  call_eq := union_call_eq
  top_eq := fun _ => rfl
  tf_len := fun I _ IN OV hIN _ => by
    obtain ⟨OUT, _, e, _, _, hlen⟩ :=
      liveness_transferFunc_mono D I OV OV (VLe.refl true IN) hIN
    exact ⟨OUT, _, e, hlen⟩

/-- C21: on a function with non-empty blocks, neighbours inside the function
and distinct instructions, for each of the five analyses, every domain and
every state of the map, convergence is a predicate of the whole sweep
(`WholeSweep`): one call of `traverseCFG` calls `transferFunc` on the
instructions of every block in traversal order, every instruction of `F` once,
whatever the flags of the calls before, and it returns `true` exactly when
the vector of at least one instruction differs from the one before the call.
The call returns whenever every instruction has a vector and all vectors of
the map have length `|Domain|` (for `WBAvailExprImpl`, the Anticipated map
holding such a vector for every instruction as well). -/
theorem traverseCFG_whole_sweep (F : Function) (hF : WellFormed F) :
    (∀ D : List Expression, WholeSweep AvailExpr D F ∧ WholeSweep AntiExprImpl D F ∧
      WholeSweep EPlaceImpl D F ∧
      ∀ AntiExprInstDomainValMap : InstMap, Good D.length F AntiExprInstDomainValMap →
        WholeSweep (WBAvailExprImpl AntiExprInstDomainValMap) D F) ∧
    (∀ D : List Variable, WholeSweep Liveness D F) :=
  ⟨fun D => ⟨wholeSweep_of (availExpr_lenSound D F) availExpr_flagExact hF,
      wholeSweep_of (antiExpr_lenSound D F) antiExpr_flagExact hF,
      wholeSweep_of (ePlace_lenSound D F) ePlace_flagExact hF,
      fun m hA => wholeSweep_of (wbAvailExpr_lenSound m D F hA) (wbAvailExpr_flagExact m) hF⟩,
    fun D => wholeSweep_of (liveness_lenSound D F) liveness_flagExact hF⟩

/-- C21 on `exLive`, for `Liveness` from the initial map: the three
instructions are visited once each, last to first, and the sweep reports a
change. -/
theorem traverseCFG_whole_sweep_witness :
    WellFormed exLive ∧
    WholeSweep Liveness (initializeDomain Liveness [] exLive) exLive ∧
    ∃ m', traverseCFGLog Liveness (initializeDomain Liveness [] exLive) exLive
        (applyInitialConditions Union 5 exLive InstMap.empty)
      = Except.ok (m', true, [.nonBinary 2 1 [.inst 1], .binary 1 .Add (.inst 0) (.arg 2),
          .binary 0 .Add (.arg 0) (.arg 1)]) := by
  have hF : WellFormed exLive := ⟨by decide, by decide, by decide, by decide⟩
  have hW := (traverseCFG_whole_sweep exLive hF).2 (initializeDomain Liveness [] exLive)
  refine ⟨hF, hW, ?_⟩
  cases h : traverseCFGLog Liveness (initializeDomain Liveness [] exLive) exLive
      (applyInitialConditions Union 5 exLive InstMap.empty) with
  | error e =>
    have : (traverseCFGLog Liveness (initializeDomain Liveness [] exLive) exLive
      (applyInitialConditions Union 5 exLive InstMap.empty)).toBool = true := rfl
    rw [h] at this
    cases this
  | ok r =>
    obtain ⟨m', ch, calls⟩ := r
    have hc : calls = [.nonBinary 2 1 [.inst 1], .binary 1 .Add (.inst 0) (.arg 2),
        .binary 0 .Add (.arg 0) (.arg 1)] := by
      have : (match traverseCFGLog Liveness (initializeDomain Liveness [] exLive) exLive
          (applyInitialConditions Union 5 exLive InstMap.empty) with
        | Except.ok r => r.2.2 | Except.error _ => []) = [.nonBinary 2 1 [.inst 1],
          .binary 1 .Add (.inst 0) (.arg 2), .binary 0 .Add (.arg 0) (.arg 1)] := rfl
      rw [h] at this
      exact this
    have hch : ch = true := by
      have : (match traverseCFGLog Liveness (initializeDomain Liveness [] exLive) exLive
          (applyInitialConditions Union 5 exLive InstMap.empty) with
        | Except.ok r => r.2.1 | Except.error _ => false) = true := rfl
      rw [h] at this
      exact this
    subst hc
    subst hch
    exact ⟨m', rfl⟩

/-! ## Strength reduction -/

open LocalOpts

theorem isPowerofTwoLoop_pow :
    ∀ (k fuel : Nat) (power : Int), k < fuel →
      isPowerofTwoLoop fuel ((2 : Int) ^ k) power = some (power + k) := by
  intro k
  induction k with
  | zero =>
    intro fuel power h
    obtain ⟨f, rfl⟩ : ∃ f, fuel = f + 1 := ⟨fuel - 1, by omega⟩
    simp [isPowerofTwoLoop]
  | succ k ih =>
    intro fuel power h
    obtain ⟨f, rfl⟩ : ∃ f, fuel = f + 1 := ⟨fuel - 1, by omega⟩
    have hpos : (0 : Int) < 2 ^ k := by positivity
    have hne : (2 : Int) ^ (k + 1) ≠ 1 := by
      rw [pow_succ]
      omega
    have hmod : ((2 : Int) ^ (k + 1)).tmod 2 = 0 :=
      Int.tmod_eq_zero_of_dvd ⟨2 ^ k, by rw [pow_succ]; ring⟩
    have hdiv : ((2 : Int) ^ (k + 1)).tdiv 2 = 2 ^ k := by
      rw [pow_succ, Int.tdiv_eq_ediv (by positivity) (by norm_num)]
      omega
    simp only [isPowerofTwoLoop, hne, if_false, hmod, ne_eq, not_true_eq_false, hdiv]
    rw [ih f (power + 1) (by omega)]
    congr 1
    push_cast
    ring

theorem isPowerofTwoLoop_not_pow :
    ∀ (fuel : Nat) (n power : Int), n ≠ 0 → n.natAbs < 2 ^ fuel →
      (∀ k : Nat, n ≠ 2 ^ k) → isPowerofTwoLoop fuel n power = some 0 := by
  intro fuel
  induction fuel with
  | zero =>
    intro n power h0 hlt _
    simp only [pow_zero, Nat.lt_one_iff, Int.natAbs_eq_zero] at hlt
    exact absurd hlt h0
  | succ fuel ih =>
    intro n power h0 hlt hpow
    have h1 : n ≠ 1 := by simpa using hpow 0
    by_cases hmod : n.tmod 2 = 0
    · have hn : n = 2 * n.tdiv 2 := by
        have := Int.tmod_add_tdiv n 2
        rw [hmod] at this
        omega
      have hm0 : n.tdiv 2 ≠ 0 := fun e => h0 (by rw [hn, e]; rfl)
      have habs : (n.tdiv 2).natAbs < 2 ^ fuel := by
        have : n.natAbs = 2 * (n.tdiv 2).natAbs := by
          conv_lhs => rw [hn]
          rw [Int.natAbs_mul]
          rfl
        rw [this, pow_succ] at hlt
        omega
      have hm : ∀ k : Nat, n.tdiv 2 ≠ 2 ^ k := by
        intro k e
        apply hpow (k + 1)
        rw [hn, e, pow_succ]
        ring
      simp only [isPowerofTwoLoop, h1, if_false, hmod, ne_eq, not_true_eq_false]
      exact ih _ _ hm0 habs hm
    · simp only [isPowerofTwoLoop, h1, if_false, ne_eq, hmod, not_false_eq_true, if_true]

/-- C31: for every `int` `n` (a number in `[-2^31, 2^31)`) `isPowerofTwo(n)`
returns, within 32 iterations of its loop: it returns `k` when `n = 2^k` with
`1 ≤ k ≤ 30`, and `0` for every other `n`: for `n = 1`, `n = 0`, every
negative `n` and every positive `n` that is not a power of two. -/
theorem isPowerofTwo_spec (n : Int) (fuel : Nat) (hlo : -(2 : Int) ^ 31 ≤ n)
    (hhi : n < (2 : Int) ^ 31) (hfuel : 32 ≤ fuel) :
    (∀ k : Nat, 1 ≤ k → k ≤ 30 → n = 2 ^ k → isPowerofTwo fuel n = some (k : Int)) ∧
    ((∀ k : Nat, 1 ≤ k → k ≤ 30 → n ≠ 2 ^ k) → isPowerofTwo fuel n = some 0) ∧
    (n = 1 ∨ n ≤ 0 → isPowerofTwo fuel n = some 0) := by
  have hother : (∀ k : Nat, 1 ≤ k → k ≤ 30 → n ≠ 2 ^ k) → isPowerofTwo fuel n = some 0 := by
    intro hno
    unfold isPowerofTwo
    by_cases h0 : n = 0
    · rw [if_pos h0]
    · rw [if_neg h0]
      by_cases hp : ∃ k : Nat, n = 2 ^ k
      · obtain ⟨k, hk⟩ := hp
        have hk0 : k = 0 := by
          by_contra hne
          have h30 : ¬ k ≤ 30 := fun h => hno k (by omega) h hk
          have : (2 : Int) ^ 31 ≤ 2 ^ k := pow_le_pow_right₀ (by norm_num) (by omega)
          omega
        subst hk0
        rw [hk, isPowerofTwoLoop_pow 0 fuel 0 (by omega)]
        rfl
      · refine isPowerofTwoLoop_not_pow fuel n 0 h0 ?_ (fun k e => hp ⟨k, e⟩)
        have h1 : n.natAbs ≤ 2 ^ 31 := by omega
        have h2 : 2 ^ 32 ≤ 2 ^ fuel := Nat.pow_le_pow_right (by norm_num) hfuel
        omega
  refine ⟨?_, hother, ?_⟩
  · intro k h1 h30 hk
    unfold isPowerofTwo
    have hpos : (0 : Int) < 2 ^ k := by positivity
    rw [if_neg (by omega), hk, isPowerofTwoLoop_pow k fuel 0 (by omega)]
    simp
  · intro h
    apply hother
    intro k h1 _ hk
    have : (2 : Int) ≤ 2 ^ k := by
      calc (2 : Int) = 2 ^ 1 := by norm_num
        _ ≤ 2 ^ k := pow_le_pow_right₀ (by norm_num) h1
    omega

/-- C31 at `n = 8` and at `n = -8`. -/
theorem isPowerofTwo_spec_witness :
    isPowerofTwo 32 8 = some 3 ∧ isPowerofTwo 32 (-8) = some 0 :=
  ⟨(isPowerofTwo_spec 8 32 (by norm_num) (by norm_num) (le_refl _)).1 3 (by norm_num)
      (by norm_num) (by norm_num),
    (isPowerofTwo_spec (-8) 32 (by norm_num) (by norm_num) (le_refl _)).2.2
      (Or.inr (by norm_num))⟩

theorem isPowerofTwo_pow (k fuel : Nat) (h : k < fuel) :
    isPowerofTwo fuel ((2 : Int) ^ k) = some (k : Int) := by
  unfold isPowerofTwo
  have hpos : (0 : Int) < 2 ^ k := by positivity
  rw [if_neg (by omega), isPowerofTwoLoop_pow k fuel 0 h]
  simp

theorem isPowerofTwo_pos (n p : Int) (fuel : Nat) (hlo : -(2 : Int) ^ 31 ≤ n)
    (hhi : n < (2 : Int) ^ 31) (hfuel : 32 ≤ fuel) (h : isPowerofTwo fuel n = some p)
    (hp : 0 < p) : ∃ k : Nat, 1 ≤ k ∧ k ≤ 30 ∧ n = 2 ^ k ∧ p = k := by
  by_cases h0 : n = 0
  · simp only [isPowerofTwo, h0, if_true, Option.some.injEq] at h
    omega
  · by_cases hpow : ∃ k : Nat, n = 2 ^ k
    · obtain ⟨k, hk⟩ := hpow
      have h30 : k ≤ 30 := by
        by_contra hne
        have : (2 : Int) ^ 31 ≤ 2 ^ k := pow_le_pow_right₀ (by norm_num) (by omega)
        omega
      rw [hk, isPowerofTwo_pow k fuel (by omega)] at h
      simp only [Option.some.injEq] at h
      exact ⟨k, by omega, h30, hk, h.symm⟩
    · have h1 : n.natAbs ≤ 2 ^ 31 := by omega
      have h2 : 2 ^ 32 ≤ 2 ^ fuel := Nat.pow_le_pow_right (by norm_num) hfuel
      simp only [isPowerofTwo, h0, if_false] at h
      rw [isPowerofTwoLoop_not_pow fuel n 0 h0 (by omega) (fun k e => hpow ⟨k, e⟩)] at h
      simp only [Option.some.injEq] at h
      omega

theorem toInt_of_int (c : Int) (hlo : -(2 : Int) ^ 31 ≤ c) (hhi : c < (2 : Int) ^ 31) :
    LocalOpts.toInt c = c := by
  unfold LocalOpts.toInt
  rw [Int.emod_eq_of_lt (by omega) (by omega)]
  omega

theorem toSigned_pow (w k : Nat) (hw : k + 1 < w) :
    LocalOpts.toSigned w (2 ^ k) = (2 : Int) ^ k := by
  unfold LocalOpts.toSigned
  rw [if_pos (Nat.pow_lt_pow_right (by norm_num) (by omega))]
  push_cast
  rfl

theorem shiftBy_pow (shift : BinaryOps) (w k fuel : Nat) (X : LocalOpts.Operand) (h1 : 1 ≤ k)
    (h30 : k ≤ 30) (hw : k + 1 < w) (hfuel : 32 ≤ fuel) :
    LocalOpts.shiftBy shift fuel w (2 ^ k) X
      = some (Except.ok (some ⟨shift, X, .constantInt X.BitWidth k⟩)) := by
  have hle : (2 : Int) ^ k ≤ 2 ^ 30 := pow_le_pow_right₀ (by norm_num) h30
  have hpos : (0 : Int) < 2 ^ k := by positivity
  have hget : LocalOpts.getSExtValue w (2 ^ k) = Except.ok ((2 : Int) ^ k) := by
    unfold LocalOpts.getSExtValue
    rw [toSigned_pow w k hw, if_pos ⟨by omega, by omega⟩]
  have hint : LocalOpts.toInt ((2 : Int) ^ k) = 2 ^ k := toInt_of_int _ (by omega) (by omega)
  simp only [LocalOpts.shiftBy, hget, hint, isPowerofTwo_pow k fuel (by omega)]
  rw [if_pos (by omega)]
  simp

/-- C32 does not hold of the code: `mul x, 2^k` and `mul 2^k, x` are replaced
by `lshr x, k`, a logical shift to the right, whose value is `x / 2^k`, not by
a shift to the left. This holds for every width `w`, every `k` with
`1 ≤ k ≤ 30` and `k < w - 1` and every value. On `mul i32 %x, 8` with
`%x = 1` the product is 8 and the instruction that replaces it evaluates
to 0. -/
theorem mul_replaced_by_lshr :
    (∀ w k id fuel : Nat, 1 ≤ k → k ≤ 30 → k + 1 < w → 32 ≤ fuel →
      LocalOpts.visit fuel ⟨.Mul, .value w id, .constantInt w (2 ^ k)⟩
        = some (Except.ok (some ⟨.LShr, .value w id, .constantInt w k⟩)) ∧
      LocalOpts.visit fuel ⟨.Mul, .constantInt w (2 ^ k), .value w id⟩
        = some (Except.ok (some ⟨.LShr, .value w id, .constantInt w k⟩)) ∧
      ∀ ρ : Nat → Nat,
        LocalOpts.BinaryOperator.eval ρ ⟨.LShr, .value w id, .constantInt w k⟩
          = some (ρ id / 2 ^ k)) ∧
    LocalOpts.BinaryOperator.eval (fun _ => 1) ⟨.Mul, .value 32 0, .constantInt 32 8⟩
      = some 8 ∧
    LocalOpts.visit 32 ⟨.Mul, .value 32 0, .constantInt 32 8⟩
      = some (Except.ok (some ⟨.LShr, .value 32 0, .constantInt 32 3⟩)) ∧
    LocalOpts.BinaryOperator.eval (fun _ => 1) ⟨.LShr, .value 32 0, .constantInt 32 3⟩
      = some 0 := by
  refine ⟨?_, rfl, rfl, rfl⟩
  intro w k id fuel h1 h30 hw hfuel
  refine ⟨?_, ?_, ?_⟩
  · simp only [LocalOpts.visit]
    exact shiftBy_pow .LShr w k fuel (.value w id) h1 h30 hw hfuel
  · simp only [LocalOpts.visit]
    exact shiftBy_pow .LShr w k fuel (.value w id) h1 h30 hw hfuel
  · intro ρ
    simp only [LocalOpts.BinaryOperator.eval, LocalOpts.evalBinary, LocalOpts.Operand.eval,
      LocalOpts.Operand.BitWidth]
    rw [if_pos (by omega)]

/-- C33 does not hold of the code: `sdiv x, 2^k` is replaced by `ashr x, k`,
whose value is the quotient rounded toward minus infinity, while `sdiv` rounds
toward zero; the two agree when `x` is not negative. On `sdiv i32 %x, 2` with
`%x = -1` the quotient is 0 and the instruction that replaces it evaluates to
-1 (all 32 bits set). -/
theorem sdiv_replaced_by_ashr :
    (∀ w k id fuel : Nat, 1 ≤ k → k ≤ 30 → k + 1 < w → 32 ≤ fuel →
      LocalOpts.visit fuel ⟨.SDiv, .value w id, .constantInt w (2 ^ k)⟩
        = some (Except.ok (some ⟨.AShr, .value w id, .constantInt w k⟩)) ∧
      ∀ ρ : Nat → Nat,
        LocalOpts.BinaryOperator.eval ρ ⟨.AShr, .value w id, .constantInt w k⟩
          = some (LocalOpts.toBits w ((LocalOpts.toSigned w (ρ id)).fdiv (2 ^ k))) ∧
        LocalOpts.BinaryOperator.eval ρ ⟨.SDiv, .value w id, .constantInt w (2 ^ k)⟩
          = some (LocalOpts.toBits w ((LocalOpts.toSigned w (ρ id)).tdiv (2 ^ k))) ∧
        (0 ≤ LocalOpts.toSigned w (ρ id) →
          LocalOpts.BinaryOperator.eval ρ ⟨.AShr, .value w id, .constantInt w k⟩
            = LocalOpts.BinaryOperator.eval ρ
                ⟨.SDiv, .value w id, .constantInt w (2 ^ k)⟩)) ∧
    LocalOpts.BinaryOperator.eval (fun _ => 4294967295)
        ⟨.SDiv, .value 32 0, .constantInt 32 2⟩ = some 0 ∧
    LocalOpts.visit 32 ⟨.SDiv, .value 32 0, .constantInt 32 2⟩
      = some (Except.ok (some ⟨.AShr, .value 32 0, .constantInt 32 1⟩)) ∧
    LocalOpts.BinaryOperator.eval (fun _ => 4294967295)
        ⟨.AShr, .value 32 0, .constantInt 32 1⟩ = some 4294967295 ∧
    LocalOpts.toSigned 32 4294967295 = -1 := by
  refine ⟨?_, rfl, rfl, rfl, rfl⟩
  intro w k id fuel h1 h30 hw hfuel
  refine ⟨?_, ?_⟩
  · simp only [LocalOpts.visit]
    exact shiftBy_pow .AShr w k fuel (.value w id) h1 h30 hw hfuel
  · intro ρ
    have hpos : (0 : Int) < 2 ^ k := by positivity
    have hA : LocalOpts.BinaryOperator.eval ρ ⟨.AShr, .value w id, .constantInt w k⟩
        = some (LocalOpts.toBits w ((LocalOpts.toSigned w (ρ id)).fdiv (2 ^ k))) := by
      simp only [LocalOpts.BinaryOperator.eval, LocalOpts.evalBinary, LocalOpts.Operand.eval,
        LocalOpts.Operand.BitWidth]
      rw [if_pos (by omega)]
    have hS : LocalOpts.BinaryOperator.eval ρ ⟨.SDiv, .value w id, .constantInt w (2 ^ k)⟩
        = some (LocalOpts.toBits w ((LocalOpts.toSigned w (ρ id)).tdiv (2 ^ k))) := by
      simp only [LocalOpts.BinaryOperator.eval, LocalOpts.evalBinary, LocalOpts.Operand.eval,
        LocalOpts.Operand.BitWidth, toSigned_pow w k hw]
      rw [if_neg (by omega), if_neg (by omega)]
    refine ⟨hA, hS, ?_⟩
    intro hx
    rw [hA, hS, Int.tdiv_eq_ediv hx (by omega), Int.fdiv_eq_ediv _ (by omega)]

/-- C34 does not hold of the code: for a constant that is an `int` already the
claim holds (a result `p > 0` of `isPowerofTwo` means the constant is `2^p`),
but the `int64_t` of `getSExtValue` is converted to `int` before the test, and
on the `i64` constant `4294967298 = 2^32 + 2` the conversion gives 2,
`isPowerofTwo` returns 1 and `mul i64 %x, 4294967298` is replaced by a shift
by 1, although the constant is not `2^1`. -/
theorem truncated_constant_rewritten :
    (∀ (c p : Int) (fuel : Nat), -(2 : Int) ^ 31 ≤ c → c < (2 : Int) ^ 31 → 32 ≤ fuel →
      LocalOpts.isPowerofTwo fuel (LocalOpts.toInt c) = some p → 0 < p → c = 2 ^ p.toNat) ∧
    LocalOpts.getSExtValue 64 4294967298 = Except.ok 4294967298 ∧
    LocalOpts.toInt 4294967298 = 2 ∧
    LocalOpts.isPowerofTwo 32 (LocalOpts.toInt 4294967298) = some 1 ∧
    (4294967298 : Int) ≠ 2 ^ 1 ∧
    LocalOpts.visit 32 ⟨.Mul, .value 64 0, .constantInt 64 4294967298⟩
      = some (Except.ok (some ⟨.LShr, .value 64 0, .constantInt 64 1⟩)) := by
  refine ⟨?_, rfl, rfl, rfl, by norm_num, rfl⟩
  intro c p fuel hlo hhi hfuel h hp
  rw [toInt_of_int c hlo hhi] at h
  obtain ⟨k, _, _, hk, hpk⟩ := isPowerofTwo_pos c p fuel hlo hhi hfuel h hp
  rw [hk, hpk]
  simp

end dfa
